import Mathlib

/-!
# Wave: revision store, connection registry and connection loop

A shallow embedding of `server.go`, `client.go` and `wire/types.go`.

* Go maps are association lists with pairwise distinct keys (`GoMap`).  The
  order of the list is the order in which a `range` over the map visits the
  entries; Go leaves that order unspecified, so results that depend on it are
  stated up to permutation and hold for every order of the list.
* Go channels live in a heap (`List (Chan α)`); a channel value is its index
  in the heap, so that channel identity (`chs.Receiver == ch`) is index
  equality.  A channel records every value sent on it so far, oldest first.
* Unsigned 64 bit integers are natural numbers; the server only compares
  them, and the one addition, the increment of the client's revision index,
  is taken modulo 2^64.
* The mutex of `serverConns`/`clientConns` makes each method one atomic step.
-/

namespace wave

/-! ## Go runtime: faults, maps, channels -/

/-- Ways in which a Go statement can fail to complete. -/
inductive Fault where
  /-- The goroutine waits forever (a send nobody will ever receive). -/
  | blocked
  /-- A run time panic (send on or close of a closed channel, dangling channel). -/
  | panic
deriving DecidableEq, Repr

/-- Result of running a piece of Go code on a state. -/
inductive Outcome (α : Type) where
  | ok (a : α)
  | fault (f : Fault)
deriving DecidableEq, Repr

namespace Outcome

/-- Sequencing: a fault aborts everything after it. -/
def bind {α β : Type} (x : Outcome α) (f : α → Outcome β) : Outcome β :=
  match x with
  | ok a => f a
  | fault e => fault e

end Outcome

/-- A Go map, as the list of its entries in `range` order. -/
abbrev GoMap (K V : Type) := List (K × V)

namespace GoMap

variable {K V : Type} [DecidableEq K]

/-- The expression `m[k]` with the comma-ok form: the value bound to `k`, if any. -/
def lookup : GoMap K V → K → Option V
  | [], _ => none
  | (k', v) :: m, k => if k' = k then some v else lookup m k

/-- The statement `m[k] = v`: overwrite the binding of `k`, or add one. -/
def store : GoMap K V → K → V → GoMap K V
  | [], k, v => [(k, v)]
  | (k', v') :: m, k, v => if k' = k then (k, v) :: m else (k', v') :: store m k v

/-- The statement `delete(m, k)`. -/
def delete : GoMap K V → K → GoMap K V
  | [], _ => []
  | (k', v') :: m, k => if k' = k then delete m k else (k', v') :: delete m k

/-- Keys in `range` order. -/
def keys (m : GoMap K V) : List K := m.map Prod.fst

/-- Values in `range` order. -/
def values (m : GoMap K V) : List V := m.map Prod.snd

end GoMap

/-- A Go channel `make(chan α, cap)`. -/
structure Chan (α : Type) where
  /-- Buffer capacity. -/
  cap : Nat
  /-- Every value sent on the channel so far, oldest first. -/
  sent : List α
  /-- Becomes true by `close`. -/
  closed : Bool
  /-- Whether a goroutine receives from the channel until it is closed
  (the sender task's `for range sendCh`, followed by its deferred drain loop). -/
  draining : Bool
deriving DecidableEq, Repr

/-- The expression `make(chan α, cap)`. -/
def Chan.make {α : Type} (cap : Nat) : Chan α :=
  { cap := cap, sent := [], closed := false, draining := false }

/-- The channel after one more value has been sent on it. -/
def Chan.push {α : Type} (c : Chan α) (v : α) : Chan α :=
  { c with sent := c.sent ++ [v] }

/-- The statement `ch <- v` on the channel at index `ch` of the heap.
Sending on a closed channel panics.  If a goroutine drains the channel the
send completes (possibly after waiting for room).  If nobody receives, the
send completes only while the buffer has room and waits forever otherwise. -/
def chanSend {α : Type} (heap : List (Chan α)) (ch : Nat) (v : α) :
    Outcome (List (Chan α)) :=
  match heap[ch]? with
  | none => .fault .panic
  | some c =>
    if c.closed then .fault .panic
    else if c.draining || decide (c.sent.length < c.cap) then
      .ok (heap.set ch (c.push v))
    else .fault .blocked

/-- The statement `close(ch)`; closing a closed channel panics. -/
def chanClose {α : Type} (heap : List (Chan α)) (ch : Nat) : Outcome (List (Chan α)) :=
  match heap[ch]? with
  | none => .fault .panic
  | some c =>
    if c.closed then .fault .panic
    else .ok (heap.set ch { c with closed := true })

/-- A goroutine starts receiving from channel `ch` and keeps doing so until
the channel is closed (`spawn("sender", ...)` in `runServerConn`). -/
def chanDrain {α : Type} (heap : List (Chan α)) (ch : Nat) : List (Chan α) :=
  match heap[ch]? with
  | none => heap
  | some c => heap.set ch { c with draining := true }

/-- Sends the values `vs` one after the other on channel `ch`. -/
def chanSendAll {α : Type} (heap : List (Chan α)) (ch : Nat) : List α → Outcome (List (Chan α))
  | [] => .ok heap
  | v :: vs => (chanSend heap ch v).bind fun heap1 => chanSendAll heap1 ch vs

/-- Sends `v` once on each of the channels `chs`, one after the other. -/
def chanSendEach {α : Type} (heap : List (Chan α)) (v : α) : List Nat → Outcome (List (Chan α))
  | [] => .ok heap
  | ch :: chs => (chanSend heap ch v).bind fun heap1 => chanSendEach heap1 v chs

/-! ## wire/types.go -/

namespace wire

/-- Type `PeerID [32]byte`. -/
abbrev PeerID := { bs : List (Fin 256) // bs.length = 32 }

/-- Type `Namespace string`. -/
abbrev Namespace := String

/-- Type `MessageID uint64`. -/
abbrev MessageID := Nat

/-- Type `Revision uint64`. -/
abbrev Revision := Nat

/-- NamespaceRequest defines messages to receive. -/
structure NamespaceRequest where
  Namespace : Namespace
  MessageIDs : List MessageID
deriving DecidableEq, Repr

/-- Hello is the message exchanged between peers when connecting. -/
structure Hello where
  PeerID : PeerID
  IsServer : Bool
  Requests : List NamespaceRequest
deriving DecidableEq

/-- MessageDescriptor uniquely identifies type of exchanged message. -/
structure MessageDescriptor where
  Namespace : Namespace
  MessageID : MessageID
deriving DecidableEq, Repr

/-- RevisionDescriptor uniquely identifies revision of message. -/
structure RevisionDescriptor where
  Message : MessageDescriptor
  Index : Revision
deriving DecidableEq, Repr

/-- Header describes the following message. -/
structure Header where
  Sender : PeerID
  Revision : RevisionDescriptor
deriving DecidableEq

end wire

/-! ## server.go: the revision store and the connection registry -/

/-- The key of the store: descriptor and sender. -/
structure revDescriptor where
  MessageDescriptor : wire.MessageDescriptor
  Sender : wire.PeerID
deriving DecidableEq

/-- An entry of the store: header and raw payload. -/
structure revision where
  Header : wire.Header
  Content : List (Fin 256)
deriving DecidableEq

/-- The two ends of a queue, as channel indices. -/
structure chans where
  Sender : Nat
  Receiver : Nat
deriving DecidableEq, Repr

/-- The struct `serverConns` (without its mutex), together with the heap of
channels its methods allocate in. -/
structure serverConns where
  conns : GoMap wire.PeerID chans
  msgs : GoMap revDescriptor revision
  heap : List (Chan revision)
deriving DecidableEq

/-- The function `newServerConns`, on an empty heap. -/
def newServerConns : serverConns :=
  { conns := [], msgs := [], heap := [] }

/-- The key under which the store files `msgRev`. -/
def revision.key (msgRev : revision) : revDescriptor :=
  { MessageDescriptor := msgRev.Header.Revision.Message, Sender := msgRev.Header.Sender }

/-- The method `serverConns.Add`: returns the new state and the new channel.
The new channel is known to no other goroutine before `Add` returns (the
caller spawns the sender task afterwards, and the registry is locked), so
nothing is received from it while the store entries are sent. -/
def serverConns.Add (c : serverConns) (peerID : wire.PeerID) : Outcome (serverConns × Nat) :=
  let ch := c.heap.length
  let heap0 := c.heap ++ [Chan.make 10]
  let closed : Outcome (List (Chan revision)) :=
    match GoMap.lookup c.conns peerID with
    | some old => chanClose heap0 old.Sender
    | none => .ok heap0
  closed.bind fun heap1 =>
    let conns := GoMap.store c.conns peerID { Sender := ch, Receiver := ch }
    (chanSendAll heap1 ch (GoMap.values c.msgs)).bind fun heap2 =>
      .ok ({ conns := conns, msgs := c.msgs, heap := heap2 }, ch)

/-- The method `serverConns.Remove`. -/
def serverConns.Remove (c : serverConns) (peerID : wire.PeerID) (ch : Nat) : Outcome serverConns :=
  match GoMap.lookup c.conns peerID with
  | some chs =>
    if chs.Receiver = ch then
      (chanClose c.heap chs.Sender).bind fun heap1 =>
        .ok { conns := GoMap.delete c.conns peerID, msgs := c.msgs, heap := heap1 }
    else .ok c
  | none => .ok c

/-- The guard of `serverConns.Broadcast`: an entry exists under the key of
`msgRev` and its index is at least that of `msgRev`. -/
def serverConns.drops (c : serverConns) (msgRev : revision) : Bool :=
  match GoMap.lookup c.msgs msgRev.key with
  | some existingRevision =>
    decide (existingRevision.Header.Revision.Index ≥ msgRev.Header.Revision.Index)
  | none => false

/-- The method `serverConns.Broadcast`. -/
def serverConns.Broadcast (c : serverConns) (msgRev : revision) : Outcome serverConns :=
  if c.drops msgRev then .ok c
  else
    let msgs := GoMap.store c.msgs msgRev.key msgRev
    (chanSendEach c.heap msgRev ((GoMap.values c.conns).map chans.Sender)).bind fun heap1 =>
      .ok { conns := c.conns, msgs := msgs, heap := heap1 }

/-- A queue that is open and drained by a sender task. -/
def chanLive {α : Type} (heap : List (Chan α)) (ch : Nat) : Bool :=
  match heap[ch]? with
  | some c => !c.closed && c.draining
  | none => false

/-- Well-formed states of `serverConns`: map keys are distinct, every entry of
the store is filed under its own key, both ends of a registered queue are the
same channel, no channel is registered twice, and every registered queue is
open and drained. -/
def serverConns.WF (c : serverConns) : Prop :=
  (GoMap.keys c.conns).Nodup ∧ (GoMap.keys c.msgs).Nodup ∧
  (∀ kv ∈ c.msgs, kv.2.key = kv.1) ∧
  ((GoMap.values c.conns).map chans.Sender).Nodup ∧
  ∀ chs ∈ GoMap.values c.conns, chs.Receiver = chs.Sender ∧ chanLive c.heap chs.Sender = true

instance (c : serverConns) : Decidable c.WF := by
  unfold serverConns.WF; infer_instance

/-- The operations that act on a `serverConns`. -/
inductive Op where
  /-- A connection for `peerID` completes its handshake (`runServerConn`):
  `conns.Add(peerID)` and then the spawn of the sender task on the queue. -/
  | add (peerID : wire.PeerID)
  /-- The deferred `conns.Remove(peerID, ch)` of a receiver task. -/
  | remove (peerID : wire.PeerID) (ch : Nat)
  /-- The call `conns.Broadcast(msgRev)` of a receiver task. -/
  | broadcast (msgRev : revision)
  /-- The runtime picks another iteration order for the two maps. -/
  | reorder (conns : GoMap wire.PeerID chans) (msgs : GoMap revDescriptor revision)
deriving DecidableEq

/-- One atomic step. -/
def step (c : serverConns) : Op → Outcome serverConns
  | .add peerID =>
    (c.Add peerID).bind fun r => .ok { r.1 with heap := chanDrain r.1.heap r.2 }
  | .remove peerID ch => c.Remove peerID ch
  | .broadcast msgRev => c.Broadcast msgRev
  | .reorder conns msgs =>
    if conns.Perm c.conns ∧ msgs.Perm c.msgs then
      .ok { conns := conns, msgs := msgs, heap := c.heap }
    else .ok c

/-- A sequence of atomic steps. -/
def run (c : serverConns) : List Op → Outcome serverConns
  | [] => .ok c
  | op :: ops => (step c op).bind fun c1 => run c1 ops

/-- The entries handed to `Broadcast` in a sequence of steps, in order. -/
def broadcasts : List Op → List revision
  | [] => []
  | .broadcast msgRev :: ops => msgRev :: broadcasts ops
  | _ :: ops => broadcasts ops

/-- The entries that `Broadcast` accepts (stores and enqueues) in a sequence of
steps started in `c`, in order. -/
def accepted (c : serverConns) : List Op → List revision
  | [] => []
  | op :: ops =>
    match step c op with
    | .ok c1 =>
      match op with
      | .broadcast msgRev => if c.drops msgRev then accepted c1 ops else msgRev :: accepted c1 ops
      | _ => accepted c1 ops
    | .fault _ => []

/-- The last frame for key `k` among the frames `frames`. -/
def lastFor (k : revDescriptor) (frames : List revision) : Option revision :=
  (frames.filter fun m => decide (m.key = k)).getLast?

/-! ## server.go: the connection loop -/

/-- What a connection carries: typed wire messages and raw payloads. -/
inductive Frame where
  | hello (m : wire.Hello)
  | header (m : wire.Header)
  | raw (b : List (Fin 256))
deriving DecidableEq

/-- Modelled from the spec: the transport of package `resonance` (an external
collaborator), a reliable ordered stream.  `written` are the frames written so
far; `credit` is the number of writes the transport still accepts before it
fails. -/
structure Connection where
  written : List Frame
  credit : Nat
deriving DecidableEq

/-- A write on the transport (`SendProton`, `SendRawBytes`): `none` is an error. -/
def Connection.send (c : Connection) (f : Frame) : Option Connection :=
  match c.credit with
  | 0 => none
  | n + 1 => some { written := c.written ++ [f], credit := n }

/-- The filter set `reqs` that `runServerConn` builds from the received Hello. -/
def buildReqs (helloMsg : wire.Hello) : GoMap wire.MessageDescriptor Unit :=
  helloMsg.Requests.foldl
    (fun reqs r =>
      r.MessageIDs.foldl
        (fun reqs mID => GoMap.store reqs { Namespace := r.Namespace, MessageID := mID } ())
        reqs)
    []

/-- The guard of the sender loop: true when the loop skips the entry. -/
def skips (reqs : GoMap wire.MessageDescriptor Unit) (helloMsg : wire.Hello)
    (msgRev : revision) : Bool :=
  (GoMap.lookup reqs msgRev.Header.Revision.Message).isNone && !helloMsg.IsServer

/-- The loop `for msgRev := range sendCh` of the sender task of `runServerConn`,
run on the entries `queue` it receives before the queue is closed.  Returns
the connection and whether the loop ended with an error. -/
def senderLoop (reqs : GoMap wire.MessageDescriptor Unit) (helloMsg : wire.Hello) :
    Connection → List revision → Connection × Bool
  | conn, [] => (conn, false)
  | conn, msgRev :: queue =>
    if skips reqs helloMsg msgRev then senderLoop reqs helloMsg conn queue
    else
      match conn.send (.header msgRev.Header) with
      | none => (conn, true)
      | some conn1 =>
        match conn1.send (.raw msgRev.Content) with
        | none => (conn1, true)
        | some conn2 => senderLoop reqs helloMsg conn2 queue

/-- The two frames the sender loop writes for an entry. -/
def framesOf (msgRev : revision) : List Frame :=
  [.header msgRev.Header, .raw msgRev.Content]

/-! ## client.go: the client store -/

/-- A frame of the client's outbound queues. -/
structure msgToSend (Msg Mar : Type) where
  Header : wire.Header
  Marshaller : Mar
  Message : Msg
deriving DecidableEq

/-- The struct `clientConns` (without its mutex), together with the heap of
the channels its methods allocate.  `recvCh` lists the messages forwarded to
the application's receive channel so far, oldest first. -/
structure clientConns (Msg Mar : Type) where
  clientID : wire.PeerID
  recvCh : List Msg
  conns : GoMap Nat Nat
  sentMsgs : GoMap wire.MessageDescriptor (msgToSend Msg Mar)
  receivedMsgs : GoMap revDescriptor wire.Revision
  heap : List (Chan (msgToSend Msg Mar))
deriving DecidableEq

/-- The function `newClientConns`, on an empty heap. -/
def newClientConns {Msg Mar : Type} (clientID : wire.PeerID) : clientConns Msg Mar :=
  { clientID := clientID, recvCh := [], conns := [], sentMsgs := [], receivedMsgs := [], heap := [] }

/-- What the `select` of `Deliver` meets: whether `ctx.Done()` is ready,
whether the receive channel can accept a message, and which case the runtime
picks when both are ready (true: the send). -/
structure SelectEnv where
  ctxDone : Bool
  canAccept : Bool
  pickSend : Bool
deriving DecidableEq, Repr

/-- The key of a header in `receivedMsgs`. -/
def headerKey (header : wire.Header) : revDescriptor :=
  { MessageDescriptor := header.Revision.Message, Sender := header.Sender }

/-- The guard of `clientConns.Deliver`. -/
def clientConns.drops {Msg Mar : Type} (c : clientConns Msg Mar) (header : wire.Header) : Bool :=
  match GoMap.lookup c.receivedMsgs (headerKey header) with
  | some existingRevision => decide (existingRevision ≥ header.Revision.Index)
  | none => false

/-- The method `clientConns.Deliver`: returns the new state and whether the
call returned the context's error.  With neither case of the `select` ready
the call waits. -/
def clientConns.Deliver {Msg Mar : Type} (c : clientConns Msg Mar) (env : SelectEnv)
    (header : wire.Header) (msg : Msg) : Outcome (clientConns Msg Mar × Bool) :=
  if c.drops header then .ok (c, false)
  else
    let c1 := { c with
      receivedMsgs := GoMap.store c.receivedMsgs (headerKey header) header.Revision.Index }
    match env.ctxDone, env.canAccept with
    | false, false => .fault .blocked
    | true, false => .ok (c1, true)
    | false, true => .ok ({ c1 with recvCh := c1.recvCh ++ [msg] }, false)
    | true, true =>
      if env.pickSend then .ok ({ c1 with recvCh := c1.recvCh ++ [msg] }, false)
      else .ok (c1, true)

/-! ## Sample values -/

/-- The peer whose 32 bytes all equal `b`. -/
def samplePeer (b : Fin 256) : wire.PeerID := ⟨List.replicate 32 b, by simp⟩

/-- An entry of sender `samplePeer b` for message `id` of namespace `ns`. -/
def sampleEntry (ns : String) (id : Nat) (b : Fin 256) (index : Nat)
    (content : List (Fin 256)) : revision :=
  { Header := { Sender := samplePeer b,
                Revision := { Message := { Namespace := ns, MessageID := id }, Index := index } },
    Content := content }

/-- A store with one entry of index 3, and one peer attached after it. -/
def sampleConns : serverConns :=
  { conns := [(samplePeer 9, { Sender := 0, Receiver := 0 })],
    msgs := [((sampleEntry "ns" 1 7 3 [1]).key, sampleEntry "ns" 1 7 3 [1])],
    heap := [{ cap := 10, sent := [sampleEntry "ns" 1 7 3 [1]], closed := false, draining := true }] }

/-- The store holds, under every key, the entry of greatest Index among the
entries `bs` handed to `Broadcast` so far. -/
def StoreIsMax (msgs : GoMap revDescriptor revision) (bs : List revision) : Prop :=
  (GoMap.keys msgs).Nodup ∧ ∀ k,
    (∀ v, GoMap.lookup msgs k = some v → v ∈ bs ∧ v.key = k ∧
      ∀ e ∈ bs, e.key = k → e.Header.Revision.Index ≤ v.Header.Revision.Index) ∧
    (GoMap.lookup msgs k = none → ∀ e ∈ bs, e.key ≠ k)

/-- Steps that lead from the empty state to `sampleConns`. -/
def sampleOps : List Op :=
  [.broadcast (sampleEntry "ns" 1 7 3 [1]), .add (samplePeer 9)]

/-- The state `sampleConns` after one more accepted broadcast. -/
def sampleConns1 : serverConns :=
  { conns := [(samplePeer 9, { Sender := 0, Receiver := 0 })],
    msgs := [((sampleEntry "ns" 1 7 3 [1]).key, sampleEntry "ns" 1 7 5 [2])],
    heap := [{ cap := 10, sent := [sampleEntry "ns" 1 7 3 [1], sampleEntry "ns" 1 7 5 [2]],
               closed := false, draining := true }] }

/-- Eleven broadcasts with pairwise distinct keys. -/
def elevenBroadcasts : List Op :=
  (List.range 11).map fun i => .broadcast (sampleEntry "ns" i 7 0 [])

/-- A store with eleven entries and no peer attached. -/
def elevenEntries : serverConns :=
  { conns := [],
    msgs := (List.range 11).map fun i => ((sampleEntry "ns" i 7 0 []).key, sampleEntry "ns" i 7 0 []),
    heap := [] }

/-- Every open channel of the heap is a registered queue. -/
def serverConns.NoStray (c : serverConns) : Prop :=
  ∀ i q, c.heap[i]? = some q → q.closed = false →
    ∃ p, GoMap.lookup c.conns p = some { Sender := i, Receiver := i }

/-- What `Add` returns on `sampleConns` for the peer that is already attached. -/
def sampleRebound : serverConns × Nat :=
  ({ conns := [(samplePeer 9, { Sender := 1, Receiver := 1 })],
     msgs := [((sampleEntry "ns" 1 7 3 [1]).key, sampleEntry "ns" 1 7 3 [1])],
     heap := [{ cap := 10, sent := [sampleEntry "ns" 1 7 3 [1]], closed := true, draining := true },
              { cap := 10, sent := [sampleEntry "ns" 1 7 3 [1]], closed := false,
                draining := false }] }, 1)

/-- On every registered queue the last frame for each key is the entry the
store holds under that key. -/
def serverConns.LastFrames (c : serverConns) : Prop :=
  ∀ p chs, GoMap.lookup c.conns p = some chs →
    ∃ q, c.heap[chs.Sender]? = some q ∧ ∀ k, lastFor k q.sent = GoMap.lookup c.msgs k

/-- A store with one entry of index 3 and no peer attached. -/
def sampleStore : serverConns :=
  { conns := [],
    msgs := [((sampleEntry "ns" 1 7 3 [1]).key, sampleEntry "ns" 1 7 3 [1])],
    heap := [] }

/-- A client store that has received nothing yet; messages are strings. -/
def sampleClient : clientConns String Unit := newClientConns (samplePeer 5)

/-- A context that is not cancelled and a receive channel that can accept. -/
def sampleEnv : SelectEnv := { ctxDone := false, canAccept := true, pickSend := true }

/-- An empty store with one peer attached. -/
def sampleAttached : serverConns :=
  { conns := [(samplePeer 9, { Sender := 0, Receiver := 0 })], msgs := [],
    heap := [{ cap := 10, sent := [], closed := false, draining := true }] }

/-- The frames of the entries of `queue` that the sender loop does not skip. -/
def emitted (reqs : GoMap wire.MessageDescriptor Unit) (helloMsg : wire.Hello)
    (queue : List revision) : List Frame :=
  (queue.filter fun msgRev => !skips reqs helloMsg msgRev).flatMap framesOf

/-- A manifest asking for messages 1 of `ns1` and 1, 2 of `ns2`. -/
def sampleHello : wire.Hello :=
  { PeerID := samplePeer 9, IsServer := false,
    Requests := [{ Namespace := "ns1", MessageIDs := [1] },
                 { Namespace := "ns2", MessageIDs := [1, 2] }] }

/-- A connection on which nothing was written yet and four writes succeed. -/
def sampleConnection : Connection := { written := [], credit := 4 }

/-! ## helpers.go: namespaces of codecs -/

/-- A Go type as package `reflect` describes it, as far as codecs go: a
defined type declared at package level, which its package path and name
identify; a defined type declared inside a function, of which one package can
hold several under one name; or a pointer type, which is not a defined type. -/
inductive GoType where
  | defined (pkgPath name : String)
  | localType (pkgPath name : String) (decl : Nat)
  | pointer (elem : GoType)
deriving DecidableEq, Repr

/-- The method `reflect.Type.PkgPath`: empty for a type that is not defined. -/
def GoType.PkgPath : GoType → String
  | .defined pkgPath _ => pkgPath
  | .localType pkgPath _ _ => pkgPath
  | .pointer _ => ""

/-- The method `reflect.Type.Name`: empty for a type that is not defined. -/
def GoType.Name : GoType → String
  | .defined _ name => name
  | .localType _ name _ => name
  | .pointer _ => ""

/-- Go error values. -/
abbrev GoError := String

/-- Modelled from the spec: the codec contract of package `proton` (interface
`Marshaller`), as far as the core uses it: the dynamic type of a codec value
(`reflect.TypeOf`) and its method `ID`, which fails for a message it does not
know. -/
structure Codec (Msg Mar : Type) where
  typeOf : Mar → GoType
  ID : Mar → Msg → Except GoError Nat

/-- The function `marshallerToNamespace`. -/
def marshallerToNamespace {Msg Mar : Type} (codec : Codec Msg Mar) (m : Mar) : wire.Namespace :=
  (codec.typeOf m).PkgPath ++ "." ++ (codec.typeOf m).Name

/-! ## client.go: publishing and attaching -/

/-- The method `clientConns.Add`: returns the new state and the new channel.
As in `serverConns.Add`, nothing is received from the new channel before the
method returns. -/
def clientConns.Add {Msg Mar : Type} (c : clientConns Msg Mar) :
    Outcome (clientConns Msg Mar × Nat) :=
  let ch := c.heap.length
  let heap0 := c.heap ++ [Chan.make 10]
  let conns := GoMap.store c.conns ch ch
  (chanSendAll heap0 ch (GoMap.values c.sentMsgs)).bind fun heap1 =>
    .ok ({ c with conns := conns, heap := heap1 }, ch)

/-- The method `clientConns.Remove`. -/
def clientConns.Remove {Msg Mar : Type} (c : clientConns Msg Mar) (ch : Nat) :
    Outcome (clientConns Msg Mar) :=
  match GoMap.lookup c.conns ch with
  | some ch2 =>
    (chanClose c.heap ch2).bind fun heap1 =>
      .ok { c with conns := GoMap.delete c.conns ch, heap := heap1 }
  | none => .ok c

/-- The revision index `clientConns.Broadcast` gives to the next message of
`msgDescriptor`; the addition is that of `uint64`. -/
def clientConns.nextIndex {Msg Mar : Type} (c : clientConns Msg Mar)
    (msgDescriptor : wire.MessageDescriptor) : wire.Revision :=
  match GoMap.lookup c.sentMsgs msgDescriptor with
  | some prevMsg => (prevMsg.Header.Revision.Index + 1) % 2 ^ 64
  | none => 0

/-- The frame `send` that `clientConns.Broadcast` builds for a message whose
`ID` is `msgID`. -/
def clientConns.frame {Msg Mar : Type} (codec : Codec Msg Mar) (c : clientConns Msg Mar)
    (msg : Msg) (marshaller : Mar) (msgID : Nat) : msgToSend Msg Mar :=
  let msgDescriptor : wire.MessageDescriptor :=
    { Namespace := marshallerToNamespace codec marshaller, MessageID := msgID }
  { Header := { Sender := c.clientID,
                Revision := { Message := msgDescriptor, Index := c.nextIndex msgDescriptor } },
    Marshaller := marshaller,
    Message := msg }

/-- The method `clientConns.Broadcast`: returns the new state and the error. -/
def clientConns.Broadcast {Msg Mar : Type} (codec : Codec Msg Mar) (c : clientConns Msg Mar)
    (msg : Msg) (marshaller : Mar) : Outcome (clientConns Msg Mar × Option GoError) :=
  match codec.ID marshaller msg with
  | .error err => .ok (c, some err)
  | .ok msgID =>
    let send := c.frame codec msg marshaller msgID
    let sentMsgs := GoMap.store c.sentMsgs send.Header.Revision.Message send
    (chanSendEach c.heap send (GoMap.values c.conns)).bind fun heap1 =>
      .ok ({ c with sentMsgs := sentMsgs, heap := heap1 }, none)

/-- Well-formed states of `clientConns`: map keys are distinct, every
published frame is filed under its own descriptor, a queue is registered
under itself, and every registered queue is open and drained. -/
def clientConns.WF {Msg Mar : Type} (c : clientConns Msg Mar) : Prop :=
  (GoMap.keys c.conns).Nodup ∧ (GoMap.keys c.sentMsgs).Nodup ∧
  (∀ kv ∈ c.sentMsgs, kv.2.Header.Revision.Message = kv.1) ∧
  ∀ kv ∈ c.conns, kv.2 = kv.1 ∧ chanLive c.heap kv.2 = true

instance {Msg Mar : Type} [DecidableEq Msg] [DecidableEq Mar] (c : clientConns Msg Mar) :
    Decidable c.WF := by
  unfold clientConns.WF; infer_instance

/-- Whether a call of `Deliver` forwards its message to the receive channel. -/
def clientConns.forwards {Msg Mar : Type} (c : clientConns Msg Mar) (env : SelectEnv)
    (header : wire.Header) : Bool :=
  !c.drops header && env.canAccept && (!env.ctxDone || env.pickSend)

/-- The calls that act on a `clientConns`. -/
inductive ClientOp (Msg Mar : Type) where
  /-- A connection completes its handshake (`Client.runConn`): `conns.Add()`
  and then the spawn of the sender task on the queue. -/
  | add
  /-- The deferred `conns.Remove(ch)` of a receiver task. -/
  | remove (ch : Nat)
  /-- The call `conns.Broadcast(msg, marshaller)` of `Client.Send`. -/
  | broadcast (msg : Msg) (marshaller : Mar)
  /-- The call `conns.Deliver(ctx, header, msg)` of a receiver task. -/
  | deliver (env : SelectEnv) (header : wire.Header) (msg : Msg)
  /-- The runtime picks another iteration order for the maps that are ranged over. -/
  | reorder (conns : GoMap Nat Nat) (sentMsgs : GoMap wire.MessageDescriptor (msgToSend Msg Mar))

/-- One atomic call on the client store. -/
def clientStep {Msg Mar : Type} [DecidableEq Msg] [DecidableEq Mar] (codec : Codec Msg Mar)
    (c : clientConns Msg Mar) : ClientOp Msg Mar → Outcome (clientConns Msg Mar)
  | .add => c.Add.bind fun r => .ok { r.1 with heap := chanDrain r.1.heap r.2 }
  | .remove ch => c.Remove ch
  | .broadcast msg marshaller => (c.Broadcast codec msg marshaller).bind fun r => .ok r.1
  | .deliver env header msg => (c.Deliver env header msg).bind fun r => .ok r.1
  | .reorder conns sentMsgs =>
    if conns.Perm c.conns ∧ sentMsgs.Perm c.sentMsgs then
      .ok { c with conns := conns, sentMsgs := sentMsgs }
    else .ok c

/-- A sequence of atomic calls on the client store. -/
def clientRun {Msg Mar : Type} [DecidableEq Msg] [DecidableEq Mar] (codec : Codec Msg Mar)
    (c : clientConns Msg Mar) : List (ClientOp Msg Mar) → Outcome (clientConns Msg Mar)
  | [] => .ok c
  | op :: ops => (clientStep codec c op).bind fun c1 => clientRun codec c1 ops

/-- The frame built by a call, if the call is a `Broadcast` whose message the
codec knows. -/
def publishedBy {Msg Mar : Type} (codec : Codec Msg Mar) (c : clientConns Msg Mar) :
    ClientOp Msg Mar → List (msgToSend Msg Mar)
  | .broadcast msg marshaller =>
    match codec.ID marshaller msg with
    | .ok msgID => [c.frame codec msg marshaller msgID]
    | .error _ => []
  | _ => []

/-- The frames built by the calls of `Broadcast` that returned without error
in a sequence of calls started in `c`, in order. -/
def published {Msg Mar : Type} [DecidableEq Msg] [DecidableEq Mar] (codec : Codec Msg Mar)
    (c : clientConns Msg Mar) : List (ClientOp Msg Mar) → List (msgToSend Msg Mar)
  | [] => []
  | op :: ops =>
    match clientStep codec c op with
    | .ok c1 => publishedBy codec c op ++ published codec c1 ops
    | .fault _ => []

/-- The header and message a call forwards to the receive channel, if the
call is a `Deliver` that forwards. -/
def forwardedBy {Msg Mar : Type} (c : clientConns Msg Mar) :
    ClientOp Msg Mar → List (wire.Header × Msg)
  | .deliver env header msg => if c.forwards env header then [(header, msg)] else []
  | _ => []

/-- The headers and messages that the calls of `Deliver` forwarded to the
receive channel in a sequence of calls started in `c`, in order. -/
def forwarded {Msg Mar : Type} [DecidableEq Msg] [DecidableEq Mar] (codec : Codec Msg Mar)
    (c : clientConns Msg Mar) : List (ClientOp Msg Mar) → List (wire.Header × Msg)
  | [] => []
  | op :: ops =>
    match clientStep codec c op with
    | .ok c1 => forwardedBy c op ++ forwarded codec c1 ops
    | .fault _ => []

/-- The Index values of the headers of key `k` among `fs`, in order. -/
def indicesFor {Msg : Type} (k : revDescriptor) (fs : List (wire.Header × Msg)) :
    List wire.Revision :=
  (fs.filter fun f => decide (headerKey f.1 = k)).map fun f => f.1.Revision.Index

/-- The Index values of the frames of descriptor `d` among `fs`, in order. -/
def indicesOf {Msg Mar : Type} (d : wire.MessageDescriptor) (fs : List (msgToSend Msg Mar)) :
    List wire.Revision :=
  (fs.filter fun f => decide (f.Header.Revision.Message = d)).map
    fun f => f.Header.Revision.Index

/-! ## Handshake, dialer and client receiver -/

/-- The errors with which a connection ends. -/
inductive ConnError where
  /-- An error of the transport or of a codec (`SendProton`, `ReceiveProton`). -/
  | transport
  /-- The error "hello message expected". -/
  | helloExpected
  /-- The error "header message expected". -/
  | headerExpected
  /-- The error `errSameServer`, "connected to myself". -/
  | sameServer
  /-- The error "no marshaller for namespace". -/
  | noMarshaller (ns : wire.Namespace)
  /-- The error of a cancelled context, `ctx.Err()`. -/
  | cancelled
deriving DecidableEq, Repr

/-- What the handshake of `runServerConn` hands to the connection loop: the
remote's Hello, the filter set and the queue. -/
structure Attached where
  helloMsg : wire.Hello
  reqs : GoMap wire.MessageDescriptor Unit
  sendCh : Nat
deriving DecidableEq

/-- How the handshake of `runServerConn` ends: with the error the function
returns, or with what the connection loop starts with. -/
inductive HandshakeResult where
  | failed (err : ConnError)
  | attached (a : Attached)
deriving DecidableEq

/-- The function `runServerConn` up to and including `conns.Add`: it sends the
own Hello on `conn`, receives a message (`recv`, `none` for an error of
`ReceiveProton`), checks it and attaches the remote.  Returns the registry,
the connection and how the handshake ended. -/
def runServerConnHandshake (serverID : wire.PeerID) (conn : Connection) (recv : Option Frame)
    (conns : serverConns) : Outcome (serverConns × Connection × HandshakeResult) :=
  match conn.send (.hello { PeerID := serverID, IsServer := true, Requests := [] }) with
  | none => .ok (conns, conn, .failed .transport)
  | some conn1 =>
    match recv with
    | none => .ok (conns, conn1, .failed .transport)
    | some (.hello helloMsg) =>
      if helloMsg.PeerID = serverID then .ok (conns, conn1, .failed .sameServer)
      else
        (conns.Add helloMsg.PeerID).bind fun r =>
          .ok (r.1, conn1,
            .attached { helloMsg := helloMsg, reqs := buildReqs helloMsg, sendCh := r.2 })
    | some _ => .ok (conns, conn1, .failed .helloExpected)

/-- What a dialer of `RunServer` does after `resonance.RunClient` returned. -/
inductive DialerAction where
  /-- The dialer task returns this error (`none`: it returns nil). -/
  | returns (err : Option ConnError)
  /-- The dialer logs the error, sleeps a second and dials again. -/
  | retries
deriving DecidableEq, Repr

/-- One round of the dialer loop of `RunServer` after `resonance.RunClient`
returned `err`: `ctxErr` tells whether `ctx.Err()` is non-nil then, and
`ctxDoneWhileSleeping` whether the context is cancelled during the sleep. -/
def dialerAfterRun (ctxErr : Bool) (err : Option ConnError) (ctxDoneWhileSleeping : Bool) :
    DialerAction :=
  if ctxErr then .returns (some .cancelled)
  else if err = some .sameServer then .returns none
  else if ctxDoneWhileSleeping then .returns (some .cancelled)
  else .retries

/-- One round of the receiver loop of `Client.runConn`: `recvHeader` is what
the first `ReceiveProton` returns (`none` for an error) and `recvMsg msgM` what
the second one returns when it decodes with the codec `msgM`.  Returns the
store and the error with which the loop ends, if it ends. -/
def clientReceiverStep {Msg Mar : Type} (marshallers : GoMap wire.Namespace Mar)
    (c : clientConns Msg Mar) (env : SelectEnv) (recvHeader : Option Frame)
    (recvMsg : Mar → Option Msg) : Outcome (clientConns Msg Mar × Option ConnError) :=
  match recvHeader with
  | none => .ok (c, some .transport)
  | some (.header headerMsg) =>
    match GoMap.lookup marshallers headerMsg.Revision.Message.Namespace with
    | none => .ok (c, some (.noMarshaller headerMsg.Revision.Message.Namespace))
    | some msgM =>
      match recvMsg msgM with
      | none => .ok (c, some .transport)
      | some msg =>
        (c.Deliver env headerMsg msg).bind fun r =>
          .ok (r.1, if r.2 then some .cancelled else none)
  | some _ => .ok (c, some .headerExpected)

/-- The Index values forwarded so far for each key increase strictly and are
bounded by the revision recorded for the key. -/
def ForwardedBelow {Msg Mar : Type} (c : clientConns Msg Mar) (fs : List (wire.Header × Msg)) :
    Prop :=
  ∀ k, List.Pairwise (· < ·) (indicesFor k fs) ∧
    ∀ i ∈ indicesFor k fs, ∃ r, GoMap.lookup c.receivedMsgs k = some r ∧ i ≤ r

/-- A codec of a defined type that knows every message but the empty one;
the ID of a message is its length. -/
def sampleCodec : Codec String Unit :=
  { typeOf := fun _ => .defined "example.com/app/wire1" "Marshaller",
    ID := fun _ msg => if msg = "" then .error "unknown message type" else .ok msg.length }

/-- A cancelled context and a receive channel that cannot accept. -/
def cancelledEnv : SelectEnv := { ctxDone := true, canAccept := false, pickSend := false }

/-- A cancelled context, a receive channel that can accept, and a runtime that
picks the case of the context. -/
def racingEnv : SelectEnv := { ctxDone := true, canAccept := true, pickSend := false }

/-- The header of sender `samplePeer b` for message 1 of namespace `ns`. -/
def sampleHeader (b : Fin 256) (index : Nat) : wire.Header :=
  { Sender := samplePeer b,
    Revision := { Message := { Namespace := "ns", MessageID := 1 }, Index := index } }

/-- The state `sampleClient` after revision 0 of `sampleHeader 7` was recorded
and the messages `recvCh` were forwarded. -/
def sampleReceived (recvCh : List String) : clientConns String Unit :=
  { sampleClient with
    receivedMsgs := [(headerKey (sampleHeader 7 0), 0)], recvCh := recvCh }

/-- The frames published so far number the revisions of every descriptor
0, 1, 2, ... (as `uint64`), and the store holds the last number given. -/
def PublishedUpTo {Msg Mar : Type} (c : clientConns Msg Mar) (fs : List (msgToSend Msg Mar)) :
    Prop :=
  (GoMap.keys c.sentMsgs).Nodup ∧ ∀ d,
    indicesOf d fs = (List.range (indicesOf d fs).length).map (fun i => i % 2 ^ 64) ∧
    (GoMap.lookup c.sentMsgs d).map (fun f => f.Header.Revision.Index) =
      if (indicesOf d fs).length = 0 then none
      else some (((indicesOf d fs).length - 1) % 2 ^ 64)

/-- The message of `n` letters `a`. -/
def sampleMsg (n : Nat) : String := String.mk (List.replicate n 'a')

/-- The frame `sampleClient` publishes for `sampleMsg n` as revision `index`. -/
def sampleFrame (n index : Nat) : msgToSend String Unit :=
  { Header := { Sender := samplePeer 5,
                Revision := { Message := { Namespace := "example.com/app/wire1.Marshaller",
                                           MessageID := n },
                              Index := index } },
    Marshaller := (), Message := sampleMsg n }

/-- The state `sampleClient` after `sampleMsg 1` was published twice. -/
def samplePublished : clientConns String Unit :=
  { sampleClient with sentMsgs := [((sampleFrame 1 1).Header.Revision.Message, sampleFrame 1 1)] }

/-- The state `samplePublished` with one connection attached. -/
def samplePublishedAttached : clientConns String Unit :=
  { samplePublished with
    conns := [(0, 0)],
    heap := [{ cap := 10, sent := [sampleFrame 1 1], closed := false, draining := true }] }

/-- Eleven publishes of messages with pairwise distinct IDs. -/
def elevenPublishes : List (ClientOp String Unit) :=
  (List.range 11).map fun i => .broadcast (sampleMsg (i + 1)) ()

/-- A client store with eleven published descriptors and no connection. -/
def elevenPublished : clientConns String Unit :=
  { sampleClient with
    sentMsgs := (List.range 11).map fun i =>
      ((sampleFrame (i + 1) 0).Header.Revision.Message, sampleFrame (i + 1) 0) }

/-- A connection on which nothing was written yet and one write succeeds. -/
def freshConnection : Connection := { written := [], credit := 1 }

/-- The connection `freshConnection` after the Hello of the server `samplePeer 9`. -/
def greetedConnection : Connection :=
  { written := [.hello { PeerID := samplePeer 9, IsServer := true, Requests := [] }], credit := 0 }

/-- Codecs that are Go types themselves and know no message. -/
def typeCodec : Codec String GoType :=
  { typeOf := fun t => t, ID := fun _ _ => .error "unknown message type" }

/-- A peer attaches twice and then detaches from its second queue. -/
def sampleDetachOps : List Op :=
  [.add (samplePeer 9), .add (samplePeer 9), .remove (samplePeer 9) 1]

/-- The state after `sampleDetachOps`: both queues are closed, none is registered. -/
def sampleDetached : serverConns :=
  { conns := [], msgs := [],
    heap := [{ cap := 10, sent := [], closed := true, draining := true },
             { cap := 10, sent := [], closed := true, draining := true }] }

/-- The state `sampleClient` after `sampleMsg 1` was published and a connection attached. -/
def sampleOncePublished : clientConns String Unit :=
  { sampleClient with
    conns := [(0, 0)],
    sentMsgs := [((sampleFrame 1 0).Header.Revision.Message, sampleFrame 1 0)],
    heap := [{ cap := 10, sent := [sampleFrame 1 0], closed := false, draining := true }] }

/-! ## client.go: NewClient -/

/-- RequestConfig defines message types to receive on client. -/
structure RequestConfig (Msg Mar : Type) where
  Marshaller : Mar
  Messages : List Msg
deriving DecidableEq

/-- ClientConfig is the config of client. -/
structure ClientConfig (Msg Mar : Type) where
  Servers : List String
  MaxMessageSize : Nat
  Requests : List (RequestConfig Msg Mar)
deriving DecidableEq

/-- Client receives and sends requested messages from/to servers. -/
structure Client (Msg Mar : Type) where
  config : ClientConfig Msg Mar
  requests : List wire.NamespaceRequest
  marshallers : GoMap wire.Namespace Mar
  conns : clientConns Msg Mar
deriving DecidableEq

/-- The inner loop of `NewClient`: appends the `ID` of every sample message to
`MessageIDs`; the first error ends `NewClient`. -/
def NewClient.messageIDs {Msg Mar : Type} (codec : Codec Msg Mar) (marshaller : Mar) :
    List wire.MessageID → List Msg → Except GoError (List wire.MessageID)
  | ids, [] => .ok ids
  | ids, m :: ms =>
    match codec.ID marshaller m with
    | .error err => .error err
    | .ok msgID => NewClient.messageIDs codec marshaller (ids ++ [msgID]) ms

/-- The outer loop of `NewClient` over `config.Requests`: registers the codec
of a request under its namespace unless one is registered, and appends the
request's manifest entry. -/
def NewClient.loop {Msg Mar : Type} (codec : Codec Msg Mar) :
    GoMap wire.Namespace Mar → List wire.NamespaceRequest → List (RequestConfig Msg Mar) →
      Except GoError (GoMap wire.Namespace Mar × List wire.NamespaceRequest)
  | marshallers, requests, [] => .ok (marshallers, requests)
  | marshallers, requests, r :: rs =>
    let ns := marshallerToNamespace codec r.Marshaller
    let marshallers1 :=
      match GoMap.lookup marshallers ns with
      | some _ => marshallers
      | none => GoMap.store marshallers ns r.Marshaller
    match NewClient.messageIDs codec r.Marshaller [] r.Messages with
    | .error err => .error err
    | .ok ids => NewClient.loop codec marshallers1 (requests ++ [{ Namespace := ns, MessageIDs := ids }]) rs

/-- The function `NewClient`; `rand` is what `peerID()` returns (32 bytes read
from the system's random source, or the error of that read).  An error stands
for the result `nil, nil, err`; the receive channel returned with the client is
the `recvCh` of its `conns`. -/
def NewClient {Msg Mar : Type} (codec : Codec Msg Mar) (rand : Except GoError wire.PeerID)
    (config : ClientConfig Msg Mar) : Except GoError (Client Msg Mar) :=
  if config.Servers.length = 0 then .error "no servers specified"
  else
    match rand with
    | .error err => .error err
    | .ok clientID =>
      match NewClient.loop codec [] [] config.Requests with
      | .error err => .error err
      | .ok (marshallers, requests) =>
        .ok { config := config, requests := requests, marshallers := marshallers,
              conns := newClientConns clientID }

/-- The Hello that `Client.runConn` sends on a new connection. -/
def Client.hello {Msg Mar : Type} (client : Client Msg Mar) : wire.Hello :=
  { PeerID := client.conns.clientID, IsServer := false, Requests := client.requests }

/-- Codec values that differ in a field and share one Go type; value `v` gives
a message the ID of its length plus `v`, and none knows the empty message. -/
def fieldCodec : Codec String Nat :=
  { typeOf := fun _ => .defined "example.com/app/wire1" "Marshaller",
    ID := fun v msg => if msg = "" then .error "unknown message type" else .ok (msg.length + v) }

/-- A configuration with two requests whose codecs share a namespace. -/
def sampleConfig : ClientConfig String Nat :=
  { Servers := ["server:1"], MaxMessageSize := 1024,
    Requests := [{ Marshaller := 0, Messages := [sampleMsg 1, sampleMsg 2] },
                 { Marshaller := 10, Messages := [sampleMsg 1] }] }

/-- The client `NewClient` builds from `sampleConfig` with identity `samplePeer 5`. -/
def sampleNewClient : Client String Nat :=
  { config := sampleConfig,
    requests := [{ Namespace := "example.com/app/wire1.Marshaller", MessageIDs := [1, 2] },
                 { Namespace := "example.com/app/wire1.Marshaller", MessageIDs := [11] }],
    marshallers := [("example.com/app/wire1.Marshaller", 0)],
    conns := newClientConns (samplePeer 5) }

/-! ## wire/types.proton.go: the generated codec of Hello and Header -/

namespace wire

/-- Modelled from the spec: the unsigned varint helpers of package
`proton/helpers` and Go's conversions between strings and byte slices, which
the generated codec calls and this repository does not define.
`UInt64Marshal v` are the bytes that `helpers.UInt64Marshal(v, b, &o)` writes
at `b[o:]`, advancing `o` past them.  `UInt64Unmarshal` is applied to `b[o:]`
and gives the value read and the number of bytes read; `none` is a panic.
`UInt64Size v` is what `helpers.UInt64Size(v, &n)` adds to `n`: the bytes of
`v` beyond the first, which the caller has counted.  `bytes s` are the bytes of
a Go string and `string b` is the conversion `Namespace(b)`. -/
structure Helpers where
  UInt64Marshal : Nat → List (Fin 256)
  UInt64Unmarshal : List (Fin 256) → Option (Nat × Nat)
  UInt64Size : Nat → Nat
  bytes : String → List (Fin 256)
  string : List (Fin 256) → String

/-- What the generated codec relies on: a value of type `uint64` that was
written is read back, together with the number of bytes written, whatever
follows it; `UInt64Size` counts the bytes written beyond the first; a string
is read back from its bytes; and the empty string has no bytes. -/
def Helpers.Laws (h : Helpers) : Prop :=
  (∀ v, v < 2 ^ 64 → ∀ rest,
    h.UInt64Unmarshal (h.UInt64Marshal v ++ rest) = some (v, (h.UInt64Marshal v).length)) ∧
  (∀ v, v < 2 ^ 64 → (h.UInt64Marshal v).length = h.UInt64Size v + 1) ∧
  (∀ s, h.string (h.bytes s) = s) ∧
  h.bytes "" = []

/-- The constant `id4`, the id of Hello. -/
def id4 : Nat := 1

/-- The constant `id1`, the id of Header. -/
def id1 : Nat := 2

/-- A value passed to the codec as `msg any`: a `*Hello`, a `*Header`, or a
value of another type. -/
inductive Message where
  | hello (m : Hello)
  | header (m : Header)
  | other
deriving DecidableEq

/-- The statements `copy(b[o:o+len(src)], src); o += len(src)`, on the pair
of the slice `b` and the offset `o`; `none` is the panic of a slice expression
out of range (the length of a buffer is taken to be its capacity). -/
def put (src : List (Fin 256)) (w : List (Fin 256) × Nat) : Option (List (Fin 256) × Nat) :=
  if w.2 + src.length ≤ w.1.length then
    some (w.1.take w.2 ++ src ++ w.1.drop (w.2 + src.length), w.2 + src.length)
  else none

/-- The statement `o += f(m, b[o:])` for a marshalling function `f`, which
writes into the slice it gets and returns the number of bytes written. -/
def sub (f : List (Fin 256) → Option (List (Fin 256) × Nat)) (w : List (Fin 256) × Nat) :
    Option (List (Fin 256) × Nat) :=
  if w.2 ≤ w.1.length then
    (f (w.1.drop w.2)).map fun r => (w.1.take w.2 ++ r.1, w.2 + r.2)
  else none

/-- The statement `b[0] = f(b[0])`. -/
def modifyFirst (f : Fin 256 → Fin 256) : List (Fin 256) → Option (List (Fin 256))
  | [] => none
  | x :: b => some (f x :: b)

/-- The function `size2`. -/
def size2 (h : Helpers) (m : MessageDescriptor) : Nat :=
  let l := (h.bytes m.Namespace).length
  2 + h.UInt64Size l + l + h.UInt64Size m.MessageID

/-- The function `marshal2`: the new content of `b` and the number of bytes written. -/
def marshal2 (h : Helpers) (m : MessageDescriptor) (b : List (Fin 256)) :
    Option (List (Fin 256) × Nat) :=
  let l := (h.bytes m.Namespace).length
  (put (h.UInt64Marshal l) (b, 0)).bind fun w1 =>
    (put (h.bytes m.Namespace) w1).bind fun w2 =>
      put (h.UInt64Marshal m.MessageID) w2

/-- The function `size0`. -/
def size0 (h : Helpers) (m : RevisionDescriptor) : Nat :=
  1 + size2 h m.Message + h.UInt64Size m.Index

/-- The function `marshal0`. -/
def marshal0 (h : Helpers) (m : RevisionDescriptor) (b : List (Fin 256)) :
    Option (List (Fin 256) × Nat) :=
  (sub (marshal2 h m.Message) (b, 0)).bind fun w1 =>
    put (h.UInt64Marshal m.Index) w1

/-- The function `size1`. -/
def size1 (h : Helpers) (m : Header) : Nat :=
  32 + size0 h m.Revision

/-- The function `marshal1`. -/
def marshal1 (h : Helpers) (m : Header) (b : List (Fin 256)) : Option (List (Fin 256) × Nat) :=
  (put m.Sender.val (b, 0)).bind fun w1 =>
    sub (marshal0 h m.Revision) w1

/-- The loop `for _, sv1 := range m.MessageIDs { helpers.UInt64Size(sv1, &n) }`. -/
def sizeIDs (h : Helpers) : List MessageID → Nat
  | [] => 0
  | sv1 :: ids => h.UInt64Size sv1 + sizeIDs h ids

/-- The function `size3`. -/
def size3 (h : Helpers) (m : NamespaceRequest) : Nat :=
  let l := (h.bytes m.Namespace).length
  2 + h.UInt64Size l + l + h.UInt64Size m.MessageIDs.length + m.MessageIDs.length
    + sizeIDs h m.MessageIDs

/-- The loop `for _, sv1 := range m.MessageIDs { helpers.UInt64Marshal(sv1, b, &o) }`. -/
def marshalIDs (h : Helpers) : List MessageID → List (Fin 256) × Nat →
    Option (List (Fin 256) × Nat)
  | [], w => some w
  | sv1 :: ids, w => (put (h.UInt64Marshal sv1) w).bind fun w1 => marshalIDs h ids w1

/-- The function `marshal3`. -/
def marshal3 (h : Helpers) (m : NamespaceRequest) (b : List (Fin 256)) :
    Option (List (Fin 256) × Nat) :=
  let l := (h.bytes m.Namespace).length
  (put (h.UInt64Marshal l) (b, 0)).bind fun w1 =>
    (put (h.bytes m.Namespace) w1).bind fun w2 =>
      (put (h.UInt64Marshal m.MessageIDs.length) w2).bind fun w3 =>
        marshalIDs h m.MessageIDs w3

/-- The loop `for _, sv1 := range m.Requests { n += size3(&sv1) }`. -/
def sizeRequests (h : Helpers) : List NamespaceRequest → Nat
  | [] => 0
  | sv1 :: rs => size3 h sv1 + sizeRequests h rs

/-- The function `size4`. -/
def size4 (h : Helpers) (m : Hello) : Nat :=
  34 + h.UInt64Size m.Requests.length + sizeRequests h m.Requests

/-- The loop `for _, sv1 := range m.Requests { o += marshal3(&sv1, b[o:]) }`. -/
def marshalRequests (h : Helpers) : List NamespaceRequest → List (Fin 256) × Nat →
    Option (List (Fin 256) × Nat)
  | [], w => some w
  | sv1 :: rs, w => (sub (marshal3 h sv1) w).bind fun w1 => marshalRequests h rs w1

/-- The function `marshal4`.  The offset starts at 1: the byte `b[0]` holds the
flags, of which the statement `b[0] |= 0x01` or `b[0] &= 0xFE` writes the
lowest bit only. -/
def marshal4 (h : Helpers) (m : Hello) (b : List (Fin 256)) : Option (List (Fin 256) × Nat) :=
  (put m.PeerID.val (b, 1)).bind fun w1 =>
    (modifyFirst (fun x => if m.IsServer then x ||| 0x01 else x &&& 0xFE) w1.1).bind fun b2 =>
      (put (h.UInt64Marshal m.Requests.length) (b2, w1.2)).bind fun w3 =>
        marshalRequests h m.Requests w3

/-- The statement `helpers.UInt64Unmarshal(&v, b, &o)`: the value read and the
new offset. -/
def getUInt64 (h : Helpers) (b : List (Fin 256)) (o : Nat) : Option (Nat × Nat) :=
  (h.UInt64Unmarshal (b.drop o)).map fun r => (r.1, o + r.2)

/-- The slice expression `b[o:o+l]`. -/
def slice (b : List (Fin 256)) (o l : Nat) : Option (List (Fin 256)) :=
  if o + l ≤ b.length then some ((b.drop o).take l) else none

/-- The 32 bytes `b[o:o+32]`, as copied into a PeerID. -/
def peerAt (b : List (Fin 256)) (o : Nat) : Option PeerID :=
  if hlen : o + 32 ≤ b.length then
    some ⟨(b.drop o).take 32, by rw [List.length_take, List.length_drop]; omega⟩
  else none

/-- The statement `o += f(m, b[o:])` for an unmarshalling function `f`, which
returns the message it filled and the number of bytes read. -/
def subRead {α : Type} (f : List (Fin 256) → Option (α × Nat)) (b : List (Fin 256)) (o : Nat) :
    Option (α × Nat) :=
  if o ≤ b.length then (f (b.drop o)).map fun r => (r.1, o + r.2) else none

/-- The block that reads a Namespace in `unmarshal2` and `unmarshal3`: the
field is assigned only if the length read is positive.  Returns the field and
the new offset. -/
def readNamespace (h : Helpers) (old : Namespace) (b : List (Fin 256)) (o : Nat) :
    Option (Namespace × Nat) :=
  (getUInt64 h b o).bind fun r =>
    if r.1 > 0 then (slice b r.2 r.1).map fun s => (h.string s, r.2 + r.1)
    else some (old, r.2)

/-- The function `unmarshal2`, on the message `m` it is given to fill. -/
def unmarshal2 (h : Helpers) (m : MessageDescriptor) (b : List (Fin 256)) :
    Option (MessageDescriptor × Nat) :=
  (readNamespace h m.Namespace b 0).bind fun r1 =>
    (getUInt64 h b r1.2).bind fun r2 =>
      some ({ Namespace := r1.1, MessageID := r2.1 }, r2.2)

/-- The function `unmarshal0`. -/
def unmarshal0 (h : Helpers) (m : RevisionDescriptor) (b : List (Fin 256)) :
    Option (RevisionDescriptor × Nat) :=
  (subRead (unmarshal2 h m.Message) b 0).bind fun r1 =>
    (getUInt64 h b r1.2).bind fun r2 =>
      some ({ Message := r1.1, Index := r2.1 }, r2.2)

/-- The function `unmarshal1`. -/
def unmarshal1 (h : Helpers) (m : Header) (b : List (Fin 256)) : Option (Header × Nat) :=
  (peerAt b 0).bind fun sender =>
    (subRead (unmarshal0 h m.Revision) b 32).bind fun r1 =>
      some ({ Sender := sender, Revision := r1.1 }, r1.2)

/-- The loop `for i1 := range l { helpers.UInt64Unmarshal(&m.MessageIDs[i1], b, &o) }`
on a slice made of `l` elements. -/
def unmarshalIDs (h : Helpers) (b : List (Fin 256)) : Nat → Nat → Option (List MessageID × Nat)
  | 0, o => some ([], o)
  | l + 1, o =>
    (getUInt64 h b o).bind fun r =>
      (unmarshalIDs h b l r.2).map fun rs => (r.1 :: rs.1, rs.2)

/-- The function `unmarshal3`. -/
def unmarshal3 (h : Helpers) (m : NamespaceRequest) (b : List (Fin 256)) :
    Option (NamespaceRequest × Nat) :=
  (readNamespace h m.Namespace b 0).bind fun r1 =>
    (getUInt64 h b r1.2).bind fun r2 =>
      if r2.1 > 0 then
        (unmarshalIDs h b r2.1 r2.2).map fun r3 =>
          ({ Namespace := r1.1, MessageIDs := r3.1 }, r3.2)
      else some ({ Namespace := r1.1, MessageIDs := m.MessageIDs }, r2.2)

/-- The loop `for i1 := range l { o += unmarshal3(&m.Requests[i1], b[o:]) }`
on a slice made of `l` zero elements. -/
def unmarshalRequests (h : Helpers) (b : List (Fin 256)) :
    Nat → Nat → Option (List NamespaceRequest × Nat)
  | 0, o => some ([], o)
  | l + 1, o =>
    (subRead (unmarshal3 h { Namespace := "", MessageIDs := [] }) b o).bind fun r =>
      (unmarshalRequests h b l r.2).map fun rs => (r.1 :: rs.1, rs.2)

/-- The function `unmarshal4`; `b.head?` is the byte `b[0]`. -/
def unmarshal4 (h : Helpers) (m : Hello) (b : List (Fin 256)) : Option (Hello × Nat) :=
  (peerAt b 1).bind fun peerID =>
    b.head?.bind fun flags =>
      (getUInt64 h b 33).bind fun r =>
        if r.1 > 0 then
          (unmarshalRequests h b r.1 r.2).map fun rs =>
            ({ PeerID := peerID, IsServer := decide (flags &&& 0x01 ≠ 0), Requests := rs.1 }, rs.2)
        else
          some ({ PeerID := peerID, IsServer := decide (flags &&& 0x01 ≠ 0),
                  Requests := m.Requests }, r.2)

/-- The zero value `Hello{}`. -/
def Hello.zero : Hello :=
  { PeerID := ⟨List.replicate 32 0, by simp⟩, IsServer := false, Requests := [] }

/-- The zero value `Header{}`. -/
def Header.zero : Header :=
  { Sender := ⟨List.replicate 32 0, by simp⟩,
    Revision := { Message := { Namespace := "", MessageID := 0 }, Index := 0 } }

/-- The method `Marshaller.Size`; `none` is an error. -/
def Marshaller.Size (h : Helpers) : Message → Option Nat
  | .hello msg2 => some (size4 h msg2)
  | .header msg2 => some (size1 h msg2)
  | .other => none

/-- The method `Marshaller.Marshal`: the id, the size and the new content of
`buf`; `none` is an error (an unknown type, or a panic that
`helpers.RecoverMarshal` turned into an error). -/
def Marshaller.Marshal (h : Helpers) (msg : Message) (buf : List (Fin 256)) :
    Option (Nat × Nat × List (Fin 256)) :=
  match msg with
  | .hello msg2 => (marshal4 h msg2 buf).map fun r => (id4, r.2, r.1)
  | .header msg2 => (marshal1 h msg2 buf).map fun r => (id1, r.2, r.1)
  | .other => none

/-- The method `Marshaller.Unmarshal`: the message and the size; `none` is an
error (an unknown id, or a recovered panic). -/
def Marshaller.Unmarshal (h : Helpers) (id : Nat) (buf : List (Fin 256)) :
    Option (Message × Nat) :=
  if id = id4 then (unmarshal4 h Hello.zero buf).map fun r => (.hello r.1, r.2)
  else if id = id1 then (unmarshal1 h Header.zero buf).map fun r => (.header r.1, r.2)
  else none

/-- The wire schema of a NamespaceRequest: the varint length of the namespace,
its bytes, the varint count of MessageIDs and each MessageID as a varint. -/
def requestLayout (h : Helpers) (m : NamespaceRequest) : List (Fin 256) :=
  h.UInt64Marshal (h.bytes m.Namespace).length ++ h.bytes m.Namespace ++
    h.UInt64Marshal m.MessageIDs.length ++ m.MessageIDs.flatMap h.UInt64Marshal

/-- The wire schema of a Header: the 32 bytes of Sender, the varint length of
the Namespace, the Namespace bytes, MessageID as a varint, Index as a varint. -/
def headerLayout (h : Helpers) (m : Header) : List (Fin 256) :=
  m.Sender.val ++ h.UInt64Marshal (h.bytes m.Revision.Message.Namespace).length ++
    h.bytes m.Revision.Message.Namespace ++ h.UInt64Marshal m.Revision.Message.MessageID ++
    h.UInt64Marshal m.Revision.Index

/-- The bytes of a Hello after its flags byte and its PeerID: the varint count
of Requests and each NamespaceRequest. -/
def requestsLayout (h : Helpers) (m : Hello) : List (Fin 256) :=
  h.UInt64Marshal m.Requests.length ++ m.Requests.flatMap (requestLayout h)

/-- The layout the specification gives for a Hello: the 32 bytes of PeerID,
then the flags byte, then the requests. -/
def helloLayoutPeerFirst (h : Helpers) (flags : Fin 256) (m : Hello) : List (Fin 256) :=
  m.PeerID.val ++ [flags] ++ requestsLayout h m

/-- The layout with the flags byte first: the flags byte, then the 32 bytes of
PeerID, then the requests. -/
def helloLayoutFlagsFirst (h : Helpers) (flags : Fin 256) (m : Hello) : List (Fin 256) :=
  [flags] ++ m.PeerID.val ++ requestsLayout h m

/-- Whether every `uint64` of a Header (the namespace length, MessageID and
Index) is below 2^64. -/
def Header.InRange (h : Helpers) (m : Header) : Prop :=
  (h.bytes m.Revision.Message.Namespace).length < 2 ^ 64 ∧
  m.Revision.Message.MessageID < 2 ^ 64 ∧ m.Revision.Index < 2 ^ 64

/-- Whether every `uint64` of a NamespaceRequest is below 2^64. -/
def NamespaceRequest.InRange (h : Helpers) (m : NamespaceRequest) : Prop :=
  (h.bytes m.Namespace).length < 2 ^ 64 ∧ m.MessageIDs.length < 2 ^ 64 ∧
  ∀ id ∈ m.MessageIDs, id < 2 ^ 64

/-- Whether every `uint64` of a Hello is below 2^64. -/
def Hello.InRange (h : Helpers) (m : Hello) : Prop :=
  m.Requests.length < 2 ^ 64 ∧ ∀ r ∈ m.Requests, r.InRange h

instance (h : Helpers) (m : Header) : Decidable (m.InRange h) := by
  unfold Header.InRange; infer_instance

instance (h : Helpers) (m : NamespaceRequest) : Decidable (m.InRange h) := by
  unfold NamespaceRequest.InRange; infer_instance

instance (h : Helpers) (m : Hello) : Decidable (m.InRange h) := by
  unfold Hello.InRange; infer_instance

end wire

/-! ## Sample helpers: LEB128 varints and four bytes per character -/

/-- The bytes of `v` as an unsigned LEB128 varint of at most `fuel + 1` bytes:
seven bits per byte, least significant first, the high bit set on every byte
but the last. -/
def leb128 : Nat → Nat → List (Fin 256)
  | 0, v => [Fin.ofNat v]
  | fuel + 1, v =>
    if v < 128 then [Fin.ofNat v] else Fin.ofNat (128 + v % 128) :: leb128 fuel (v / 128)

/-- Reads an unsigned LEB128 varint of at most `fuel + 1` bytes: the value and
the number of bytes read. -/
def unleb128 : Nat → List (Fin 256) → Option (Nat × Nat)
  | _, [] => none
  | 0, x :: _ => some (x.val, 1)
  | fuel + 1, x :: rest =>
    if x.val < 128 then some (x.val, 1)
    else (unleb128 fuel rest).map fun r => (x.val - 128 + 128 * r.1, r.2 + 1)

/-- The code points of a string, four bytes each, least significant first. -/
def codePoints : List Char → List (Fin 256)
  | [] => []
  | c :: cs =>
    Fin.ofNat c.toNat :: Fin.ofNat (c.toNat / 256) :: Fin.ofNat (c.toNat / 65536) ::
      Fin.ofNat (c.toNat / 16777216) :: codePoints cs

/-- The characters of a list of bytes that holds four bytes per code point. -/
def ofCodePoints : List (Fin 256) → List Char
  | x0 :: x1 :: x2 :: x3 :: b =>
    Char.ofNat (x0.val + 256 * x1.val + 65536 * x2.val + 16777216 * x3.val) :: ofCodePoints b
  | _ => []

/-- Helpers for sample values: LEB128 varints of up to ten bytes, and strings
as four bytes per character. -/
def sampleHelpers : wire.Helpers :=
  { UInt64Marshal := leb128 9,
    UInt64Unmarshal := unleb128 9,
    UInt64Size := fun v => (leb128 9 v).length - 1,
    bytes := fun s => codePoints s.data,
    string := fun b => String.mk (ofCodePoints b) }

/-- A header of sender `samplePeer 7` for message 300 of namespace `ns`, revision 5. -/
def sampleWireHeader : wire.Header :=
  { Sender := samplePeer 7,
    Revision := { Message := { Namespace := "ns", MessageID := 300 }, Index := 5 } }

/-- A buffer of `n` bytes that all equal `x`. -/
def sampleBuf (n : Nat) (x : Fin 256) : List (Fin 256) := List.replicate n x

namespace wire

/-- The slice and the offset once the bytes `pre` have been written at the
start of the buffer `b`. -/
def written (pre b : List (Fin 256)) : List (Fin 256) × Nat :=
  (pre ++ b.drop pre.length, pre.length)

/-- The wire schema of a MessageDescriptor: the varint length of the
namespace, its bytes, and MessageID as a varint. -/
def descriptorLayout (h : Helpers) (m : MessageDescriptor) : List (Fin 256) :=
  h.UInt64Marshal (h.bytes m.Namespace).length ++ h.bytes m.Namespace ++
    h.UInt64Marshal m.MessageID

/-- The wire schema of a RevisionDescriptor: the MessageDescriptor, then Index
as a varint. -/
def revisionLayout (h : Helpers) (m : RevisionDescriptor) : List (Fin 256) :=
  descriptorLayout h m.Message ++ h.UInt64Marshal m.Index

/-- The flags byte of a Hello written over a byte that held `x`. -/
def flagsByte (m : Hello) (x : Fin 256) : Fin 256 :=
  if m.IsServer then x ||| 0x01 else x &&& 0xFE

end wire

namespace wire

/-! ## wire/types.proton.go: patches -/

/-- The statement `b[i] = f(b[i])`; `none` is the panic of an index out of range. -/
def modifyAt (i : Nat) (f : Fin 256 → Fin 256) (b : List (Fin 256)) : Option (List (Fin 256)) :=
  match b.get? i with
  | some x => some (b.set i (f x))
  | none => none

/-- The function `makePatch1`: the new content of `b` and the number of bytes
written.  Bit 0 of `b[0]` tells whether Sender follows, bit 1 whether Revision
follows; `reflect.DeepEqual` on arrays and structs is equality. -/
def makePatch1 (h : Helpers) (m mSrc : Header) (b : List (Fin 256)) :
    Option (List (Fin 256) × Nat) :=
  (if m.Sender = mSrc.Sender then
      (modifyAt 0 (fun x => x &&& 0xFE) b).map fun b1 => (b1, 1)
    else
      (modifyAt 0 (fun x => x ||| 0x01) b).bind fun b1 => put m.Sender.val (b1, 1)).bind fun w1 =>
    if m.Revision = mSrc.Revision then
      (modifyAt 0 (fun x => x &&& 0xFD) w1.1).map fun b2 => (b2, w1.2)
    else
      (modifyAt 0 (fun x => x ||| 0x02) w1.1).bind fun b2 =>
        sub (marshal0 h m.Revision) (b2, w1.2)

/-- The function `applyPatch1`, on the message `m` it patches: the patched
message and the number of bytes read. -/
def applyPatch1 (h : Helpers) (m : Header) (b : List (Fin 256)) : Option (Header × Nat) :=
  b.head?.bind fun flags =>
    (if flags &&& 0x01 ≠ 0 then (peerAt b 1).map fun sender => (sender, 33)
      else some (m.Sender, 1)).bind fun r1 =>
      if flags &&& 0x02 ≠ 0 then
        (subRead (unmarshal0 h m.Revision) b r1.2).map fun r2 =>
          ({ Sender := r1.1, Revision := r2.1 }, r2.2)
      else some ({ Sender := r1.1, Revision := m.Revision }, r1.2)

/-- The function `makePatch4`.  Bit 0 of `b[0]` tells whether PeerID follows,
bit 0 of `b[1]` whether IsServer differs, bit 1 of `b[0]` whether Requests
follow.  `reflect.DeepEqual` on the two slices is rendered as equality of
lists, which takes a nil slice and an empty one to be equal. -/
def makePatch4 (h : Helpers) (m mSrc : Hello) (b : List (Fin 256)) :
    Option (List (Fin 256) × Nat) :=
  (if m.PeerID = mSrc.PeerID then
      (modifyAt 0 (fun x => x &&& 0xFE) b).map fun b1 => (b1, 2)
    else
      (modifyAt 0 (fun x => x ||| 0x01) b).bind fun b1 => put m.PeerID.val (b1, 2)).bind fun w1 =>
    (if m.IsServer = mSrc.IsServer then modifyAt 1 (fun x => x &&& 0xFE) w1.1
      else modifyAt 1 (fun x => x ||| 0x01) w1.1).bind fun b2 =>
      if m.Requests = mSrc.Requests then
        (modifyAt 0 (fun x => x &&& 0xFD) b2).map fun b3 => (b3, w1.2)
      else
        (modifyAt 0 (fun x => x ||| 0x02) b2).bind fun b3 =>
          (put (h.UInt64Marshal m.Requests.length) (b3, w1.2)).bind fun w3 =>
            marshalRequests h m.Requests w3

/-- The function `applyPatch4`, on the message `m` it patches.  As in
`unmarshal4`, Requests is assigned only if the count read is positive. -/
def applyPatch4 (h : Helpers) (m : Hello) (b : List (Fin 256)) : Option (Hello × Nat) :=
  b.head?.bind fun flags =>
    (if flags &&& 0x01 ≠ 0 then (peerAt b 2).map fun peerID => (peerID, 34)
      else some (m.PeerID, 2)).bind fun r1 =>
      (b.get? 1).bind fun flags1 =>
        let isServer := if flags1 &&& 0x01 ≠ 0 then !m.IsServer else m.IsServer
        if flags &&& 0x02 ≠ 0 then
          (getUInt64 h b r1.2).bind fun r =>
            if r.1 > 0 then
              (unmarshalRequests h b r.1 r.2).map fun rs =>
                ({ PeerID := r1.1, IsServer := isServer, Requests := rs.1 }, rs.2)
            else some ({ PeerID := r1.1, IsServer := isServer, Requests := m.Requests }, r.2)
        else some ({ PeerID := r1.1, IsServer := isServer, Requests := m.Requests }, r1.2)

/-- The method `Marshaller.MakePatch`: the id, the size and the new content of
`buf`; `none` is an error (an unknown type, or a panic, such as that of the
type assertion on `msgSrc`, which `helpers.RecoverMakePatch` turned into an
error). -/
def Marshaller.MakePatch (h : Helpers) (msgDst msgSrc : Message) (buf : List (Fin 256)) :
    Option (Nat × Nat × List (Fin 256)) :=
  match msgDst, msgSrc with
  | .hello msg2, .hello src => (makePatch4 h msg2 src buf).map fun r => (id4, r.2, r.1)
  | .header msg2, .header src => (makePatch1 h msg2 src buf).map fun r => (id1, r.2, r.1)
  | _, _ => none

/-- The method `Marshaller.ApplyPatch`: the patched message and the size;
`none` is an error. -/
def Marshaller.ApplyPatch (h : Helpers) (msg : Message) (buf : List (Fin 256)) :
    Option (Message × Nat) :=
  match msg with
  | .hello msg2 => (applyPatch4 h msg2 buf).map fun r => (.hello r.1, r.2)
  | .header msg2 => (applyPatch1 h msg2 buf).map fun r => (.header r.1, r.2)
  | .other => none

end wire

/-- The sample Hello without requests. -/
def sampleHelloNoRequests : wire.Hello :=
  { PeerID := samplePeer 9, IsServer := false, Requests := [] }

/-- The sample header with an empty namespace. -/
def sampleWireHeaderNoNamespace : wire.Header :=
  { Sender := samplePeer 7,
    Revision := { Message := { Namespace := "", MessageID := 300 }, Index := 5 } }

/-- A Hello of another peer, a server, with one request. -/
def sampleHelloOther : wire.Hello :=
  { PeerID := samplePeer 3, IsServer := true,
    Requests := [{ Namespace := "ns3", MessageIDs := [7] }] }

/-! # Theorems -/

/-! ## Go maps -/

namespace GoMap

variable {K V : Type} [DecidableEq K]

theorem lookup_store_self (m : GoMap K V) (k : K) (v : V) :
    lookup (store m k v) k = some v := by
  induction m with
  | nil => simp [store, lookup]
  | cons kv m ih =>
    obtain ⟨k', v'⟩ := kv
    by_cases h : k' = k <;> simp [store, lookup, h, ih]

theorem lookup_store_ne (m : GoMap K V) (k k' : K) (v : V) (h : k' ≠ k) :
    lookup (store m k v) k' = lookup m k' := by
  induction m with
  | nil => simp [store, lookup, Ne.symm h]
  | cons kv m ih =>
    obtain ⟨k0, v0⟩ := kv
    by_cases h0 : k0 = k
    · subst h0
      simp [store, lookup, Ne.symm h]
    · by_cases h1 : k0 = k'
      · subst h1
        simp [store, lookup, h0]
      · simp [store, lookup, h0, h1, ih]

theorem lookup_delete_self (m : GoMap K V) (k : K) : lookup (delete m k) k = none := by
  induction m with
  | nil => simp [delete, lookup]
  | cons kv m ih =>
    obtain ⟨k0, v0⟩ := kv
    by_cases h0 : k0 = k <;> simp [delete, lookup, h0, ih]

theorem lookup_delete_ne (m : GoMap K V) (k k' : K) (h : k' ≠ k) :
    lookup (delete m k) k' = lookup m k' := by
  induction m with
  | nil => simp [delete, lookup]
  | cons kv m ih =>
    obtain ⟨k0, v0⟩ := kv
    by_cases h0 : k0 = k
    · subst h0
      simp [delete, lookup, Ne.symm h, ih]
    · by_cases h1 : k0 = k'
      · subst h1
        simp [delete, lookup, h0]
      · simp [delete, lookup, h0, h1, ih]

theorem mem_of_lookup {m : GoMap K V} {k : K} {v : V} (h : lookup m k = some v) :
    (k, v) ∈ m := by
  induction m with
  | nil => simp [lookup] at h
  | cons kv m ih =>
    obtain ⟨k0, v0⟩ := kv
    by_cases h0 : k0 = k
    · subst h0
      simp [lookup] at h
      simp [h]
    · simp [lookup, h0] at h
      exact List.mem_cons_of_mem _ (ih h)

theorem lookup_eq_none_iff (m : GoMap K V) (k : K) : lookup m k = none ↔ k ∉ keys m := by
  induction m with
  | nil => simp [lookup, keys]
  | cons kv m ih =>
    obtain ⟨k0, v0⟩ := kv
    by_cases h0 : k0 = k
    · simp [lookup, keys, h0]
    · simp only [lookup, h0, if_false, ih, keys, List.map_cons, List.mem_cons]
      constructor
      · intro h hk
        rcases hk with hk | hk
        · exact h0 hk.symm
        · exact h hk
      · intro h hk
        exact h (Or.inr hk)

theorem lookup_of_mem {m : GoMap K V} (hnd : (keys m).Nodup) {k : K} {v : V}
    (h : (k, v) ∈ m) : lookup m k = some v := by
  induction m with
  | nil => simp at h
  | cons kv m ih =>
    obtain ⟨k0, v0⟩ := kv
    simp only [keys, List.map_cons, List.nodup_cons] at hnd
    rcases List.mem_cons.mp h with h | h
    · cases h
      simp [lookup]
    · have hk : k ∈ keys m := List.mem_map.mpr ⟨(k, v), h, rfl⟩
      have h0 : k0 ≠ k := fun e => hnd.1 (e ▸ hk)
      simp only [lookup, h0, if_false]
      exact ih hnd.2 h

theorem keys_store (m : GoMap K V) (k : K) (v : V) :
    keys (store m k v) = if k ∈ keys m then keys m else keys m ++ [k] := by
  induction m with
  | nil => simp [store, keys]
  | cons kv m ih =>
    obtain ⟨k0, v0⟩ := kv
    by_cases h0 : k0 = k
    · subst h0
      simp [store, keys]
    · have h0' : ¬ k = k0 := fun e => h0 e.symm
      simp only [keys] at ih
      by_cases hk : k ∈ List.map Prod.fst m <;>
        simp [store, keys, h0, h0', ih, hk]

theorem nodup_keys_store {m : GoMap K V} (hnd : (keys m).Nodup) (k : K) (v : V) :
    (keys (store m k v)).Nodup := by
  rw [keys_store]
  by_cases hk : k ∈ keys m
  · simpa [hk] using hnd
  · simp only [hk, if_false]
    exact List.Nodup.append hnd (List.nodup_singleton k) (by simpa using hk)

theorem delete_eq_filter (m : GoMap K V) (k : K) :
    delete m k = m.filter fun kv => decide (kv.1 ≠ k) := by
  induction m with
  | nil => simp [delete]
  | cons kv m ih =>
    obtain ⟨k0, v0⟩ := kv
    by_cases h0 : k0 = k <;> simp [delete, h0, ih]

theorem nodup_keys_delete {m : GoMap K V} (hnd : (keys m).Nodup) (k : K) :
    (keys (delete m k)).Nodup := by
  rw [delete_eq_filter]
  exact (List.Nodup.sublist (List.Sublist.map _ (List.filter_sublist m)) hnd)

theorem lookup_perm {m m' : GoMap K V} (hp : m.Perm m') (hnd : (keys m).Nodup) (k : K) :
    lookup m k = lookup m' k := by
  have hnd' : (keys m').Nodup := (List.Perm.nodup_iff (hp.map Prod.fst)).mp hnd
  cases h : lookup m' k with
  | none =>
    rw [lookup_eq_none_iff] at h ⊢
    intro hk
    exact h ((hp.map Prod.fst).mem_iff.mp hk)
  | some v =>
    exact lookup_of_mem hnd (hp.mem_iff.mpr (mem_of_lookup h))

end GoMap

/-! ## Channels -/

section Channels

variable {α : Type}

theorem Outcome.bind_eq_ok {β γ : Type} {x : Outcome β} {f : β → Outcome γ} {c : γ}
    (h : x.bind f = .ok c) : ∃ b, x = .ok b ∧ f b = .ok c := by
  cases x with
  | ok b => exact ⟨b, rfl, h⟩
  | fault e => simp [Outcome.bind] at h

theorem chanSend_eq_ok {heap heap1 : List (Chan α)} {ch : Nat} {v : α}
    (h : chanSend heap ch v = .ok heap1) :
    ∃ c, heap[ch]? = some c ∧ c.closed = false ∧
      (c.draining = true ∨ c.sent.length < c.cap) ∧ heap1 = heap.set ch (c.push v) := by
  unfold chanSend at h
  cases hc : heap[ch]? with
  | none => simp [hc] at h
  | some c =>
    simp only [hc] at h
    by_cases h1 : c.closed = true
    · simp [h1] at h
    · by_cases h2 : (c.draining || decide (c.sent.length < c.cap)) = true
      · simp only [h1, h2, if_true] at h
        refine ⟨c, rfl, by simpa using h1, by simpa using h2, ?_⟩
        simpa using h.symm
      · simp [h1, h2] at h

theorem chanSend_of_room {heap : List (Chan α)} {ch : Nat} {c : Chan α} (v : α)
    (hc : heap[ch]? = some c) (hopen : c.closed = false)
    (hroom : c.draining = true ∨ c.sent.length < c.cap) :
    chanSend heap ch v = .ok (heap.set ch (c.push v)) := by
  unfold chanSend
  simp only [hc, hopen]
  rcases hroom with h | h <;> simp [h]

theorem chanLive_iff {heap : List (Chan α)} {ch : Nat} :
    chanLive heap ch = true ↔ ∃ c, heap[ch]? = some c ∧ c.closed = false ∧ c.draining = true := by
  unfold chanLive
  cases heap[ch]? with
  | none => simp
  | some c => simp

theorem chanSendEach_live (v : α) (chs : List Nat) :
    ∀ heap : List (Chan α), chs.Nodup → (∀ ch ∈ chs, chanLive heap ch = true) →
      ∃ heap1, chanSendEach heap v chs = .ok heap1 ∧ heap1.length = heap.length ∧
        (∀ ch ∈ chs, heap1[ch]? = (heap[ch]?).map fun c => c.push v) ∧
        (∀ i, i ∉ chs → heap1[i]? = heap[i]?) := by
  induction chs with
  | nil => intro heap _ _; exact ⟨heap, rfl, rfl, by simp, by simp⟩
  | cons ch chs ih =>
    intro heap hnd hl
    obtain ⟨hn, hnd'⟩ := List.nodup_cons.mp hnd
    obtain ⟨c, hc, hopen, hdr⟩ := chanLive_iff.mp (hl ch (List.mem_cons_self _ _))
    have hlt : ch < heap.length := by
      by_contra hge
      rw [List.getElem?_eq_none (Nat.le_of_not_lt hge)] at hc
      cases hc
    have hl1 : ∀ ch' ∈ chs, chanLive (heap.set ch (c.push v)) ch' = true := by
      intro ch' hm
      have hne : ch ≠ ch' := fun e => hn (e ▸ hm)
      have := hl ch' (List.mem_cons_of_mem _ hm)
      unfold chanLive at this ⊢
      rwa [List.getElem?_set_ne hne]
    obtain ⟨heap1, hs, hlen, hin, hout⟩ := ih (heap.set ch (c.push v)) hnd' hl1
    refine ⟨heap1, ?_, by simpa using hlen, ?_, ?_⟩
    · simp [chanSendEach, chanSend_of_room v hc hopen (Or.inl hdr), Outcome.bind, hs]
    · intro ch' hm
      rcases List.mem_cons.mp hm with e | hm'
      · subst e
        rw [hout _ hn, List.getElem?_set_self hlt, hc]
        rfl
      · have hne : ch ≠ ch' := fun e => hn (e ▸ hm')
        rw [hin _ hm', List.getElem?_set_ne hne]
    · intro i hi
      have hne : ch ≠ i := fun e => hi (e ▸ List.mem_cons_self _ _)
      have hi' : i ∉ chs := fun hm => hi (List.mem_cons_of_mem _ hm)
      rw [hout _ hi', List.getElem?_set_ne hne]

end Channels

/-! ## Broadcast -/

theorem drops_eq_true {c : serverConns} {e : revision} :
    c.drops e = true ↔ ∃ existing, GoMap.lookup c.msgs e.key = some existing ∧
      e.Header.Revision.Index ≤ existing.Header.Revision.Index := by
  unfold serverConns.drops
  cases GoMap.lookup c.msgs e.key with
  | none => simp
  | some x => simp

theorem mem_senders_of_lookup {conns : GoMap wire.PeerID chans} {peerID : wire.PeerID}
    {chs : chans} (h : GoMap.lookup conns peerID = some chs) :
    chs ∈ GoMap.values conns ∧ chs.Sender ∈ (GoMap.values conns).map chans.Sender := by
  have hm : chs ∈ GoMap.values conns := List.mem_map.mpr ⟨_, GoMap.mem_of_lookup h, rfl⟩
  exact ⟨hm, List.mem_map.mpr ⟨_, hm, rfl⟩⟩

theorem Broadcast_of_drops {c : serverConns} {e : revision} (h : c.drops e = true) :
    c.Broadcast e = .ok c := by
  simp [serverConns.Broadcast, h]

theorem Broadcast_of_not_drops {c : serverConns} {e : revision} (h : c.drops e = false) :
    c.Broadcast e =
      (chanSendEach c.heap e ((GoMap.values c.conns).map chans.Sender)).bind fun heap1 =>
        .ok { conns := c.conns, msgs := GoMap.store c.msgs e.key e, heap := heap1 } := by
  simp [serverConns.Broadcast, h]

/-- C1: if the store already holds an entry under the key of `e` whose Index is
at least that of `e`, `Broadcast` returns with the state unchanged: the store
map is the same and no queue received anything. -/
theorem Broadcast_drop_is_noop (c : serverConns) (e existing : revision)
    (hex : GoMap.lookup c.msgs e.key = some existing)
    (hge : existing.Header.Revision.Index ≥ e.Header.Revision.Index) :
    c.Broadcast e = .ok c :=
  Broadcast_of_drops (drops_eq_true.mpr ⟨existing, hex, hge⟩)

theorem Broadcast_drop_is_noop_witness :
    GoMap.lookup sampleConns.msgs (sampleEntry "ns" 1 7 3 [2]).key
        = some (sampleEntry "ns" 1 7 3 [1]) ∧
      sampleConns.Broadcast (sampleEntry "ns" 1 7 3 [2]) = .ok sampleConns :=
  ⟨by decide, Broadcast_drop_is_noop sampleConns (sampleEntry "ns" 1 7 3 [2])
    (sampleEntry "ns" 1 7 3 [1]) (by decide) (by decide)⟩

/-- C2: in a well-formed state, if the store holds no entry under the key of
`e`, or one with a strictly smaller Index, `Broadcast` returns a state whose
store maps the key to `e` and agrees with the old store on every other key; the
registry is the same; every registered queue (that of the peer `e` came from
included) holds its old frames followed by `e`, once; every other channel is
untouched. -/
theorem Broadcast_accept_stores_and_enqueues (c : serverConns) (e : revision) (hwf : c.WF)
    (hnew : ∀ existing, GoMap.lookup c.msgs e.key = some existing →
      existing.Header.Revision.Index < e.Header.Revision.Index) :
    ∃ c1, c.Broadcast e = .ok c1 ∧
      GoMap.lookup c1.msgs e.key = some e ∧
      (∀ k, k ≠ e.key → GoMap.lookup c1.msgs k = GoMap.lookup c.msgs k) ∧
      c1.conns = c.conns ∧ c1.heap.length = c.heap.length ∧
      (∀ peerID chs, GoMap.lookup c.conns peerID = some chs →
        ∃ q, c.heap[chs.Sender]? = some q ∧ c1.heap[chs.Sender]? = some (q.push e)) ∧
      (∀ i, (∀ peerID chs, GoMap.lookup c.conns peerID = some chs → chs.Sender ≠ i) →
        c1.heap[i]? = c.heap[i]?) := by
  obtain ⟨_, _, _, hinj, hlive⟩ := hwf
  have hd : c.drops e = false := by
    cases h : c.drops e with
    | false => rfl
    | true =>
      obtain ⟨x, hx, hle⟩ := drops_eq_true.mp h
      exact absurd (hnew x hx) (Nat.not_lt.mpr hle)
  have hl : ∀ ch ∈ (GoMap.values c.conns).map chans.Sender, chanLive c.heap ch = true := by
    intro ch hm
    obtain ⟨chs, hchs, rfl⟩ := List.mem_map.mp hm
    exact (hlive chs hchs).2
  obtain ⟨heap1, hs, hlen, hin, hout⟩ := chanSendEach_live e _ c.heap hinj hl
  refine ⟨{ conns := c.conns, msgs := GoMap.store c.msgs e.key e, heap := heap1 }, ?_,
    GoMap.lookup_store_self _ _ _, fun k hk => GoMap.lookup_store_ne _ _ _ _ hk, rfl, hlen, ?_, ?_⟩
  · rw [Broadcast_of_not_drops hd, hs]
    rfl
  · intro peerID chs hp
    obtain ⟨hv, hm⟩ := mem_senders_of_lookup hp
    obtain ⟨q, hq, _, _⟩ := chanLive_iff.mp (hlive chs hv).2
    refine ⟨q, hq, ?_⟩
    show heap1[chs.Sender]? = _
    rw [hin _ hm, hq]
    rfl
  · intro i hi
    apply hout
    intro hm
    obtain ⟨chs, hchs, rfl⟩ := List.mem_map.mp hm
    obtain ⟨kv, hkv, rfl⟩ := List.mem_map.mp hchs
    exact hi kv.1 kv.2 (GoMap.lookup_of_mem ‹_› hkv) rfl

theorem Broadcast_accept_stores_and_enqueues_witness :
    sampleConns.WF ∧
      ∃ c1, sampleConns.Broadcast (sampleEntry "ns" 1 7 4 [2]) = .ok c1 ∧
        GoMap.lookup c1.msgs (sampleEntry "ns" 1 7 4 [2]).key = some (sampleEntry "ns" 1 7 4 [2]) ∧
        (∀ k, k ≠ (sampleEntry "ns" 1 7 4 [2]).key →
          GoMap.lookup c1.msgs k = GoMap.lookup sampleConns.msgs k) ∧
        c1.conns = sampleConns.conns ∧ c1.heap.length = sampleConns.heap.length ∧
        (∀ peerID chs, GoMap.lookup sampleConns.conns peerID = some chs →
          ∃ q, sampleConns.heap[chs.Sender]? = some q ∧
            c1.heap[chs.Sender]? = some (q.push (sampleEntry "ns" 1 7 4 [2]))) ∧
        (∀ i, (∀ peerID chs, GoMap.lookup sampleConns.conns peerID = some chs → chs.Sender ≠ i) →
          c1.heap[i]? = sampleConns.heap[i]?) :=
  ⟨by decide, Broadcast_accept_stores_and_enqueues sampleConns (sampleEntry "ns" 1 7 4 [2])
    (by decide) (by decide)⟩

/-! ## Effect of the steps on the store -/

theorem chanSendAll_eq_ok {α : Type} {ch : Nat} (vs : List α) :
    ∀ {heap heap1 : List (Chan α)}, chanSendAll heap ch vs = .ok heap1 →
      heap1.length = heap.length ∧ (∀ i, i ≠ ch → heap1[i]? = heap[i]?) ∧
      (∀ q, heap[ch]? = some q → heap1[ch]? = some { q with sent := q.sent ++ vs }) := by
  induction vs with
  | nil =>
    intro heap heap1 h
    simp only [chanSendAll, Outcome.ok.injEq] at h
    subst h
    simp
  | cons v vs ih =>
    intro heap heap1 h
    obtain ⟨heap0, h0, h1⟩ := Outcome.bind_eq_ok h
    obtain ⟨q, hq, _, _, rfl⟩ := chanSend_eq_ok h0
    obtain ⟨hlen, hne, hat⟩ := ih h1
    have hlt : ch < heap.length := by
      by_contra hge
      rw [List.getElem?_eq_none (Nat.le_of_not_lt hge)] at hq
      cases hq
    refine ⟨by simpa using hlen, ?_, fun q1 hq1 => ?_⟩
    · intro i hi
      rw [hne i hi, List.getElem?_set_ne (Ne.symm hi)]
    · rw [hq] at hq1
      cases hq1
      rw [hat _ (List.getElem?_set_self hlt)]
      simp [Chan.push]

theorem Add_eq_ok {c : serverConns} {peerID : wire.PeerID} {r : serverConns × Nat}
    (h : c.Add peerID = .ok r) :
    ∃ heap1 heap2,
      (match GoMap.lookup c.conns peerID with
        | some old => chanClose (c.heap ++ [Chan.make 10]) old.Sender
        | none => .ok (c.heap ++ [Chan.make 10])) = .ok heap1 ∧
      chanSendAll heap1 c.heap.length (GoMap.values c.msgs) = .ok heap2 ∧
      r = ({ conns := GoMap.store c.conns peerID
               { Sender := c.heap.length, Receiver := c.heap.length },
             msgs := c.msgs, heap := heap2 }, c.heap.length) := by
  unfold serverConns.Add at h
  obtain ⟨heap1, h1, h2⟩ := Outcome.bind_eq_ok h
  obtain ⟨heap2, h3, h4⟩ := Outcome.bind_eq_ok h2
  simp only [Outcome.ok.injEq] at h4
  exact ⟨heap1, heap2, h1, h3, h4.symm⟩

theorem Remove_eq_ok {c c1 : serverConns} {peerID : wire.PeerID} {ch : Nat}
    (h : c.Remove peerID ch = .ok c1) :
    c1 = c ∨ ∃ chs heap1, GoMap.lookup c.conns peerID = some chs ∧ chs.Receiver = ch ∧
      chanClose c.heap chs.Sender = .ok heap1 ∧
      c1 = { conns := GoMap.delete c.conns peerID, msgs := c.msgs, heap := heap1 } := by
  unfold serverConns.Remove at h
  cases hl : GoMap.lookup c.conns peerID with
  | none =>
    simp only [hl, Outcome.ok.injEq] at h
    exact Or.inl h.symm
  | some chs =>
    simp only [hl] at h
    by_cases hr : chs.Receiver = ch
    · simp only [hr, if_true] at h
      obtain ⟨heap1, h1, h2⟩ := Outcome.bind_eq_ok h
      simp only [Outcome.ok.injEq] at h2
      exact Or.inr ⟨chs, heap1, rfl, hr, h1, h2.symm⟩
    · simp only [hr, if_false, Outcome.ok.injEq] at h
      exact Or.inl h.symm

theorem Broadcast_eq_ok {c c1 : serverConns} {e : revision} (h : c.Broadcast e = .ok c1) :
    (c.drops e = true ∧ c1 = c) ∨
    (c.drops e = false ∧ ∃ heap1,
      chanSendEach c.heap e ((GoMap.values c.conns).map chans.Sender) = .ok heap1 ∧
      c1 = { conns := c.conns, msgs := GoMap.store c.msgs e.key e, heap := heap1 }) := by
  cases hd : c.drops e with
  | true =>
    rw [Broadcast_of_drops hd] at h
    simp only [Outcome.ok.injEq] at h
    exact Or.inl ⟨rfl, h.symm⟩
  | false =>
    rw [Broadcast_of_not_drops hd] at h
    obtain ⟨heap1, h1, h2⟩ := Outcome.bind_eq_ok h
    simp only [Outcome.ok.injEq] at h2
    exact Or.inr ⟨rfl, heap1, h1, h2.symm⟩

/-- What a step does to the store: nothing, a reordering, or the overwrite of
an accepted broadcast. -/
theorem step_msgs {c c1 : serverConns} {op : Op} (h : step c op = .ok c1) :
    (c1.msgs.Perm c.msgs ∧ ∀ e, op = .broadcast e → c.drops e = true) ∨
    ∃ e, op = .broadcast e ∧ c.drops e = false ∧ c1.msgs = GoMap.store c.msgs e.key e := by
  cases op with
  | add peerID =>
    simp only [step] at h
    obtain ⟨r, h1, h2⟩ := Outcome.bind_eq_ok h
    obtain ⟨heap1, heap2, _, _, rfl⟩ := Add_eq_ok h1
    simp only [Outcome.ok.injEq] at h2
    subst h2
    exact Or.inl ⟨List.Perm.refl _, fun e he => by cases he⟩
  | remove peerID ch =>
    simp only [step] at h
    rcases Remove_eq_ok h with rfl | ⟨chs, heap1, _, _, _, rfl⟩
    · exact Or.inl ⟨List.Perm.refl _, fun e he => by cases he⟩
    · exact Or.inl ⟨List.Perm.refl _, fun e he => by cases he⟩
  | broadcast e =>
    simp only [step] at h
    rcases Broadcast_eq_ok h with ⟨hd, rfl⟩ | ⟨hd, heap1, _, rfl⟩
    · exact Or.inl ⟨List.Perm.refl _, fun e' he => by cases he; exact hd⟩
    · exact Or.inr ⟨e, rfl, hd, rfl⟩
  | reorder conns msgs =>
    simp only [step] at h
    by_cases hp : conns.Perm c.conns ∧ msgs.Perm c.msgs
    · simp only [hp, and_self, if_true, Outcome.ok.injEq] at h
      subst h
      exact Or.inl ⟨hp.2, fun e he => by cases he⟩
    · simp only [hp, if_false, Outcome.ok.injEq] at h
      subst h
      exact Or.inl ⟨List.Perm.refl _, fun e he => by cases he⟩

theorem run_append {c c2 : serverConns} (ops more : List Op) :
    run c (ops ++ more) = .ok c2 ↔ ∃ c1, run c ops = .ok c1 ∧ run c1 more = .ok c2 := by
  induction ops generalizing c with
  | nil => simp [run]
  | cons op ops ih =>
    simp only [List.cons_append, run]
    cases hs : step c op with
    | ok c0 => simpa [Outcome.bind] using ih
    | fault f => simp [Outcome.bind]

theorem broadcasts_append (ops more : List Op) :
    broadcasts (ops ++ more) = broadcasts ops ++ broadcasts more := by
  induction ops with
  | nil => rfl
  | cons op ops ih => cases op <;> simp [broadcasts, ih]

/-! ## The store holds the greatest Index -/

theorem drops_eq_false {c : serverConns} {e : revision} (h : c.drops e = false) :
    ∀ existing, GoMap.lookup c.msgs e.key = some existing →
      existing.Header.Revision.Index < e.Header.Revision.Index := by
  intro x hx
  by_contra hlt
  have : c.drops e = true := drops_eq_true.mpr ⟨x, hx, Nat.le_of_not_lt hlt⟩
  rw [h] at this
  cases this

theorem storeIsMax_perm {msgs msgs1 : GoMap revDescriptor revision} {bs : List revision}
    (hp : msgs1.Perm msgs) (h : StoreIsMax msgs bs) : StoreIsMax msgs1 bs := by
  obtain ⟨hnd, hk⟩ := h
  have hnd1 : (GoMap.keys msgs1).Nodup := (List.Perm.nodup_iff (hp.map Prod.fst)).mpr hnd
  refine ⟨hnd1, fun k => ?_⟩
  rw [GoMap.lookup_perm hp hnd1 k]
  exact hk k

theorem storeIsMax_dropped {msgs : GoMap revDescriptor revision} {bs : List revision}
    {e existing : revision} (h : StoreIsMax msgs bs)
    (hex : GoMap.lookup msgs e.key = some existing)
    (hle : e.Header.Revision.Index ≤ existing.Header.Revision.Index) :
    StoreIsMax msgs (bs ++ [e]) := by
  obtain ⟨hnd, hk⟩ := h
  refine ⟨hnd, fun k => ⟨fun v hv => ?_, fun hn e1 he1 hkey => ?_⟩⟩
  · obtain ⟨hmem, hkey, hmax⟩ := (hk k).1 v hv
    refine ⟨List.mem_append_left _ hmem, hkey, fun e1 he1 hk1 => ?_⟩
    rcases List.mem_append.mp he1 with he1 | he1
    · exact hmax e1 he1 hk1
    · simp only [List.mem_singleton] at he1
      subst he1
      rw [hk1, hv] at hex
      cases hex
      exact hle
  · rcases List.mem_append.mp he1 with he1 | he1
    · exact (hk k).2 hn e1 he1 hkey
    · simp only [List.mem_singleton] at he1
      subst he1
      rw [hkey, hn] at hex
      cases hex

theorem storeIsMax_stored {msgs : GoMap revDescriptor revision} {bs : List revision}
    {e : revision} (h : StoreIsMax msgs bs)
    (hlt : ∀ existing, GoMap.lookup msgs e.key = some existing →
      existing.Header.Revision.Index < e.Header.Revision.Index) :
    StoreIsMax (GoMap.store msgs e.key e) (bs ++ [e]) := by
  obtain ⟨hnd, hk⟩ := h
  refine ⟨GoMap.nodup_keys_store hnd _ _, fun k => ?_⟩
  by_cases hkey : k = e.key
  · subst hkey
    rw [GoMap.lookup_store_self]
    refine ⟨fun v hv => ?_, fun hn => by cases hn⟩
    cases hv
    refine ⟨by simp, rfl, fun e1 he1 hk1 => ?_⟩
    rcases List.mem_append.mp he1 with he1 | he1
    · cases hl : GoMap.lookup msgs e.key with
      | none => exact absurd hk1 ((hk e.key).2 hl e1 he1)
      | some x =>
        exact Nat.le_trans (((hk e.key).1 x hl).2.2 e1 he1 hk1) (Nat.le_of_lt (hlt x hl))
    · simp only [List.mem_singleton] at he1
      subst he1
      exact Nat.le_refl _
  · rw [GoMap.lookup_store_ne _ _ _ _ hkey]
    refine ⟨fun v hv => ?_, fun hn e1 he1 hk1 => ?_⟩
    · obtain ⟨hmem, hkv, hmax⟩ := (hk k).1 v hv
      refine ⟨List.mem_append_left _ hmem, hkv, fun e1 he1 hk1 => ?_⟩
      rcases List.mem_append.mp he1 with he1 | he1
      · exact hmax e1 he1 hk1
      · simp only [List.mem_singleton] at he1
        subst he1
        exact absurd hk1.symm hkey
    · rcases List.mem_append.mp he1 with he1 | he1
      · exact (hk k).2 hn e1 he1 hk1
      · simp only [List.mem_singleton] at he1
        subst he1
        exact hkey hk1.symm

theorem storeIsMax_step {c c1 : serverConns} {op : Op} {bs : List revision}
    (h : StoreIsMax c.msgs bs) (hs : step c op = .ok c1) :
    StoreIsMax c1.msgs (bs ++ broadcasts [op]) := by
  rcases step_msgs hs with ⟨hp, hd⟩ | ⟨e, rfl, hd, hm⟩
  · cases op with
    | broadcast e =>
      obtain ⟨x, hx, hle⟩ := drops_eq_true.mp (hd e rfl)
      exact storeIsMax_perm hp (storeIsMax_dropped h hx hle)
    | add peerID => simpa [broadcasts] using storeIsMax_perm hp h
    | remove peerID ch => simpa [broadcasts] using storeIsMax_perm hp h
    | reorder conns msgs => simpa [broadcasts] using storeIsMax_perm hp h
  · rw [hm]
    exact storeIsMax_stored h (drops_eq_false hd)

theorem storeIsMax_run (ops : List Op) :
    ∀ {c c1 : serverConns} {bs : List revision}, StoreIsMax c.msgs bs → run c ops = .ok c1 →
      StoreIsMax c1.msgs (bs ++ broadcasts ops) := by
  induction ops with
  | nil =>
    intro c c1 bs h hr
    simp only [run, Outcome.ok.injEq] at hr
    subst hr
    simpa [broadcasts] using h
  | cons op ops ih =>
    intro c c1 bs h hr
    obtain ⟨c0, h0, h1⟩ := Outcome.bind_eq_ok hr
    have := ih (storeIsMax_step h h0) h1
    rwa [List.append_assoc, ← broadcasts_append] at this

theorem storeIsMax_new : StoreIsMax newServerConns.msgs [] :=
  ⟨List.nodup_nil, fun _ => ⟨fun v hv => (by cases hv), fun _ e he => (by cases he)⟩⟩

/-- C3: after any sequence `ops` of Add, Remove and Broadcast steps (and
reorderings of the maps) on an empty `serverConns`, for every key `k`: the
store has an entry under `k` exactly when an entry with key `k` was broadcast;
that entry is one of the broadcast entries with key `k` and no broadcast entry
with key `k` has a greater Index; and whatever steps `more` follow, the Index
stored under `k` does not decrease. -/
theorem store_holds_greatest_index (ops more : List Op) (c c1 : serverConns)
    (k : revDescriptor) (h : run newServerConns ops = .ok c) (h1 : run c more = .ok c1) :
    ((∃ v, GoMap.lookup c.msgs k = some v) ↔ ∃ e ∈ broadcasts ops, e.key = k) ∧
    (∀ v, GoMap.lookup c.msgs k = some v → v ∈ broadcasts ops ∧ v.key = k ∧
      ∀ e ∈ broadcasts ops, e.key = k →
        e.Header.Revision.Index ≤ v.Header.Revision.Index) ∧
    (∀ v, GoMap.lookup c.msgs k = some v → ∃ v1, GoMap.lookup c1.msgs k = some v1 ∧
      v.Header.Revision.Index ≤ v1.Header.Revision.Index) := by
  have hc : StoreIsMax c.msgs (broadcasts ops) := by
    simpa using storeIsMax_run ops storeIsMax_new h
  have hc1 : StoreIsMax c1.msgs (broadcasts ops ++ broadcasts more) := storeIsMax_run more hc h1
  refine ⟨⟨fun ⟨v, hv⟩ => ⟨v, ((hc.2 k).1 v hv).1, ((hc.2 k).1 v hv).2.1⟩, fun ⟨e, he, hk⟩ => ?_⟩,
    (hc.2 k).1, fun v hv => ?_⟩
  · cases hl : GoMap.lookup c.msgs k with
    | none => exact absurd hk ((hc.2 k).2 hl e he)
    | some v => exact ⟨v, rfl⟩
  · obtain ⟨hmem, hkv, _⟩ := (hc.2 k).1 v hv
    cases hl : GoMap.lookup c1.msgs k with
    | none => exact absurd hkv ((hc1.2 k).2 hl v (List.mem_append_left _ hmem))
    | some v1 => exact ⟨v1, rfl, ((hc1.2 k).1 v1 hl).2.2 v (List.mem_append_left _ hmem) hkv⟩

/-! ## Add and Remove -/

theorem lt_of_getElem?_eq_some {α : Type} {l : List α} {i : Nat} {a : α}
    (h : l[i]? = some a) : i < l.length := by
  by_contra hge
  rw [List.getElem?_eq_none (Nat.le_of_not_lt hge)] at h
  cases h

theorem chanClose_eq_ok {α : Type} {heap heap1 : List (Chan α)} {ch : Nat}
    (h : chanClose heap ch = .ok heap1) :
    ∃ q, heap[ch]? = some q ∧ q.closed = false ∧ heap1 = heap.set ch { q with closed := true } := by
  unfold chanClose at h
  cases hq : heap[ch]? with
  | none => simp [hq] at h
  | some q =>
    simp only [hq] at h
    by_cases hc : q.closed = true
    · simp [hc] at h
    · simp only [hc, Bool.false_eq_true, if_false, Outcome.ok.injEq] at h
      exact ⟨q, rfl, by simpa using hc, h.symm⟩

theorem chanClose_of_open {α : Type} {heap : List (Chan α)} {ch : Nat} {q : Chan α}
    (hq : heap[ch]? = some q) (hopen : q.closed = false) :
    chanClose heap ch = .ok (heap.set ch { q with closed := true }) := by
  simp [chanClose, hq, hopen]

theorem chanLive_lt {α : Type} {heap : List (Chan α)} {ch : Nat}
    (h : chanLive heap ch = true) : ch < heap.length := by
  obtain ⟨q, hq, _, _⟩ := chanLive_iff.mp h
  exact lt_of_getElem?_eq_some hq

/-- What `Add` returns, when it returns, in a state whose registered queues
are channels of the heap. -/
theorem Add_spec {c : serverConns} {peerID : wire.PeerID} {r : serverConns × Nat}
    (hb : ∀ old, GoMap.lookup c.conns peerID = some old → old.Sender < c.heap.length)
    (h : c.Add peerID = .ok r) :
    r.2 = c.heap.length ∧
    r.1.conns = GoMap.store c.conns peerID
      { Sender := c.heap.length, Receiver := c.heap.length } ∧
    r.1.msgs = c.msgs ∧ r.1.heap.length = c.heap.length + 1 ∧
    r.1.heap[c.heap.length]? =
      some { cap := 10, sent := GoMap.values c.msgs, closed := false, draining := false } ∧
    (∀ i, i < c.heap.length →
      (∀ old, GoMap.lookup c.conns peerID = some old → old.Sender ≠ i) →
      r.1.heap[i]? = c.heap[i]?) ∧
    (∀ old, GoMap.lookup c.conns peerID = some old → ∃ q, c.heap[old.Sender]? = some q ∧
      q.closed = false ∧ r.1.heap[old.Sender]? = some { q with closed := true }) := by
  obtain ⟨heap1, heap2, h1, h2, rfl⟩ := Add_eq_ok h
  obtain ⟨hlen, hne, hat⟩ := chanSendAll_eq_ok _ h2
  have hnew : (c.heap ++ [Chan.make 10])[c.heap.length]? = some (Chan.make 10 : Chan revision) :=
    List.getElem?_concat_length _ _
  cases hl : GoMap.lookup c.conns peerID with
  | none =>
    simp only [hl, Outcome.ok.injEq] at h1
    subst h1
    refine ⟨rfl, rfl, rfl, by simpa using hlen, ?_, ?_, fun old ho => by cases ho⟩
    · simpa [Chan.make] using hat _ hnew
    · intro i hi _
      show heap2[i]? = _
      rw [hne i (Nat.ne_of_lt hi), List.getElem?_append_left hi]
  | some old =>
    simp only [hl] at h1
    have hold : old.Sender < c.heap.length := hb old hl
    obtain ⟨q, hq, hopen, rfl⟩ := chanClose_eq_ok h1
    rw [List.getElem?_append_left hold] at hq
    have hnew1 : ((c.heap ++ [Chan.make 10]).set old.Sender { q with closed := true })[c.heap.length]?
        = some (Chan.make 10 : Chan revision) := by
      rw [List.getElem?_set_ne (Nat.ne_of_lt hold), hnew]
    refine ⟨rfl, rfl, rfl, by simpa using hlen, ?_, ?_, ?_⟩
    · simpa [Chan.make] using hat _ hnew1
    · intro i hi hne1
      show heap2[i]? = _
      rw [hne i (Nat.ne_of_lt hi), List.getElem?_set_ne (hne1 old rfl),
        List.getElem?_append_left hi]
    · intro old1 ho
      cases ho
      refine ⟨q, hq, hopen, ?_⟩
      show heap2[old.Sender]? = _
      rw [hne _ (Nat.ne_of_lt hold), List.getElem?_set_self (by simp; omega)]

theorem chanDrain_getElem? {α : Type} (heap : List (Chan α)) (ch i : Nat) :
    (chanDrain heap ch)[i]? =
      if i = ch then (heap[i]?).map fun q => { q with draining := true } else heap[i]? := by
  unfold chanDrain
  by_cases hi : i = ch
  · subst hi
    cases hq : heap[i]? with
    | none => simp [hq]
    | some q => simp [hq, List.getElem?_set_self (lt_of_getElem?_eq_some hq)]
  · cases hq : heap[ch]? with
    | none => simp [hi]
    | some q => simp [hi, List.getElem?_set_ne (Ne.symm hi)]

/-- Well-formedness in terms of `lookup`. -/
theorem WF_iff (c : serverConns) :
    c.WF ↔ (GoMap.keys c.conns).Nodup ∧ (GoMap.keys c.msgs).Nodup ∧
      (∀ k v, GoMap.lookup c.msgs k = some v → v.key = k) ∧
      (∀ p p1 chs chs1, GoMap.lookup c.conns p = some chs → GoMap.lookup c.conns p1 = some chs1 →
        chs.Sender = chs1.Sender → p = p1) ∧
      (∀ p chs, GoMap.lookup c.conns p = some chs →
        chs.Receiver = chs.Sender ∧ chanLive c.heap chs.Sender = true) := by
  unfold serverConns.WF
  constructor
  · rintro ⟨h1, h2, h3, h4, h5⟩
    refine ⟨h1, h2, fun k v hv => h3 (k, v) (GoMap.mem_of_lookup hv), ?_, ?_⟩
    · intro p p1 chs chs1 hp hp1 hs
      have hinj := List.inj_on_of_nodup_map (f := fun kv : wire.PeerID × chans => kv.2.Sender)
        (by simpa [GoMap.values, List.map_map] using h4)
      have := hinj (GoMap.mem_of_lookup hp) (GoMap.mem_of_lookup hp1) hs
      exact congrArg Prod.fst this
    · intro p chs hp
      exact h5 chs (mem_senders_of_lookup hp).1
  · rintro ⟨h1, h2, h3, h4, h5⟩
    refine ⟨h1, h2, fun kv hkv => h3 kv.1 kv.2 (GoMap.lookup_of_mem h2 hkv), ?_, ?_⟩
    · have hnd : c.conns.Nodup := List.Nodup.of_map _ h1
      have : (c.conns.map fun kv : wire.PeerID × chans => kv.2.Sender).Nodup := by
        refine List.Nodup.map_on ?_ hnd
        intro x hx y hy hxy
        have hx1 := GoMap.lookup_of_mem h1 (show (x.1, x.2) ∈ c.conns from hx)
        have hy1 := GoMap.lookup_of_mem h1 (show (y.1, y.2) ∈ c.conns from hy)
        have hp := h4 _ _ _ _ hx1 hy1 hxy
        rw [hp, hy1] at hx1
        exact Prod.ext hp (Option.some.inj hx1).symm
      simpa [GoMap.values, List.map_map] using this
    · intro chs hm
      obtain ⟨kv, hkv, rfl⟩ := List.mem_map.mp hm
      exact h5 kv.1 kv.2 (GoMap.lookup_of_mem h1 hkv)

/-! ## Steps keep the state well-formed -/

theorem chanLive_congr {α : Type} {heap heap1 : List (Chan α)} {i : Nat}
    (h : heap1[i]? = heap[i]?) : chanLive heap1 i = chanLive heap i := by
  unfold chanLive
  rw [h]

theorem sender_lt_of_WF {c : serverConns} (hwf : c.WF) {p : wire.PeerID} {chs : chans}
    (h : GoMap.lookup c.conns p = some chs) : chs.Sender < c.heap.length :=
  chanLive_lt (((WF_iff c).mp hwf).2.2.2.2 p chs h).2

/-- What the step `add` does, when it completes. -/
theorem step_add_spec {c c1 : serverConns} {peerID : wire.PeerID} (hwf : c.WF)
    (h : step c (.add peerID) = .ok c1) :
    c1.conns = GoMap.store c.conns peerID
      { Sender := c.heap.length, Receiver := c.heap.length } ∧
    c1.msgs = c.msgs ∧ c1.heap.length = c.heap.length + 1 ∧
    c1.heap[c.heap.length]? =
      some { cap := 10, sent := GoMap.values c.msgs, closed := false, draining := true } ∧
    (∀ i, i < c.heap.length →
      (∀ old, GoMap.lookup c.conns peerID = some old → old.Sender ≠ i) →
      c1.heap[i]? = c.heap[i]?) ∧
    (∀ old, GoMap.lookup c.conns peerID = some old → ∃ q, c.heap[old.Sender]? = some q ∧
      c1.heap[old.Sender]? = some { q with closed := true }) := by
  simp only [step] at h
  obtain ⟨r, h1, h2⟩ := Outcome.bind_eq_ok h
  simp only [Outcome.ok.injEq] at h2
  subst h2
  obtain ⟨hr, hconns, hmsgs, hlen, hnew, hother, hold⟩ :=
    Add_spec (fun old ho => sender_lt_of_WF hwf ho) h1
  refine ⟨hconns, hmsgs, ?_, ?_, ?_, ?_⟩
  · show (chanDrain r.1.heap r.2).length = _
    unfold chanDrain
    cases r.1.heap[r.2]? <;> simp [hlen]
  · show (chanDrain r.1.heap r.2)[c.heap.length]? = _
    rw [chanDrain_getElem?, hr, if_pos rfl, hnew]
    rfl
  · intro i hi hne
    show (chanDrain r.1.heap r.2)[i]? = _
    rw [chanDrain_getElem?, hr, if_neg (Nat.ne_of_lt hi), hother i hi hne]
  · intro old ho
    obtain ⟨q, hq, _, hq1⟩ := hold old ho
    refine ⟨q, hq, ?_⟩
    show (chanDrain r.1.heap r.2)[old.Sender]? = _
    rw [chanDrain_getElem?, hr, if_neg (Nat.ne_of_lt (sender_lt_of_WF hwf ho)), hq1]

/-- What the step `remove` does: nothing, or it unbinds the peer and closes its queue. -/
theorem step_remove_spec {c c1 : serverConns} {peerID : wire.PeerID} {ch : Nat}
    (h : step c (.remove peerID ch) = .ok c1) :
    c1 = c ∨ ∃ chs q, GoMap.lookup c.conns peerID = some chs ∧ chs.Receiver = ch ∧
      c.heap[chs.Sender]? = some q ∧ q.closed = false ∧
      c1 = { conns := GoMap.delete c.conns peerID, msgs := c.msgs,
             heap := c.heap.set chs.Sender { q with closed := true } } := by
  simp only [step] at h
  rcases Remove_eq_ok h with h | ⟨chs, heap1, hl, hr, hc, rfl⟩
  · exact Or.inl h
  · obtain ⟨q, hq, hopen, rfl⟩ := chanClose_eq_ok hc
    exact Or.inr ⟨chs, q, hl, hr, hq, hopen, rfl⟩

/-- What an accepted `Broadcast` does in a well-formed state. -/
theorem Broadcast_accept_spec {c c1 : serverConns} {e : revision} (hwf : c.WF)
    (hd : c.drops e = false) (h : c.Broadcast e = .ok c1) :
    c1.conns = c.conns ∧ c1.msgs = GoMap.store c.msgs e.key e ∧
    c1.heap.length = c.heap.length ∧
    (∀ ch ∈ (GoMap.values c.conns).map chans.Sender,
      c1.heap[ch]? = (c.heap[ch]?).map fun q => q.push e) ∧
    (∀ i, i ∉ (GoMap.values c.conns).map chans.Sender → c1.heap[i]? = c.heap[i]?) := by
  obtain ⟨_, _, _, hinj, hlive⟩ := hwf
  have hl : ∀ ch ∈ (GoMap.values c.conns).map chans.Sender, chanLive c.heap ch = true := by
    intro ch hm
    obtain ⟨chs, hchs, rfl⟩ := List.mem_map.mp hm
    exact (hlive chs hchs).2
  obtain ⟨heap1, hs, hlen, hin, hout⟩ := chanSendEach_live e _ c.heap hinj hl
  rw [Broadcast_of_not_drops hd, hs] at h
  simp only [Outcome.bind, Outcome.ok.injEq] at h
  subst h
  exact ⟨rfl, rfl, hlen, hin, hout⟩

theorem chanLive_of_Broadcast {c c1 : serverConns} {e : revision} (hwf : c.WF)
    (hd : c.drops e = false) (h : c.Broadcast e = .ok c1) (i : Nat) :
    chanLive c1.heap i = chanLive c.heap i := by
  obtain ⟨_, _, _, hin, hout⟩ := Broadcast_accept_spec hwf hd h
  by_cases hi : i ∈ (GoMap.values c.conns).map chans.Sender
  · unfold chanLive
    rw [hin i hi]
    cases c.heap[i]? <;> rfl
  · exact chanLive_congr (hout i hi)

theorem WF_step {c c1 : serverConns} {op : Op} (hwf : c.WF) (h : step c op = .ok c1) :
    c1.WF := by
  have hwf0 := hwf
  rw [WF_iff] at hwf ⊢
  obtain ⟨hk, hm, hf, hinj, hlive⟩ := hwf
  cases op with
  | add peerID =>
    obtain ⟨hconns, hmsgs, hlen, hnew, hother, hold⟩ := step_add_spec hwf0 h
    rw [hconns, hmsgs]
    have hcase : ∀ p chs, GoMap.lookup (GoMap.store c.conns peerID
        { Sender := c.heap.length, Receiver := c.heap.length }) p = some chs →
        (p = peerID ∧ chs = { Sender := c.heap.length, Receiver := c.heap.length }) ∨
        (p ≠ peerID ∧ GoMap.lookup c.conns p = some chs) := by
      intro p chs hp
      by_cases hpp : p = peerID
      · subst hpp
        rw [GoMap.lookup_store_self] at hp
        exact Or.inl ⟨rfl, (Option.some.inj hp).symm⟩
      · rw [GoMap.lookup_store_ne _ _ _ _ hpp] at hp
        exact Or.inr ⟨hpp, hp⟩
    refine ⟨GoMap.nodup_keys_store hk _ _, hm, hf, ?_, ?_⟩
    · intro p p1 chs chs1 hp hp1 hs
      rcases hcase p chs hp with ⟨e1, e2⟩ | ⟨hne, hq⟩
      · rcases hcase p1 chs1 hp1 with ⟨e3, _⟩ | ⟨_, hq1⟩
        · rw [e1, e3]
        · have := chanLive_lt (hlive p1 chs1 hq1).2
          rw [e2] at hs
          simp only at hs
          omega
      · rcases hcase p1 chs1 hp1 with ⟨_, e4⟩ | ⟨_, hq1⟩
        · have := chanLive_lt (hlive p chs hq).2
          rw [e4] at hs
          simp only at hs
          omega
        · exact hinj p p1 chs chs1 hq hq1 hs
    · intro p chs hp
      rcases hcase p chs hp with ⟨_, e2⟩ | ⟨hne, hq⟩
      · rw [e2]
        refine ⟨rfl, ?_⟩
        simp [chanLive, hnew]
      · refine ⟨(hlive p chs hq).1, ?_⟩
        rw [chanLive_congr (hother _ (chanLive_lt (hlive p chs hq).2) ?_)]
        · exact (hlive p chs hq).2
        · intro old ho hs
          exact hne (hinj _ _ _ _ hq ho hs.symm)
  | remove peerID ch =>
    rcases step_remove_spec h with rfl | ⟨chs, q, hl, hr, hq, hopen, rfl⟩
    · exact ⟨hk, hm, hf, hinj, hlive⟩
    · have hcase : ∀ p chs1, GoMap.lookup (GoMap.delete c.conns peerID) p = some chs1 →
          p ≠ peerID ∧ GoMap.lookup c.conns p = some chs1 := by
        intro p chs1 hp
        by_cases hpp : p = peerID
        · subst hpp
          rw [GoMap.lookup_delete_self] at hp
          cases hp
        · rw [GoMap.lookup_delete_ne _ _ _ hpp] at hp
          exact ⟨hpp, hp⟩
      refine ⟨GoMap.nodup_keys_delete hk _, hm, hf, ?_, ?_⟩
      · intro p p1 chs0 chs1 hp hp1 hs
        exact hinj p p1 chs0 chs1 (hcase _ _ hp).2 (hcase _ _ hp1).2 hs
      · intro p chs1 hp
        obtain ⟨hne, hq1⟩ := hcase _ _ hp
        refine ⟨(hlive p chs1 hq1).1, ?_⟩
        have hs : chs.Sender ≠ chs1.Sender := fun hs => hne (hinj _ _ _ _ hq1 hl hs.symm)
        have : chanLive (c.heap.set chs.Sender { q with closed := true }) chs1.Sender
            = chanLive c.heap chs1.Sender := chanLive_congr (List.getElem?_set_ne hs)
        show chanLive (c.heap.set chs.Sender { q with closed := true }) chs1.Sender = true
        rw [this]
        exact (hlive p chs1 hq1).2
  | broadcast e =>
    simp only [step] at h
    rcases Broadcast_eq_ok h with ⟨_, rfl⟩ | ⟨hd, _, _, _⟩
    · exact ⟨hk, hm, hf, hinj, hlive⟩
    · obtain ⟨hconns, hmsgs, _, _, _⟩ := Broadcast_accept_spec hwf0 hd h
      rw [hconns, hmsgs]
      refine ⟨hk, GoMap.nodup_keys_store hm _ _, ?_, hinj, ?_⟩
      · intro k v hv
        by_cases hkk : k = e.key
        · subst hkk
          rw [GoMap.lookup_store_self] at hv
          cases hv
          rfl
        · rw [GoMap.lookup_store_ne _ _ _ _ hkk] at hv
          exact hf k v hv
      · intro p chs hp
        rw [chanLive_of_Broadcast hwf0 hd h]
        exact hlive p chs hp
  | reorder conns msgs =>
    simp only [step] at h
    by_cases hp : conns.Perm c.conns ∧ msgs.Perm c.msgs
    · simp only [hp, and_self, if_true, Outcome.ok.injEq] at h
      subst h
      have hk1 : (GoMap.keys conns).Nodup := (List.Perm.nodup_iff (hp.1.map Prod.fst)).mpr hk
      have hm1 : (GoMap.keys msgs).Nodup := (List.Perm.nodup_iff (hp.2.map Prod.fst)).mpr hm
      refine ⟨hk1, hm1, ?_, ?_, ?_⟩
      · intro k v hv
        rw [GoMap.lookup_perm hp.2 hm1] at hv
        exact hf k v hv
      · intro p p1 chs chs1 h1 h2 hs
        rw [GoMap.lookup_perm hp.1 hk1] at h1 h2
        exact hinj p p1 chs chs1 h1 h2 hs
      · intro p chs h1
        rw [GoMap.lookup_perm hp.1 hk1] at h1
        exact hlive p chs h1
    · simp only [hp, if_false, Outcome.ok.injEq] at h
      subst h
      exact ⟨hk, hm, hf, hinj, hlive⟩

theorem WF_run (ops : List Op) :
    ∀ {c c1 : serverConns}, c.WF → run c ops = .ok c1 → c1.WF := by
  induction ops with
  | nil =>
    intro c c1 hwf h
    simp only [run, Outcome.ok.injEq] at h
    exact h ▸ hwf
  | cons op ops ih =>
    intro c c1 hwf h
    obtain ⟨c0, h0, h1⟩ := Outcome.bind_eq_ok h
    exact ih (WF_step hwf h0) h1

theorem WF_new : newServerConns.WF := by decide

theorem store_holds_greatest_index_witness :
    run newServerConns sampleOps = .ok sampleConns ∧
    run sampleConns [.broadcast (sampleEntry "ns" 1 7 5 [2])] = .ok sampleConns1 ∧
    ((∃ v, GoMap.lookup sampleConns.msgs (sampleEntry "ns" 1 7 3 [1]).key = some v) ↔
      ∃ e ∈ broadcasts sampleOps, e.key = (sampleEntry "ns" 1 7 3 [1]).key) ∧
    (∀ v, GoMap.lookup sampleConns.msgs (sampleEntry "ns" 1 7 3 [1]).key = some v →
      v ∈ broadcasts sampleOps ∧ v.key = (sampleEntry "ns" 1 7 3 [1]).key ∧
      ∀ e ∈ broadcasts sampleOps, e.key = (sampleEntry "ns" 1 7 3 [1]).key →
        e.Header.Revision.Index ≤ v.Header.Revision.Index) ∧
    (∀ v, GoMap.lookup sampleConns.msgs (sampleEntry "ns" 1 7 3 [1]).key = some v →
      ∃ v1, GoMap.lookup sampleConns1.msgs (sampleEntry "ns" 1 7 3 [1]).key = some v1 ∧
        v.Header.Revision.Index ≤ v1.Header.Revision.Index) :=
  ⟨by decide, by decide,
    store_holds_greatest_index sampleOps [.broadcast (sampleEntry "ns" 1 7 5 [2])]
      sampleConns sampleConns1 (sampleEntry "ns" 1 7 3 [1]).key (by decide) (by decide)⟩

/-! ## Add on a store of more than ten entries -/

/-- C4: eleven broadcasts with distinct keys lead from the empty state to a
well-formed store of eleven entries; on that store `Add` does not return: the
eleventh send on the new queue, which has room for ten frames and no receiver
before `Add` returns, waits forever. -/
theorem Add_blocks_on_eleven_entries :
    run newServerConns elevenBroadcasts = .ok elevenEntries ∧ elevenEntries.WF ∧
    (GoMap.values elevenEntries.msgs).length = 11 ∧
    elevenEntries.Add (samplePeer 9) = .fault .blocked := by
  decide

/-! ## Open channels are registered -/

theorem chanSendAll_of_room {α : Type} {ch : Nat} (vs : List α) :
    ∀ {heap : List (Chan α)} {q : Chan α}, heap[ch]? = some q → q.closed = false →
      q.sent.length + vs.length ≤ q.cap → ∃ heap1, chanSendAll heap ch vs = .ok heap1 := by
  induction vs with
  | nil => intro heap q _ _ _; exact ⟨heap, rfl⟩
  | cons v vs ih =>
    intro heap q hq hopen hroom
    simp only [List.length_cons] at hroom
    have hs := chanSend_of_room v hq hopen (Or.inr (by omega))
    have hq1 : (heap.set ch (q.push v))[ch]? = some (q.push v) :=
      List.getElem?_set_self (lt_of_getElem?_eq_some hq)
    obtain ⟨heap1, h1⟩ := ih hq1 hopen (by simp [Chan.push]; omega)
    exact ⟨heap1, by simp [chanSendAll, hs, Outcome.bind, h1]⟩

/-- `Add` returns when the store has at most ten entries. -/
theorem Add_returns_of_room {c : serverConns} (hwf : c.WF) (peerID : wire.PeerID)
    (hroom : (GoMap.values c.msgs).length ≤ 10) : ∃ r, c.Add peerID = .ok r := by
  have hnew : (c.heap ++ [Chan.make 10])[c.heap.length]? = some (Chan.make 10 : Chan revision) :=
    List.getElem?_concat_length _ _
  unfold serverConns.Add
  cases hl : GoMap.lookup c.conns peerID with
  | none =>
    obtain ⟨heap2, h2⟩ := chanSendAll_of_room (GoMap.values c.msgs) hnew rfl
      (by simpa [Chan.make] using hroom)
    exact ⟨_, by simp only [Outcome.bind, h2]; rfl⟩
  | some old =>
    have hlive := (((WF_iff c).mp hwf).2.2.2.2 peerID old hl).2
    obtain ⟨q, hq, hopen, _⟩ := chanLive_iff.mp hlive
    have hlt := chanLive_lt hlive
    have hq0 : (c.heap ++ [Chan.make 10])[old.Sender]? = some q := by
      rw [List.getElem?_append_left hlt, hq]
    have hnew1 : ((c.heap ++ [Chan.make 10]).set old.Sender { q with closed := true })[c.heap.length]?
        = some (Chan.make 10 : Chan revision) := by
      rw [List.getElem?_set_ne (Nat.ne_of_lt hlt), hnew]
    obtain ⟨heap2, h2⟩ := chanSendAll_of_room (GoMap.values c.msgs) hnew1 rfl
      (by simpa [Chan.make] using hroom)
    exact ⟨_, by simp only [chanClose_of_open hq0 hopen, Outcome.bind, h2]; rfl⟩

theorem NoStray_step {c c1 : serverConns} {op : Op} (hwf : c.WF) (hns : c.NoStray)
    (h : step c op = .ok c1) : c1.NoStray := by
  have hwf0 := hwf
  rw [WF_iff] at hwf
  obtain ⟨hk, hm, hf, hinj, hlive⟩ := hwf
  cases op with
  | add peerID =>
    obtain ⟨hconns, hmsgs, hlen, hnew, hother, hold⟩ := step_add_spec hwf0 h
    intro i q hq hopen
    rw [hconns]
    have hi : i < c.heap.length + 1 := hlen ▸ lt_of_getElem?_eq_some hq
    by_cases hin : i = c.heap.length
    · subst hin
      exact ⟨peerID, GoMap.lookup_store_self _ _ _⟩
    · have hlt : i < c.heap.length := by omega
      by_cases hio : ∃ old, GoMap.lookup c.conns peerID = some old ∧ old.Sender = i
      · obtain ⟨old, ho, rfl⟩ := hio
        obtain ⟨q0, _, hq1⟩ := hold old ho
        rw [hq1] at hq
        cases hq
        cases hopen
      · have hne : ∀ old, GoMap.lookup c.conns peerID = some old → old.Sender ≠ i :=
          fun old ho hs => hio ⟨old, ho, hs⟩
        rw [hother i hlt hne] at hq
        obtain ⟨p, hp⟩ := hns i q hq hopen
        have hpp : p ≠ peerID := fun e => hne _ (e ▸ hp) rfl
        exact ⟨p, by rw [GoMap.lookup_store_ne _ _ _ _ hpp, hp]⟩
  | remove peerID ch =>
    rcases step_remove_spec h with rfl | ⟨chs, q0, hl, hr, hq0, hopen0, rfl⟩
    · exact hns
    · intro i q hq hopen
      simp only at hq
      by_cases hi : chs.Sender = i
      · subst hi
        rw [List.getElem?_set_self (lt_of_getElem?_eq_some hq0)] at hq
        cases hq
        cases hopen
      · rw [List.getElem?_set_ne hi] at hq
        obtain ⟨p, hp⟩ := hns i q hq hopen
        have hpp : p ≠ peerID := by
          intro e
          rw [e, hl] at hp
          cases hp
          exact hi rfl
        exact ⟨p, by simp only [GoMap.lookup_delete_ne _ _ _ hpp, hp]⟩
  | broadcast e =>
    simp only [step] at h
    rcases Broadcast_eq_ok h with ⟨_, rfl⟩ | ⟨hd, _, _, _⟩
    · exact hns
    · obtain ⟨hconns, _, _, hin, hout⟩ := Broadcast_accept_spec hwf0 hd h
      intro i q hq hopen
      rw [hconns]
      by_cases hi : i ∈ (GoMap.values c.conns).map chans.Sender
      · rw [hin i hi] at hq
        cases hq0 : c.heap[i]? with
        | none => rw [hq0] at hq; cases hq
        | some q0 =>
          rw [hq0] at hq
          simp only [Option.map_some', Option.some.injEq] at hq
          subst hq
          exact hns i q0 hq0 hopen
      · rw [hout i hi] at hq
        exact hns i q hq hopen
  | reorder conns msgs =>
    simp only [step] at h
    by_cases hp : conns.Perm c.conns ∧ msgs.Perm c.msgs
    · simp only [hp, and_self, if_true, Outcome.ok.injEq] at h
      subst h
      have hk1 : (GoMap.keys conns).Nodup := (List.Perm.nodup_iff (hp.1.map Prod.fst)).mpr hk
      intro i q hq hopen
      obtain ⟨p, hp1⟩ := hns i q hq hopen
      exact ⟨p, by simp only [GoMap.lookup_perm hp.1 hk1, hp1]⟩
    · simp only [hp, if_false, Outcome.ok.injEq] at h
      subst h
      exact hns

theorem NoStray_run (ops : List Op) :
    ∀ {c c1 : serverConns}, c.WF → c.NoStray → run c ops = .ok c1 → c1.NoStray := by
  induction ops with
  | nil =>
    intro c c1 _ hns h
    simp only [run, Outcome.ok.injEq] at h
    exact h ▸ hns
  | cons op ops ih =>
    intro c c1 hwf hns h
    obtain ⟨c0, h0, h1⟩ := Outcome.bind_eq_ok h
    exact ih (WF_step hwf h0) (NoStray_step hwf hns h0) h1

theorem NoStray_new : newServerConns.NoStray := by
  intro i q hq
  simp [newServerConns] at hq

/-! ## The registry -/

/-- C6: in a well-formed state `Add` returns whenever the store has at most ten
entries, and whenever it returns `(c1, ch)`: `ch` is a new channel, open, and
the registry of `c1` binds `peerID` to it and has `peerID` as a key once; the
queue `peerID` was bound to before is another channel and is now closed; every
other peer is bound as before, to a channel that is unchanged and open.  In
every state reached from the empty one: the keys of the registry are pairwise
distinct, two peers never share a queue, every registered queue is open, and
every open channel is a registered queue; so each peer has at most one open
queue. -/
theorem Add_rebinds_peer (c : serverConns) (peerID : wire.PeerID) (r : serverConns × Nat)
    (ops : List Op) (cr : serverConns) (hwf : c.WF) (h : c.Add peerID = .ok r)
    (hr : run newServerConns ops = .ok cr) :
    ((GoMap.values c.msgs).length ≤ 10 → ∃ r0, c.Add peerID = .ok r0) ∧
    (GoMap.lookup r.1.conns peerID = some { Sender := r.2, Receiver := r.2 } ∧
      (GoMap.keys r.1.conns).count peerID = 1 ∧ c.heap[r.2]? = none ∧
      ∃ q, r.1.heap[r.2]? = some q ∧ q.closed = false) ∧
    (∀ old, GoMap.lookup c.conns peerID = some old →
      old.Sender ≠ r.2 ∧ ∃ q, r.1.heap[old.Sender]? = some q ∧ q.closed = true) ∧
    (∀ p, p ≠ peerID → GoMap.lookup r.1.conns p = GoMap.lookup c.conns p ∧
      ∀ chs, GoMap.lookup c.conns p = some chs →
        r.1.heap[chs.Sender]? = c.heap[chs.Sender]? ∧
        ∃ q, r.1.heap[chs.Sender]? = some q ∧ q.closed = false) ∧
    ((GoMap.keys cr.conns).Nodup ∧
      (∀ p p1 chs chs1, GoMap.lookup cr.conns p = some chs →
        GoMap.lookup cr.conns p1 = some chs1 → chs.Sender = chs1.Sender → p = p1) ∧
      (∀ p chs, GoMap.lookup cr.conns p = some chs →
        ∃ q, cr.heap[chs.Sender]? = some q ∧ q.closed = false) ∧
      (∀ i q, cr.heap[i]? = some q → q.closed = false →
        ∃ p, GoMap.lookup cr.conns p = some { Sender := i, Receiver := i })) := by
  have hwfl := (WF_iff c).mp hwf
  obtain ⟨hk, _, _, hinj, hlive⟩ := hwfl
  obtain ⟨hr2, hconns, _, _, hnew, hother, hold⟩ :=
    Add_spec (fun old ho => sender_lt_of_WF hwf ho) h
  have hcr := (WF_iff cr).mp (WF_run ops WF_new hr)
  refine ⟨Add_returns_of_room hwf peerID, ⟨?_, ?_, ?_, ?_⟩, ?_, ?_, hcr.1, hcr.2.2.2.1, ?_,
    NoStray_run ops WF_new NoStray_new hr⟩
  · rw [hconns, hr2]
    exact GoMap.lookup_store_self _ _ _
  · rw [hconns]
    apply List.count_eq_one_of_mem (GoMap.nodup_keys_store hk _ _)
    by_contra hn
    have := (GoMap.lookup_eq_none_iff _ _).mpr hn
    rw [GoMap.lookup_store_self] at this
    cases this
  · rw [hr2]
    exact List.getElem?_eq_none (Nat.le_refl _)
  · rw [hr2]
    exact ⟨_, hnew, rfl⟩
  · intro old ho
    obtain ⟨q, _, _, hq1⟩ := hold old ho
    exact ⟨hr2 ▸ Nat.ne_of_lt (sender_lt_of_WF hwf ho), _, hq1, rfl⟩
  · intro p hp
    refine ⟨by rw [hconns, GoMap.lookup_store_ne _ _ _ _ hp], fun chs hc => ?_⟩
    have hlt := sender_lt_of_WF hwf hc
    have heq := hother chs.Sender hlt (fun old ho hs => hp (hinj _ _ _ _ hc ho hs.symm))
    obtain ⟨q, hq, hopen, _⟩ := chanLive_iff.mp (hlive p chs hc).2
    exact ⟨heq, q, by rw [heq, hq], hopen⟩
  · intro p chs hc
    obtain ⟨q, hq, hopen, _⟩ := chanLive_iff.mp (hcr.2.2.2.2 p chs hc).2
    exact ⟨q, hq, hopen⟩

theorem Add_rebinds_peer_witness :
    sampleConns.WF ∧ sampleConns.Add (samplePeer 9) = .ok sampleRebound ∧
    run newServerConns sampleOps = .ok sampleConns ∧
    ((GoMap.values sampleConns.msgs).length ≤ 10 → ∃ r0, sampleConns.Add (samplePeer 9) = .ok r0) ∧
    (GoMap.lookup sampleRebound.1.conns (samplePeer 9)
        = some { Sender := sampleRebound.2, Receiver := sampleRebound.2 } ∧
      (GoMap.keys sampleRebound.1.conns).count (samplePeer 9) = 1 ∧
      sampleConns.heap[sampleRebound.2]? = none ∧
      ∃ q, sampleRebound.1.heap[sampleRebound.2]? = some q ∧ q.closed = false) ∧
    (∀ old, GoMap.lookup sampleConns.conns (samplePeer 9) = some old →
      old.Sender ≠ sampleRebound.2 ∧
      ∃ q, sampleRebound.1.heap[old.Sender]? = some q ∧ q.closed = true) ∧
    (∀ p, p ≠ samplePeer 9 →
      GoMap.lookup sampleRebound.1.conns p = GoMap.lookup sampleConns.conns p ∧
      ∀ chs, GoMap.lookup sampleConns.conns p = some chs →
        sampleRebound.1.heap[chs.Sender]? = sampleConns.heap[chs.Sender]? ∧
        ∃ q, sampleRebound.1.heap[chs.Sender]? = some q ∧ q.closed = false) ∧
    ((GoMap.keys sampleConns.conns).Nodup ∧
      (∀ p p1 chs chs1, GoMap.lookup sampleConns.conns p = some chs →
        GoMap.lookup sampleConns.conns p1 = some chs1 → chs.Sender = chs1.Sender → p = p1) ∧
      (∀ p chs, GoMap.lookup sampleConns.conns p = some chs →
        ∃ q, sampleConns.heap[chs.Sender]? = some q ∧ q.closed = false) ∧
      (∀ i q, sampleConns.heap[i]? = some q → q.closed = false →
        ∃ p, GoMap.lookup sampleConns.conns p = some { Sender := i, Receiver := i })) :=
  ⟨by decide, by decide, by decide,
    Add_rebinds_peer sampleConns (samplePeer 9) sampleRebound sampleOps sampleConns
      (by decide) (by decide) (by decide)⟩

/-- C7: in a well-formed state, if the registry binds `peerID` to the queue
`ch`, `Remove(peerID, ch)` returns a state where `peerID` is unbound, `ch` is
closed, and every other binding, every other channel and the store are as
before; if `peerID` is unbound or bound to another queue, `Remove` returns the
state unchanged.  So after an `Add(peerID)` that returned a new queue, a
`Remove` of `peerID` with any older queue changes nothing. -/
theorem Remove_only_own_queue (c : serverConns) (peerID : wire.PeerID) (ch : Nat)
    (hwf : c.WF) :
    (GoMap.lookup c.conns peerID = some { Sender := ch, Receiver := ch } →
      ∃ c1 q, c.Remove peerID ch = .ok c1 ∧ GoMap.lookup c1.conns peerID = none ∧
        c.heap[ch]? = some q ∧ c1.heap[ch]? = some { q with closed := true } ∧
        (∀ p, p ≠ peerID → GoMap.lookup c1.conns p = GoMap.lookup c.conns p) ∧
        (∀ i, i ≠ ch → c1.heap[i]? = c.heap[i]?) ∧ c1.msgs = c.msgs) ∧
    (GoMap.lookup c.conns peerID ≠ some { Sender := ch, Receiver := ch } →
      c.Remove peerID ch = .ok c) ∧
    (∀ r, c.Add peerID = .ok r → ∀ old, old ≠ r.2 → r.1.Remove peerID old = .ok r.1) := by
  have hlive := ((WF_iff c).mp hwf).2.2.2.2
  refine ⟨fun hl => ?_, fun hl => ?_, fun r hr old hne => ?_⟩
  · obtain ⟨q, hq, hopen, _⟩ := chanLive_iff.mp (hlive _ _ hl).2
    simp only at hq
    refine ⟨{ conns := GoMap.delete c.conns peerID, msgs := c.msgs,
              heap := c.heap.set ch { q with closed := true } }, q, ?_,
      GoMap.lookup_delete_self _ _, hq, List.getElem?_set_self (lt_of_getElem?_eq_some hq),
      fun p hp => GoMap.lookup_delete_ne _ _ _ hp, fun i hi => List.getElem?_set_ne (Ne.symm hi),
      rfl⟩
    simp [serverConns.Remove, hl, chanClose_of_open hq hopen, Outcome.bind]
  · unfold serverConns.Remove
    cases hc : GoMap.lookup c.conns peerID with
    | none => rfl
    | some chs =>
      have hrs := (hlive _ _ hc).1
      have : chs.Receiver ≠ ch := by
        intro e
        apply hl
        rw [hc]
        cases chs
        simp only at hrs e
        subst hrs
        subst e
        rfl
      simp [this]
  · obtain ⟨hr2, hconns, _⟩ := Add_spec (fun o ho => sender_lt_of_WF hwf ho) hr
    have : GoMap.lookup r.1.conns peerID = some { Sender := r.2, Receiver := r.2 } := by
      rw [hconns, hr2]
      exact GoMap.lookup_store_self _ _ _
    simp [serverConns.Remove, this, Ne.symm hne]

theorem Remove_only_own_queue_witness :
    sampleConns.WF ∧
    (GoMap.lookup sampleConns.conns (samplePeer 9) = some { Sender := 0, Receiver := 0 } →
      ∃ c1 q, sampleConns.Remove (samplePeer 9) 0 = .ok c1 ∧
        GoMap.lookup c1.conns (samplePeer 9) = none ∧
        sampleConns.heap[0]? = some q ∧ c1.heap[0]? = some { q with closed := true } ∧
        (∀ p, p ≠ samplePeer 9 → GoMap.lookup c1.conns p = GoMap.lookup sampleConns.conns p) ∧
        (∀ i, i ≠ 0 → c1.heap[i]? = sampleConns.heap[i]?) ∧ c1.msgs = sampleConns.msgs) ∧
    (GoMap.lookup sampleConns.conns (samplePeer 9) ≠ some { Sender := 0, Receiver := 0 } →
      sampleConns.Remove (samplePeer 9) 0 = .ok sampleConns) ∧
    (∀ r, sampleConns.Add (samplePeer 9) = .ok r → ∀ old, old ≠ r.2 →
      r.1.Remove (samplePeer 9) old = .ok r.1) :=
  ⟨by decide, Remove_only_own_queue sampleConns (samplePeer 9) 0 (by decide)⟩

/-! ## Backlog, then stream -/

theorem accepted_single {c c1 : serverConns} {op : Op} (h : step c op = .ok c1) :
    accepted c [op] = match op with
      | .broadcast e => if c.drops e then [] else [e]
      | _ => [] := by
  cases op with
  | broadcast e => simp only [accepted, h]
  | add p => simp only [accepted, h]
  | remove p ch => simp only [accepted, h]
  | reorder conns msgs => simp only [accepted, h]

theorem accepted_cons {c c1 : serverConns} {op : Op} (h : step c op = .ok c1) (ops : List Op) :
    accepted c (op :: ops) = accepted c [op] ++ accepted c1 ops := by
  cases op with
  | broadcast e =>
    simp only [accepted, h]
    split <;> simp
  | add p => simp only [accepted, h, List.nil_append]
  | remove p ch => simp only [accepted, h, List.nil_append]
  | reorder conns msgs => simp only [accepted, h, List.nil_append]

theorem heap_length_step {c c1 : serverConns} {op : Op} (hwf : c.WF)
    (h : step c op = .ok c1) : c.heap.length ≤ c1.heap.length := by
  cases op with
  | add peerID =>
    obtain ⟨_, _, hlen, _⟩ := step_add_spec hwf h
    omega
  | remove peerID ch =>
    rcases step_remove_spec h with rfl | ⟨chs, q, _, _, _, _, rfl⟩
    · exact Nat.le_refl _
    · simp
  | broadcast e =>
    simp only [step] at h
    rcases Broadcast_eq_ok h with ⟨_, rfl⟩ | ⟨hd, _, _, _⟩
    · exact Nat.le_refl _
    · obtain ⟨_, _, hlen, _⟩ := Broadcast_accept_spec hwf hd h
      omega
  | reorder conns msgs =>
    simp only [step] at h
    by_cases hp : conns.Perm c.conns ∧ msgs.Perm c.msgs
    · simp only [hp, and_self, if_true, Outcome.ok.injEq] at h
      subst h
      exact Nat.le_refl _
    · simp only [hp, if_false, Outcome.ok.injEq] at h
      subst h
      exact Nat.le_refl _

/-- One step, seen from a queue that is registered after it: the queue was
registered before, and it received the entry the step accepted, if any. -/
theorem queue_step {c c1 : serverConns} {op : Op} {p : wire.PeerID} {q : Nat} (hwf : c.WF)
    (hq : q < c.heap.length) (h : step c op = .ok c1)
    (hreg : GoMap.lookup c1.conns p = some { Sender := q, Receiver := q }) :
    GoMap.lookup c.conns p = some { Sender := q, Receiver := q } ∧
    ∃ ch0 ch1, c.heap[q]? = some ch0 ∧ c1.heap[q]? = some ch1 ∧
      ch1.sent = ch0.sent ++ accepted c [op] := by
  have hwfl := (WF_iff c).mp hwf
  obtain ⟨hk, _, _, hinj, hlive⟩ := hwfl
  obtain ⟨ch0, hch0⟩ : ∃ ch0, c.heap[q]? = some ch0 := ⟨c.heap[q], List.getElem?_eq_getElem hq⟩
  rw [accepted_single h]
  cases op with
  | add peerID =>
    obtain ⟨hconns, _, _, _, hother, _⟩ := step_add_spec hwf h
    rw [hconns] at hreg
    have hpp : p ≠ peerID := by
      intro e
      rw [e, GoMap.lookup_store_self] at hreg
      injection hreg with hreg
      injection hreg with h1 _
      omega
    rw [GoMap.lookup_store_ne _ _ _ _ hpp] at hreg
    refine ⟨hreg, ch0, ch0, hch0, ?_, by simp⟩
    rw [hother q hq (fun old ho hs => hpp (hinj _ _ _ _ hreg ho hs.symm)), hch0]
  | remove peerID ch =>
    rcases step_remove_spec h with rfl | ⟨chs, q0, hl, _, _, _, rfl⟩
    · exact ⟨hreg, ch0, ch0, hch0, hch0, by simp⟩
    · simp only at hreg
      have hpp : p ≠ peerID := by
        intro e
        rw [e, GoMap.lookup_delete_self] at hreg
        cases hreg
      rw [GoMap.lookup_delete_ne _ _ _ hpp] at hreg
      refine ⟨hreg, ch0, ch0, hch0, ?_, by simp⟩
      have hs : chs.Sender ≠ q := fun hs => hpp (hinj _ _ _ _ hreg hl hs.symm)
      show (c.heap.set chs.Sender _)[q]? = _
      rw [List.getElem?_set_ne hs, hch0]
  | broadcast e =>
    simp only [step] at h
    rcases Broadcast_eq_ok h with ⟨hd, rfl⟩ | ⟨hd, _, _, _⟩
    · exact ⟨hreg, ch0, ch0, hch0, hch0, by simp [hd]⟩
    · obtain ⟨hconns, _, _, hin, _⟩ := Broadcast_accept_spec hwf hd h
      rw [hconns] at hreg
      refine ⟨hreg, ch0, ch0.push e, hch0, ?_, by simp [hd, Chan.push]⟩
      rw [hin q (mem_senders_of_lookup hreg).2, hch0]
      rfl
  | reorder conns msgs =>
    simp only [step] at h
    by_cases hp : conns.Perm c.conns ∧ msgs.Perm c.msgs
    · simp only [hp, and_self, if_true, Outcome.ok.injEq] at h
      subst h
      have hk1 : (GoMap.keys conns).Nodup := (List.Perm.nodup_iff (hp.1.map Prod.fst)).mpr hk
      simp only [GoMap.lookup_perm hp.1 hk1] at hreg
      exact ⟨hreg, ch0, ch0, hch0, hch0, by simp⟩
    · simp only [hp, if_false, Outcome.ok.injEq] at h
      subst h
      exact ⟨hreg, ch0, ch0, hch0, hch0, by simp⟩

/-- A run, seen from a queue that is registered after it: the queue was
registered all along and received exactly the accepted entries, in order. -/
theorem queue_run (ops : List Op) {p : wire.PeerID} {q : Nat} :
    ∀ {c c2 : serverConns}, c.WF → q < c.heap.length → run c ops = .ok c2 →
      GoMap.lookup c2.conns p = some { Sender := q, Receiver := q } →
      GoMap.lookup c.conns p = some { Sender := q, Receiver := q } ∧
      ∃ ch0 ch2, c.heap[q]? = some ch0 ∧ c2.heap[q]? = some ch2 ∧
        ch2.sent = ch0.sent ++ accepted c ops := by
  induction ops with
  | nil =>
    intro c c2 _ hq h hreg
    simp only [run, Outcome.ok.injEq] at h
    subst h
    exact ⟨hreg, _, _, List.getElem?_eq_getElem hq, List.getElem?_eq_getElem hq,
      by simp [accepted]⟩
  | cons op ops ih =>
    intro c c2 hwf hq h hreg
    obtain ⟨c1, h0, h1⟩ := Outcome.bind_eq_ok h
    have hq1 : q < c1.heap.length := Nat.lt_of_lt_of_le hq (heap_length_step hwf h0)
    obtain ⟨hreg1, ch1, ch2, hch1, hch2, hs2⟩ := ih (WF_step hwf h0) hq1 h1 hreg
    obtain ⟨hreg0, ch0, ch1', hch0, hch1', hs1⟩ := queue_step hwf hq h0 hreg1
    rw [hch1] at hch1'
    cases hch1'
    exact ⟨hreg0, ch0, ch2, hch0, hch2, by rw [hs2, hs1, List.append_assoc, ← accepted_cons h0]⟩

theorem lastFor_concat (k : revDescriptor) (frames : List revision) (e : revision) :
    lastFor k (frames ++ [e]) = if e.key = k then some e else lastFor k frames := by
  unfold lastFor
  by_cases h : e.key = k
  · simp [List.filter_append, h, List.getLast?_append]
  · simp [List.filter_append, h]

theorem lastFor_values {msgs : GoMap revDescriptor revision} (hnd : (GoMap.keys msgs).Nodup)
    (hf : ∀ kv ∈ msgs, kv.2.key = kv.1) (k : revDescriptor) :
    lastFor k (GoMap.values msgs) = GoMap.lookup msgs k := by
  induction msgs with
  | nil => rfl
  | cons kv msgs ih =>
    obtain ⟨k0, v0⟩ := kv
    simp only [GoMap.keys, List.map_cons, List.nodup_cons] at hnd
    have hf0 : v0.key = k0 := hf (k0, v0) (List.mem_cons_self _ _)
    have hf1 : ∀ kv ∈ msgs, kv.2.key = kv.1 := fun kv h => hf kv (List.mem_cons_of_mem _ h)
    have ih1 := ih hnd.2 hf1
    by_cases hk : k0 = k
    · subst hk
      have hnone : (GoMap.values msgs).filter (fun m => decide (m.key = k0)) = [] := by
        rw [List.filter_eq_nil_iff]
        intro v hv
        obtain ⟨kv, hkv, rfl⟩ := List.mem_map.mp hv
        have : kv.1 ≠ k0 := fun e => hnd.1 (List.mem_map.mpr ⟨kv, hkv, e⟩)
        simpa [hf1 kv hkv] using this
      simp only [GoMap.values] at hnone
      simp [lastFor, GoMap.values, GoMap.lookup, hf0, hnone]
    · have hk' : ¬ v0.key = k := by rw [hf0]; exact hk
      simp only [lastFor, GoMap.values, List.map_cons, GoMap.lookup, hk, if_false] at ih1 ⊢
      rw [List.filter_cons_of_neg (by simpa using hk')]
      exact ih1

theorem values_nodup {msgs : GoMap revDescriptor revision} (hnd : (GoMap.keys msgs).Nodup)
    (hf : ∀ kv ∈ msgs, kv.2.key = kv.1) : (GoMap.values msgs).Nodup := by
  have : (GoMap.values msgs).map revision.key = GoMap.keys msgs := by
    simp only [GoMap.values, GoMap.keys, List.map_map]
    exact List.map_congr_left fun kv h => hf kv h
  exact List.Nodup.of_map revision.key (this ▸ hnd)

theorem mem_values_iff {msgs : GoMap revDescriptor revision} (hnd : (GoMap.keys msgs).Nodup)
    (v : revision) : v ∈ GoMap.values msgs ↔ ∃ k, GoMap.lookup msgs k = some v := by
  constructor
  · intro h
    obtain ⟨kv, hkv, rfl⟩ := List.mem_map.mp h
    exact ⟨kv.1, GoMap.lookup_of_mem hnd hkv⟩
  · rintro ⟨k, hk⟩
    exact List.mem_map.mpr ⟨(k, v), GoMap.mem_of_lookup hk, rfl⟩

theorem LastFrames_step {c c1 : serverConns} {op : Op} (hwf : c.WF) (hlf : c.LastFrames)
    (h : step c op = .ok c1) : c1.LastFrames := by
  have hwf0 := hwf
  have hwf1 := hwf
  rw [WF_iff] at hwf
  obtain ⟨hk, hm, hf, hinj, hlive⟩ := hwf
  cases op with
  | add peerID =>
    obtain ⟨hconns, hmsgs, _, hnew, hother, _⟩ := step_add_spec hwf0 h
    intro p chs hp
    rw [hmsgs]
    rw [hconns] at hp
    by_cases hpp : p = peerID
    · subst hpp
      rw [GoMap.lookup_store_self] at hp
      cases hp
      exact ⟨_, hnew, fun k => lastFor_values hm hwf1.2.2.1 k⟩
    · rw [GoMap.lookup_store_ne _ _ _ _ hpp] at hp
      obtain ⟨q, hq, hlast⟩ := hlf p chs hp
      refine ⟨q, ?_, hlast⟩
      rw [hother _ (sender_lt_of_WF hwf0 hp) (fun old ho hs => hpp (hinj _ _ _ _ hp ho hs.symm)), hq]
  | remove peerID ch =>
    rcases step_remove_spec h with rfl | ⟨chs0, q0, hl, _, _, _, rfl⟩
    · exact hlf
    · intro p chs hp
      simp only at hp ⊢
      have hpp : p ≠ peerID := by
        intro e
        rw [e, GoMap.lookup_delete_self] at hp
        cases hp
      rw [GoMap.lookup_delete_ne _ _ _ hpp] at hp
      obtain ⟨q, hq, hlast⟩ := hlf p chs hp
      refine ⟨q, ?_, hlast⟩
      rw [List.getElem?_set_ne (fun hs => hpp (hinj _ _ _ _ hp hl hs.symm)), hq]
  | broadcast e =>
    simp only [step] at h
    rcases Broadcast_eq_ok h with ⟨_, rfl⟩ | ⟨hd, _, _, _⟩
    · exact hlf
    · obtain ⟨hconns, hmsgs, _, hin, _⟩ := Broadcast_accept_spec hwf0 hd h
      intro p chs hp
      rw [hconns] at hp
      obtain ⟨q, hq, hlast⟩ := hlf p chs hp
      refine ⟨q.push e, by rw [hin _ (mem_senders_of_lookup hp).2, hq]; rfl, fun k => ?_⟩
      rw [hmsgs]
      show lastFor k (q.sent ++ [e]) = _
      rw [lastFor_concat]
      by_cases hkk : e.key = k
      · subst hkk
        simp [GoMap.lookup_store_self]
      · rw [if_neg hkk, GoMap.lookup_store_ne _ _ _ _ (Ne.symm hkk), hlast]
  | reorder conns msgs =>
    simp only [step] at h
    by_cases hp : conns.Perm c.conns ∧ msgs.Perm c.msgs
    · simp only [hp, and_self, if_true, Outcome.ok.injEq] at h
      subst h
      have hk1 : (GoMap.keys conns).Nodup := (List.Perm.nodup_iff (hp.1.map Prod.fst)).mpr hk
      have hm1 : (GoMap.keys msgs).Nodup := (List.Perm.nodup_iff (hp.2.map Prod.fst)).mpr hm
      intro p chs hp1
      simp only [GoMap.lookup_perm hp.1 hk1, GoMap.lookup_perm hp.2 hm1] at hp1 ⊢
      exact hlf p chs hp1
    · simp only [hp, if_false, Outcome.ok.injEq] at h
      subst h
      exact hlf

theorem LastFrames_run (ops : List Op) :
    ∀ {c c1 : serverConns}, c.WF → c.LastFrames → run c ops = .ok c1 → c1.LastFrames := by
  induction ops with
  | nil =>
    intro c c1 _ hlf h
    simp only [run, Outcome.ok.injEq] at h
    exact h ▸ hlf
  | cons op ops ih =>
    intro c c1 hwf hlf h
    obtain ⟨c0, h0, h1⟩ := Outcome.bind_eq_ok h
    exact ih (WF_step hwf h0) (LastFrames_step hwf hlf h0) h1

theorem LastFrames_new : newServerConns.LastFrames := by
  intro p chs hp
  simp [newServerConns, GoMap.lookup] at hp

/-- C5: let `c` be reached from the empty state, let the step `add peerID`
lead to `c1` with the new queue `q`, and let the steps `ops` lead on to `c2`
with `q` still the queue of `peerID`.  Then the frames sent on `q` are the
entries of the store of `c` (each entry once), followed by the entries
`Broadcast` accepted during `ops`, one frame per acceptance and in that order;
and in `c2`, on every registered queue, the last frame for each key is the
entry the store holds under that key. -/
theorem backlog_then_stream (ops0 ops : List Op) (c c1 c2 : serverConns) (peerID : wire.PeerID)
    (h0 : run newServerConns ops0 = .ok c) (h1 : step c (.add peerID) = .ok c1)
    (h2 : run c1 ops = .ok c2)
    (hreg : GoMap.lookup c2.conns peerID
      = some { Sender := c.heap.length, Receiver := c.heap.length }) :
    GoMap.lookup c1.conns peerID
      = some { Sender := c.heap.length, Receiver := c.heap.length } ∧
    (∃ q, c2.heap[c.heap.length]? = some q ∧
      q.sent = GoMap.values c.msgs ++ accepted c1 ops) ∧
    ((GoMap.values c.msgs).Nodup ∧
      ∀ v, v ∈ GoMap.values c.msgs ↔ ∃ k, GoMap.lookup c.msgs k = some v) ∧
    (∀ p chs, GoMap.lookup c2.conns p = some chs →
      ∃ q, c2.heap[chs.Sender]? = some q ∧ ∀ k, lastFor k q.sent = GoMap.lookup c2.msgs k) := by
  have hwf : c.WF := WF_run ops0 WF_new h0
  have hlf : c.LastFrames := LastFrames_run ops0 WF_new LastFrames_new h0
  have hwf1 : c1.WF := WF_step hwf h1
  obtain ⟨_, _, hlen, hnew, _, _⟩ := step_add_spec hwf h1
  obtain ⟨hreg1, ch0, ch2, hch0, hch2, hs⟩ :=
    queue_run ops hwf1 (by omega : c.heap.length < c1.heap.length) h2 hreg
  rw [hnew] at hch0
  cases hch0
  exact ⟨hreg1, ⟨ch2, hch2, hs⟩, ⟨values_nodup hwf.2.1 hwf.2.2.1, mem_values_iff hwf.2.1⟩,
    LastFrames_run ops hwf1 (LastFrames_step hwf hlf h1) h2⟩

theorem backlog_then_stream_witness :
    run newServerConns [.broadcast (sampleEntry "ns" 1 7 3 [1])] = .ok sampleStore ∧
    step sampleStore (.add (samplePeer 9)) = .ok sampleConns ∧
    run sampleConns [.broadcast (sampleEntry "ns" 1 7 5 [2])] = .ok sampleConns1 ∧
    GoMap.lookup sampleConns1.conns (samplePeer 9)
      = some { Sender := sampleStore.heap.length, Receiver := sampleStore.heap.length } ∧
    GoMap.lookup sampleConns.conns (samplePeer 9)
      = some { Sender := sampleStore.heap.length, Receiver := sampleStore.heap.length } ∧
    (∃ q, sampleConns1.heap[sampleStore.heap.length]? = some q ∧
      q.sent = GoMap.values sampleStore.msgs
        ++ accepted sampleConns [.broadcast (sampleEntry "ns" 1 7 5 [2])]) ∧
    ((GoMap.values sampleStore.msgs).Nodup ∧
      ∀ v, v ∈ GoMap.values sampleStore.msgs ↔ ∃ k, GoMap.lookup sampleStore.msgs k = some v) ∧
    (∀ p chs, GoMap.lookup sampleConns1.conns p = some chs →
      ∃ q, sampleConns1.heap[chs.Sender]? = some q ∧
        ∀ k, lastFor k q.sent = GoMap.lookup sampleConns1.msgs k) :=
  ⟨by decide, by decide, by decide, by decide,
    backlog_then_stream [.broadcast (sampleEntry "ns" 1 7 3 [1])]
      [.broadcast (sampleEntry "ns" 1 7 5 [2])] sampleStore sampleConns sampleConns1
      (samplePeer 9) (by decide) (by decide) (by decide) (by decide)⟩

/-! ## Senders are independent registers -/

theorem drops_of_lookup_none {c : serverConns} {e : revision}
    (h : GoMap.lookup c.msgs e.key = none) : c.drops e = false := by
  simp [serverConns.drops, h]

theorem Broadcast_accept_returns {c : serverConns} {e : revision} (hwf : c.WF)
    (hd : c.drops e = false) : ∃ c1, c.Broadcast e = .ok c1 := by
  obtain ⟨_, _, _, hinj, hlive⟩ := hwf
  have hl : ∀ ch ∈ (GoMap.values c.conns).map chans.Sender, chanLive c.heap ch = true := by
    intro ch hm
    obtain ⟨chs, hchs, rfl⟩ := List.mem_map.mp hm
    exact (hlive chs hchs).2
  obtain ⟨heap1, hs, _⟩ := chanSendEach_live e _ c.heap hinj hl
  exact ⟨_, by rw [Broadcast_of_not_drops hd, hs]; rfl⟩

theorem key_ne_of_sender_ne {eA eB : revision} (hs : eA.Header.Sender ≠ eB.Header.Sender) :
    eB.key ≠ eA.key := by
  intro h
  apply hs
  have := congrArg revDescriptor.Sender h
  exact this.symm

theorem Deliver_of_ready {Msg Mar : Type} {cc : clientConns Msg Mar} {env : SelectEnv}
    {header : wire.Header} (msg : Msg) (hctx : env.ctxDone = false)
    (hacc : env.canAccept = true) (hd : cc.drops header = false) :
    cc.Deliver env header msg = .ok ({ cc with
      receivedMsgs := GoMap.store cc.receivedMsgs (headerKey header) header.Revision.Index,
      recvCh := cc.recvCh ++ [msg] }, false) := by
  simp [clientConns.Deliver, hd, hctx, hacc]

theorem Deliver_receivedMsgs {Msg Mar : Type} {cc cc1 : clientConns Msg Mar} {env : SelectEnv}
    {header : wire.Header} {msg : Msg} {err : Bool}
    (h : cc.Deliver env header msg = .ok (cc1, err)) :
    cc1.receivedMsgs = cc.receivedMsgs ∨
    cc1.receivedMsgs = GoMap.store cc.receivedMsgs (headerKey header) header.Revision.Index := by
  unfold clientConns.Deliver at h
  by_cases hd : cc.drops header = true
  · simp only [hd, if_true, Outcome.ok.injEq, Prod.mk.injEq] at h
    exact Or.inl (h.1 ▸ rfl)
  · simp only [hd, Bool.false_eq_true, if_false] at h
    rcases hc : env.ctxDone with _ | _ <;> rcases ha : env.canAccept with _ | _ <;>
      simp only [hc, ha] at h
    · cases h
    · simp only [Outcome.ok.injEq, Prod.mk.injEq] at h
      exact Or.inr (h.1 ▸ rfl)
    · simp only [Outcome.ok.injEq, Prod.mk.injEq] at h
      exact Or.inr (h.1 ▸ rfl)
    · by_cases hp : env.pickSend = true
      · simp only [hp, if_true, Outcome.ok.injEq, Prod.mk.injEq] at h
        exact Or.inr (h.1 ▸ rfl)
      · simp only [hp, Bool.false_eq_true, if_false, Outcome.ok.injEq, Prod.mk.injEq] at h
        exact Or.inr (h.1 ▸ rfl)

/-- C8: let `eA` and `eB` be entries of different senders (whatever their
descriptors, in particular the same one).  Whether `Broadcast` drops `eA`
depends only on the entry stored under the key of `eA`; a `Broadcast` of `eA`
leaves the entry under the key of `eB` as it was; in a well-formed state with
no entry under either key (so also when both carry Index 0), broadcasting `eA`
and then `eB` stores both and appends both, in that order, to every registered
queue.  Likewise `Deliver` of the header of `eA` leaves the revision recorded
for the key of `eB` as it was, and with a context that is not cancelled and a
receive channel that can accept, delivering both headers to a client store
that has seen neither key forwards both messages. -/
theorem senders_are_independent {Msg Mar : Type} (c c' : serverConns) (eA eB : revision)
    (cc : clientConns Msg Mar) (env : SelectEnv) (mA mB : Msg)
    (hs : eA.Header.Sender ≠ eB.Header.Sender) :
    (GoMap.lookup c.msgs eA.key = GoMap.lookup c'.msgs eA.key → c.drops eA = c'.drops eA) ∧
    (∀ c1, c.Broadcast eA = .ok c1 →
      GoMap.lookup c1.msgs eB.key = GoMap.lookup c.msgs eB.key) ∧
    (c.WF → GoMap.lookup c.msgs eA.key = none → GoMap.lookup c.msgs eB.key = none →
      ∃ c1 c2, c.Broadcast eA = .ok c1 ∧ c1.Broadcast eB = .ok c2 ∧
        GoMap.lookup c2.msgs eA.key = some eA ∧ GoMap.lookup c2.msgs eB.key = some eB ∧
        ∀ p chs, GoMap.lookup c.conns p = some chs →
          ∃ q, c.heap[chs.Sender]? = some q ∧
            c2.heap[chs.Sender]? = some ((q.push eA).push eB)) ∧
    (∀ cc1 err, cc.Deliver env eA.Header mA = .ok (cc1, err) →
      GoMap.lookup cc1.receivedMsgs (headerKey eB.Header)
        = GoMap.lookup cc.receivedMsgs (headerKey eB.Header)) ∧
    (env.ctxDone = false → env.canAccept = true →
      GoMap.lookup cc.receivedMsgs (headerKey eA.Header) = none →
      GoMap.lookup cc.receivedMsgs (headerKey eB.Header) = none →
      ∃ cc1 cc2, cc.Deliver env eA.Header mA = .ok (cc1, false) ∧
        cc1.Deliver env eB.Header mB = .ok (cc2, false) ∧
        cc2.recvCh = cc.recvCh ++ [mA, mB]) := by
  have hk : eB.key ≠ eA.key := key_ne_of_sender_ne hs
  refine ⟨fun h => ?_, fun c1 h => ?_, fun hwf hA hB => ?_, fun cc1 err h => ?_,
    fun hctx hacc hA hB => ?_⟩
  · simp only [serverConns.drops, h]
  · rcases Broadcast_eq_ok h with ⟨_, rfl⟩ | ⟨_, heap1, _, rfl⟩
    · rfl
    · exact GoMap.lookup_store_ne _ _ _ _ hk
  · have hdA := drops_of_lookup_none hA
    obtain ⟨c1, h1⟩ := Broadcast_accept_returns (e := eA) hwf hdA
    obtain ⟨hconns1, hmsgs1, _, hin1, _⟩ := Broadcast_accept_spec hwf hdA h1
    have hwf1 : c1.WF := @WF_step c c1 (.broadcast eA) hwf h1
    have hB1 : GoMap.lookup c1.msgs eB.key = none := by
      rw [hmsgs1, GoMap.lookup_store_ne _ _ _ _ hk, hB]
    have hdB := drops_of_lookup_none hB1
    obtain ⟨c2, h2⟩ := Broadcast_accept_returns (e := eB) hwf1 hdB
    obtain ⟨hconns2, hmsgs2, _, hin2, _⟩ := Broadcast_accept_spec hwf1 hdB h2
    refine ⟨c1, c2, h1, h2, ?_, ?_, fun p chs hp => ?_⟩
    · rw [hmsgs2, GoMap.lookup_store_ne _ _ _ _ (Ne.symm hk), hmsgs1, GoMap.lookup_store_self]
    · rw [hmsgs2, GoMap.lookup_store_self]
    · obtain ⟨q, hq, _, _⟩ := chanLive_iff.mp (((WF_iff c).mp hwf).2.2.2.2 p chs hp).2
      have hm := (mem_senders_of_lookup hp).2
      refine ⟨q, hq, ?_⟩
      rw [hin2 _ (hconns1 ▸ hm), hin1 _ hm, hq]
      rfl
  · have hk' : headerKey eB.Header ≠ headerKey eA.Header := hk
    rcases Deliver_receivedMsgs h with h | h
    · rw [h]
    · rw [h, GoMap.lookup_store_ne _ _ _ _ hk']
  · have hk' : headerKey eB.Header ≠ headerKey eA.Header := hk
    have hdA : cc.drops eA.Header = false := by simp [clientConns.drops, hA]
    refine ⟨_, _, Deliver_of_ready mA hctx hacc hdA, Deliver_of_ready mB hctx hacc ?_, by simp⟩
    simp [clientConns.drops, GoMap.lookup_store_ne _ _ _ _ hk', hB]

theorem senders_are_independent_witness :
    (sampleEntry "ns" 1 7 0 [1]).Header.Sender ≠ (sampleEntry "ns" 1 8 0 [2]).Header.Sender ∧
    (sampleAttached.WF ∧ GoMap.lookup sampleAttached.msgs (sampleEntry "ns" 1 7 0 [1]).key = none ∧
      GoMap.lookup sampleAttached.msgs (sampleEntry "ns" 1 8 0 [2]).key = none) ∧
    (sampleEnv.ctxDone = false ∧ sampleEnv.canAccept = true ∧
      GoMap.lookup sampleClient.receivedMsgs (headerKey (sampleEntry "ns" 1 7 0 [1]).Header) = none ∧
      GoMap.lookup sampleClient.receivedMsgs (headerKey (sampleEntry "ns" 1 8 0 [2]).Header) = none) ∧
    (GoMap.lookup sampleAttached.msgs (sampleEntry "ns" 1 7 0 [1]).key
        = GoMap.lookup sampleStore.msgs (sampleEntry "ns" 1 7 0 [1]).key →
      sampleAttached.drops (sampleEntry "ns" 1 7 0 [1])
        = sampleStore.drops (sampleEntry "ns" 1 7 0 [1])) ∧
    (∀ c1, sampleAttached.Broadcast (sampleEntry "ns" 1 7 0 [1]) = .ok c1 →
      GoMap.lookup c1.msgs (sampleEntry "ns" 1 8 0 [2]).key
        = GoMap.lookup sampleAttached.msgs (sampleEntry "ns" 1 8 0 [2]).key) ∧
    (sampleAttached.WF → GoMap.lookup sampleAttached.msgs (sampleEntry "ns" 1 7 0 [1]).key = none →
      GoMap.lookup sampleAttached.msgs (sampleEntry "ns" 1 8 0 [2]).key = none →
      ∃ c1 c2, sampleAttached.Broadcast (sampleEntry "ns" 1 7 0 [1]) = .ok c1 ∧
        c1.Broadcast (sampleEntry "ns" 1 8 0 [2]) = .ok c2 ∧
        GoMap.lookup c2.msgs (sampleEntry "ns" 1 7 0 [1]).key = some (sampleEntry "ns" 1 7 0 [1]) ∧
        GoMap.lookup c2.msgs (sampleEntry "ns" 1 8 0 [2]).key = some (sampleEntry "ns" 1 8 0 [2]) ∧
        ∀ p chs, GoMap.lookup sampleAttached.conns p = some chs →
          ∃ q, sampleAttached.heap[chs.Sender]? = some q ∧
            c2.heap[chs.Sender]?
              = some ((q.push (sampleEntry "ns" 1 7 0 [1])).push (sampleEntry "ns" 1 8 0 [2]))) ∧
    (∀ cc1 err,
      sampleClient.Deliver sampleEnv (sampleEntry "ns" 1 7 0 [1]).Header "test1" = .ok (cc1, err) →
      GoMap.lookup cc1.receivedMsgs (headerKey (sampleEntry "ns" 1 8 0 [2]).Header)
        = GoMap.lookup sampleClient.receivedMsgs (headerKey (sampleEntry "ns" 1 8 0 [2]).Header)) ∧
    (sampleEnv.ctxDone = false → sampleEnv.canAccept = true →
      GoMap.lookup sampleClient.receivedMsgs (headerKey (sampleEntry "ns" 1 7 0 [1]).Header) = none →
      GoMap.lookup sampleClient.receivedMsgs (headerKey (sampleEntry "ns" 1 8 0 [2]).Header) = none →
      ∃ cc1 cc2,
        sampleClient.Deliver sampleEnv (sampleEntry "ns" 1 7 0 [1]).Header "test1" = .ok (cc1, false) ∧
        cc1.Deliver sampleEnv (sampleEntry "ns" 1 8 0 [2]).Header "test2" = .ok (cc2, false) ∧
        cc2.recvCh = sampleClient.recvCh ++ ["test1", "test2"]) :=
  ⟨by decide, by decide, by decide,
    senders_are_independent sampleAttached sampleStore (sampleEntry "ns" 1 7 0 [1])
      (sampleEntry "ns" 1 8 0 [2]) sampleClient sampleEnv "test1" "test2" (by decide)⟩

/-! ## The filter set and the sender loop -/

theorem lookup_isSome_store {K : Type} [DecidableEq K] (m : GoMap K Unit) (k d : K) :
    (GoMap.lookup (GoMap.store m k ()) d).isSome = true ↔
      (GoMap.lookup m d).isSome = true ∨ d = k := by
  by_cases h : d = k
  · subst h
    simp [GoMap.lookup_store_self]
  · simp [GoMap.lookup_store_ne _ _ _ _ h, h]

theorem lookup_isSome_ids (ns : wire.Namespace) (ids : List wire.MessageID) :
    ∀ (reqs : GoMap wire.MessageDescriptor Unit) (d : wire.MessageDescriptor),
      (GoMap.lookup (ids.foldl
        (fun reqs mID => GoMap.store reqs { Namespace := ns, MessageID := mID } ()) reqs) d).isSome
          = true ↔
      (GoMap.lookup reqs d).isSome = true ∨ (d.Namespace = ns ∧ d.MessageID ∈ ids) := by
  induction ids with
  | nil => intro reqs d; simp
  | cons mID ids ih =>
    intro reqs d
    rw [List.foldl_cons, ih, lookup_isSome_store]
    constructor
    · rintro ((h | h) | ⟨h1, h2⟩)
      · exact Or.inl h
      · exact Or.inr ⟨by rw [h], by rw [h]; exact List.mem_cons_self _ _⟩
      · exact Or.inr ⟨h1, List.mem_cons_of_mem _ h2⟩
    · rintro (h | ⟨h1, h2⟩)
      · exact Or.inl (Or.inl h)
      · rcases List.mem_cons.mp h2 with h2 | h2
        · refine Or.inl (Or.inr ?_)
          cases d
          simp only at h1 h2
          rw [h1, h2]
        · exact Or.inr ⟨h1, h2⟩

theorem lookup_isSome_requests (rs : List wire.NamespaceRequest) :
    ∀ (reqs : GoMap wire.MessageDescriptor Unit) (d : wire.MessageDescriptor),
      (GoMap.lookup (rs.foldl
        (fun reqs r =>
          r.MessageIDs.foldl
            (fun reqs mID => GoMap.store reqs { Namespace := r.Namespace, MessageID := mID } ())
            reqs) reqs) d).isSome = true ↔
      (GoMap.lookup reqs d).isSome = true ∨
        ∃ r ∈ rs, r.Namespace = d.Namespace ∧ d.MessageID ∈ r.MessageIDs := by
  induction rs with
  | nil => intro reqs d; simp
  | cons r rs ih =>
    intro reqs d
    rw [List.foldl_cons, ih, lookup_isSome_ids]
    constructor
    · rintro ((h | ⟨h1, h2⟩) | ⟨r1, hr1, h⟩)
      · exact Or.inl h
      · exact Or.inr ⟨r, List.mem_cons_self _ _, h1.symm, h2⟩
      · exact Or.inr ⟨r1, List.mem_cons_of_mem _ hr1, h⟩
    · rintro (h | ⟨r1, hr1, h⟩)
      · exact Or.inl (Or.inl h)
      · rcases List.mem_cons.mp hr1 with e | hr1
        · subst e
          exact Or.inl (Or.inr ⟨h.1.symm, h.2⟩)
        · exact Or.inr ⟨r1, hr1, h⟩

theorem mem_buildReqs (helloMsg : wire.Hello) (d : wire.MessageDescriptor) :
    (GoMap.lookup (buildReqs helloMsg) d).isSome = true ↔
      ∃ r ∈ helloMsg.Requests, r.Namespace = d.Namespace ∧ d.MessageID ∈ r.MessageIDs := by
  unfold buildReqs
  rw [lookup_isSome_requests]
  simp [GoMap.lookup]

theorem nodup_keys_ids (ns : wire.Namespace) (ids : List wire.MessageID) :
    ∀ (reqs : GoMap wire.MessageDescriptor Unit), (GoMap.keys reqs).Nodup →
      (GoMap.keys (ids.foldl
        (fun reqs mID => GoMap.store reqs { Namespace := ns, MessageID := mID } ()) reqs)).Nodup := by
  induction ids with
  | nil => intro reqs h; exact h
  | cons mID ids ih => intro reqs h; exact ih _ (GoMap.nodup_keys_store h _ _)

theorem nodup_keys_requests (rs : List wire.NamespaceRequest) :
    ∀ (reqs : GoMap wire.MessageDescriptor Unit), (GoMap.keys reqs).Nodup →
      (GoMap.keys (rs.foldl
        (fun reqs r =>
          r.MessageIDs.foldl
            (fun reqs mID => GoMap.store reqs { Namespace := r.Namespace, MessageID := mID } ())
            reqs) reqs)).Nodup := by
  induction rs with
  | nil => intro reqs h; exact h
  | cons r rs ih => intro reqs h; exact ih _ (nodup_keys_ids _ _ _ h)

theorem eq_nil_of_lookup_none {K V : Type} [DecidableEq K] {m : GoMap K V}
    (h : ∀ k, GoMap.lookup m k = none) : m = [] := by
  cases m with
  | nil => rfl
  | cons kv m =>
    have := h kv.1
    simp [GoMap.lookup] at this

/-- C10: the filter set built from a Hello has pairwise distinct keys and
contains the descriptor `d` exactly when some NamespaceRequest of the Hello has
the namespace of `d` and lists the MessageID of `d`; a Hello whose requests
list no MessageID, in particular one without requests, yields the empty set;
and a MessageID requested under two different namespaces yields two different
descriptors, both in the set. -/
theorem filter_set_is_manifest (helloMsg : wire.Hello) (d : wire.MessageDescriptor) :
    (GoMap.keys (buildReqs helloMsg)).Nodup ∧
    ((GoMap.lookup (buildReqs helloMsg) d).isSome = true ↔
      ∃ r ∈ helloMsg.Requests, r.Namespace = d.Namespace ∧ d.MessageID ∈ r.MessageIDs) ∧
    ((∀ r ∈ helloMsg.Requests, r.MessageIDs = []) → buildReqs helloMsg = []) ∧
    (helloMsg.Requests = [] → buildReqs helloMsg = []) ∧
    (∀ r1 ∈ helloMsg.Requests, ∀ r2 ∈ helloMsg.Requests, ∀ mID,
      r1.Namespace ≠ r2.Namespace → mID ∈ r1.MessageIDs → mID ∈ r2.MessageIDs →
      ({ Namespace := r1.Namespace, MessageID := mID } : wire.MessageDescriptor)
        ≠ { Namespace := r2.Namespace, MessageID := mID } ∧
      (GoMap.lookup (buildReqs helloMsg) { Namespace := r1.Namespace, MessageID := mID }).isSome
        = true ∧
      (GoMap.lookup (buildReqs helloMsg) { Namespace := r2.Namespace, MessageID := mID }).isSome
        = true) := by
  have hempty : (∀ r ∈ helloMsg.Requests, r.MessageIDs = []) → buildReqs helloMsg = [] := by
    intro h
    apply eq_nil_of_lookup_none
    intro k
    cases hk : GoMap.lookup (buildReqs helloMsg) k with
    | none => rfl
    | some u =>
      have : (GoMap.lookup (buildReqs helloMsg) k).isSome = true := by rw [hk]; rfl
      obtain ⟨r, hr, _, hm⟩ := (mem_buildReqs helloMsg k).mp this
      rw [h r hr] at hm
      cases hm
  refine ⟨nodup_keys_requests _ _ List.nodup_nil, mem_buildReqs helloMsg d, hempty, ?_, ?_⟩
  · intro h
    apply hempty
    rw [h]
    intro r hr
    cases hr
  · intro r1 hr1 r2 hr2 mID hne h1 h2
    refine ⟨fun e => hne (congrArg wire.MessageDescriptor.Namespace e), ?_, ?_⟩
    · exact (mem_buildReqs helloMsg _).mpr ⟨r1, hr1, rfl, h1⟩
    · exact (mem_buildReqs helloMsg _).mpr ⟨r2, hr2, rfl, h2⟩

theorem senderLoop_spec (reqs : GoMap wire.MessageDescriptor Unit) (helloMsg : wire.Hello)
    (queue : List revision) :
    ∀ conn : Connection, ∃ frames rest,
      (senderLoop reqs helloMsg conn queue).1.written = conn.written ++ frames ∧
      emitted reqs helloMsg queue = frames ++ rest ∧
      (2 * queue.length ≤ conn.credit →
        rest = [] ∧ (senderLoop reqs helloMsg conn queue).2 = false) := by
  induction queue with
  | nil => intro conn; exact ⟨[], [], by simp [senderLoop], by simp [emitted], fun _ => ⟨rfl, rfl⟩⟩
  | cons e queue ih =>
    intro conn
    by_cases hs : skips reqs helloMsg e = true
    · obtain ⟨frames, rest, h1, h2, h3⟩ := ih conn
      refine ⟨frames, rest, by simpa [senderLoop, hs] using h1, by simpa [emitted, hs] using h2,
        fun hc => ?_⟩
      simp only [List.length_cons] at hc
      simpa [senderLoop, hs] using h3 (by omega)
    · have hem : emitted reqs helloMsg (e :: queue)
          = framesOf e ++ emitted reqs helloMsg queue := by
        simp [emitted, hs]
      obtain ⟨written, credit⟩ := conn
      cases credit with
      | zero =>
        refine ⟨[], emitted reqs helloMsg (e :: queue), by simp [senderLoop, hs, Connection.send],
          by simp, fun hc => ?_⟩
        simp at hc
      | succ n =>
        cases n with
        | zero =>
          refine ⟨[.header e.Header], .raw e.Content :: emitted reqs helloMsg queue,
            by simp [senderLoop, hs, Connection.send], by simp [hem, framesOf], fun hc => ?_⟩
          simp only [List.length_cons] at hc
          omega
        | succ m =>
          obtain ⟨frames, rest, h1, h2, h3⟩ :=
            ih { written := written ++ [.header e.Header] ++ [.raw e.Content], credit := m }
          refine ⟨framesOf e ++ frames, rest, ?_, by rw [hem, h2, List.append_assoc], fun hc => ?_⟩
          · simpa [senderLoop, hs, Connection.send, framesOf] using h1
          · simp only [List.length_cons] at hc
            simpa [senderLoop, hs, Connection.send] using h3 (by simp only; omega)

theorem not_skips_iff (reqs : GoMap wire.MessageDescriptor Unit) (helloMsg : wire.Hello)
    (e : revision) :
    skips reqs helloMsg e = false ↔
      (helloMsg.IsServer = true ∨ (GoMap.lookup reqs e.Header.Revision.Message).isSome = true) := by
  unfold skips
  cases helloMsg.IsServer <;> cases GoMap.lookup reqs e.Header.Revision.Message <;> simp

theorem emitted_eq (reqs : GoMap wire.MessageDescriptor Unit) (helloMsg : wire.Hello)
    (queue : List revision) :
    emitted reqs helloMsg queue =
      (queue.filter fun e =>
        helloMsg.IsServer || (GoMap.lookup reqs e.Header.Revision.Message).isSome).flatMap
        framesOf := by
  unfold emitted
  congr 1
  apply List.filter_congr
  intro e _
  unfold skips
  cases helloMsg.IsServer <;> cases GoMap.lookup reqs e.Header.Revision.Message <;> rfl

theorem header_mem_emitted {reqs : GoMap wire.MessageDescriptor Unit} {helloMsg : wire.Hello}
    {queue : List revision} {hd : wire.Header} (h : Frame.header hd ∈ emitted reqs helloMsg queue) :
    ∃ e ∈ queue, e.Header = hd ∧ skips reqs helloMsg e = false := by
  unfold emitted at h
  obtain ⟨e, he, hf⟩ := List.mem_flatMap.mp h
  obtain ⟨hq, hs⟩ := List.mem_filter.mp he
  refine ⟨e, hq, ?_, by simpa using hs⟩
  simp only [framesOf, List.mem_cons, Frame.header.injEq, List.mem_singleton] at hf
  rcases hf with hf | hf
  · exact hf.symm
  · rcases hf with hf | hf
    · cases hf
    · cases hf

/-- C9: the sender loop skips an entry exactly when the remote is not a
server and the descriptor of the entry is not in the filter set built from the
remote's Hello.  On a transport that accepts two writes per queued entry the
loop ends without error having written, in queue order, the header and the
payload of exactly the entries for which the remote is a server or the
descriptor is in the filter set; for a server remote these are all queued
entries.  On any transport what the loop wrote is an initial part of those
frames, and for a remote that is not a server every header written carries a
descriptor that the remote's manifest requests. -/
theorem sender_emits_iff_subscribed (helloMsg : wire.Hello) (conn : Connection)
    (queue : List revision) (hcredit : 2 * queue.length ≤ conn.credit) :
    (∀ e, skips (buildReqs helloMsg) helloMsg e = false ↔
      (helloMsg.IsServer = true ∨
        (GoMap.lookup (buildReqs helloMsg) e.Header.Revision.Message).isSome = true)) ∧
    ((senderLoop (buildReqs helloMsg) helloMsg conn queue).2 = false ∧
      (senderLoop (buildReqs helloMsg) helloMsg conn queue).1.written =
        conn.written ++ (queue.filter fun e =>
          helloMsg.IsServer ||
            (GoMap.lookup (buildReqs helloMsg) e.Header.Revision.Message).isSome).flatMap
          framesOf) ∧
    (helloMsg.IsServer = true →
      (senderLoop (buildReqs helloMsg) helloMsg conn queue).1.written =
        conn.written ++ queue.flatMap framesOf) ∧
    (∀ conn1 : Connection, ∃ frames rest,
      (senderLoop (buildReqs helloMsg) helloMsg conn1 queue).1.written
        = conn1.written ++ frames ∧
      (queue.filter fun e =>
          helloMsg.IsServer ||
            (GoMap.lookup (buildReqs helloMsg) e.Header.Revision.Message).isSome).flatMap
          framesOf = frames ++ rest ∧
      (helloMsg.IsServer = false → ∀ hd, Frame.header hd ∈ frames →
        ∃ r ∈ helloMsg.Requests, r.Namespace = hd.Revision.Message.Namespace ∧
          hd.Revision.Message.MessageID ∈ r.MessageIDs)) := by
  obtain ⟨frames, rest, h1, h2, h3⟩ := senderLoop_spec (buildReqs helloMsg) helloMsg queue conn
  obtain ⟨hrest, hok⟩ := h3 hcredit
  subst hrest
  rw [List.append_nil] at h2
  have hall : (senderLoop (buildReqs helloMsg) helloMsg conn queue).1.written =
        conn.written ++ (queue.filter fun e =>
          helloMsg.IsServer ||
            (GoMap.lookup (buildReqs helloMsg) e.Header.Revision.Message).isSome).flatMap
          framesOf := by
    rw [h1, ← h2, emitted_eq]
  refine ⟨not_skips_iff _ _, ⟨hok, hall⟩, fun hsrv => ?_, fun conn1 => ?_⟩
  · rw [hall]
    simp [hsrv]
  · obtain ⟨frames1, rest1, g1, g2, _⟩ :=
      senderLoop_spec (buildReqs helloMsg) helloMsg queue conn1
    refine ⟨frames1, rest1, g1, by rw [← emitted_eq, g2], fun hsrv hd hm => ?_⟩
    have hmem : Frame.header hd ∈ emitted (buildReqs helloMsg) helloMsg queue := by
      rw [g2]
      exact List.mem_append_left _ hm
    obtain ⟨e, _, rfl, hs⟩ := header_mem_emitted hmem
    rcases (not_skips_iff _ _ _).mp hs with hsv | hin
    · rw [hsrv] at hsv
      cases hsv
    · exact (mem_buildReqs helloMsg _).mp hin

theorem sender_emits_iff_subscribed_witness :
    2 * [sampleEntry "ns1" 1 7 0 [1], sampleEntry "ns1" 2 7 0 [2]].length
      ≤ sampleConnection.credit ∧
    (senderLoop (buildReqs sampleHello) sampleHello sampleConnection
        [sampleEntry "ns1" 1 7 0 [1], sampleEntry "ns1" 2 7 0 [2]]).1.written
      = framesOf (sampleEntry "ns1" 1 7 0 [1]) ∧
    (∀ e, skips (buildReqs sampleHello) sampleHello e = false ↔
      (sampleHello.IsServer = true ∨
        (GoMap.lookup (buildReqs sampleHello) e.Header.Revision.Message).isSome = true)) ∧
    ((senderLoop (buildReqs sampleHello) sampleHello sampleConnection
        [sampleEntry "ns1" 1 7 0 [1], sampleEntry "ns1" 2 7 0 [2]]).2 = false ∧
      (senderLoop (buildReqs sampleHello) sampleHello sampleConnection
        [sampleEntry "ns1" 1 7 0 [1], sampleEntry "ns1" 2 7 0 [2]]).1.written =
        sampleConnection.written ++
          ([sampleEntry "ns1" 1 7 0 [1], sampleEntry "ns1" 2 7 0 [2]].filter fun e =>
            sampleHello.IsServer ||
              (GoMap.lookup (buildReqs sampleHello) e.Header.Revision.Message).isSome).flatMap
            framesOf) ∧
    (sampleHello.IsServer = true →
      (senderLoop (buildReqs sampleHello) sampleHello sampleConnection
        [sampleEntry "ns1" 1 7 0 [1], sampleEntry "ns1" 2 7 0 [2]]).1.written =
        sampleConnection.written ++
          [sampleEntry "ns1" 1 7 0 [1], sampleEntry "ns1" 2 7 0 [2]].flatMap framesOf) ∧
    (∀ conn1 : Connection, ∃ frames rest,
      (senderLoop (buildReqs sampleHello) sampleHello conn1
        [sampleEntry "ns1" 1 7 0 [1], sampleEntry "ns1" 2 7 0 [2]]).1.written
        = conn1.written ++ frames ∧
      ([sampleEntry "ns1" 1 7 0 [1], sampleEntry "ns1" 2 7 0 [2]].filter fun e =>
          sampleHello.IsServer ||
            (GoMap.lookup (buildReqs sampleHello) e.Header.Revision.Message).isSome).flatMap
          framesOf = frames ++ rest ∧
      (sampleHello.IsServer = false → ∀ hd, Frame.header hd ∈ frames →
        ∃ r ∈ sampleHello.Requests, r.Namespace = hd.Revision.Message.Namespace ∧
          hd.Revision.Message.MessageID ∈ r.MessageIDs)) :=
  ⟨by decide, by decide,
    sender_emits_iff_subscribed sampleHello sampleConnection
      [sampleEntry "ns1" 1 7 0 [1], sampleEntry "ns1" 2 7 0 [2]] (by decide)⟩

/-! ## Deliver -/

theorem client_drops_eq_true {Msg Mar : Type} {c : clientConns Msg Mar} {header : wire.Header} :
    c.drops header = true ↔ ∃ r, GoMap.lookup c.receivedMsgs (headerKey header) = some r ∧
      header.Revision.Index ≤ r := by
  unfold clientConns.drops
  cases GoMap.lookup c.receivedMsgs (headerKey header) with
  | none => simp
  | some r => simp

theorem client_drops_eq_false {Msg Mar : Type} {c : clientConns Msg Mar} {header : wire.Header} :
    c.drops header = false ↔ ∀ r, GoMap.lookup c.receivedMsgs (headerKey header) = some r →
      r < header.Revision.Index := by
  unfold clientConns.drops
  cases GoMap.lookup c.receivedMsgs (headerKey header) with
  | none => simp
  | some r => simp

/-- What `Deliver` returns, when it returns. -/
theorem Deliver_spec {Msg Mar : Type} {c c1 : clientConns Msg Mar} {env : SelectEnv}
    {header : wire.Header} {msg : Msg} {err : Bool}
    (h : c.Deliver env header msg = .ok (c1, err)) :
    (c.drops header = true ∧ c.forwards env header = false ∧ c1 = c ∧ err = false) ∨
    (c.drops header = false ∧
      c1 = { c with
        receivedMsgs := GoMap.store c.receivedMsgs (headerKey header) header.Revision.Index,
        recvCh := if c.forwards env header then c.recvCh ++ [msg] else c.recvCh } ∧
      err = !c.forwards env header ∧ (err = true → env.ctxDone = true)) := by
  unfold clientConns.Deliver at h
  unfold clientConns.forwards
  cases hd : c.drops header with
  | true =>
    simp only [hd, if_true, Outcome.ok.injEq, Prod.mk.injEq] at h
    exact Or.inl ⟨rfl, by simp, h.1.symm, h.2.symm⟩
  | false =>
    simp only [hd, Bool.false_eq_true, if_false] at h
    refine Or.inr ⟨rfl, ?_⟩
    obtain ⟨ctxDone, canAccept, pickSend⟩ := env
    cases ctxDone <;> cases canAccept <;> cases pickSend <;> simp at h <;>
      (obtain ⟨h1, h2⟩ := h
       subst h1
       subst h2
       simp)

/-- C11: with a context that is not cancelled and a receive channel that can
accept, `Deliver` returns without error; if `receivedMsgs` holds a revision
for the key of the header that is at least the Index of the header, nothing
is forwarded and the state is unchanged; otherwise the Index of the header is
recorded under the key, every other key keeps its revision, exactly `msg` is
appended to the receive channel, and nothing else changes. -/
theorem Deliver_drops_or_forwards {Msg Mar : Type} (c : clientConns Msg Mar) (env : SelectEnv)
    (header : wire.Header) (msg : Msg) (hctx : env.ctxDone = false)
    (hacc : env.canAccept = true) :
    ((∃ r, GoMap.lookup c.receivedMsgs (headerKey header) = some r ∧
        r ≥ header.Revision.Index) →
      c.Deliver env header msg = .ok (c, false)) ∧
    ((∀ r, GoMap.lookup c.receivedMsgs (headerKey header) = some r →
        r < header.Revision.Index) →
      ∃ c1, c.Deliver env header msg = .ok (c1, false) ∧
        GoMap.lookup c1.receivedMsgs (headerKey header) = some header.Revision.Index ∧
        (∀ k, k ≠ headerKey header →
          GoMap.lookup c1.receivedMsgs k = GoMap.lookup c.receivedMsgs k) ∧
        c1.recvCh = c.recvCh ++ [msg] ∧ c1.clientID = c.clientID ∧ c1.conns = c.conns ∧
        c1.sentMsgs = c.sentMsgs ∧ c1.heap = c.heap) := by
  refine ⟨fun hex => ?_, fun hnew => ?_⟩
  · have hd := client_drops_eq_true.mpr hex
    simp [clientConns.Deliver, hd]
  · have hd := client_drops_eq_false.mpr hnew
    exact ⟨_, Deliver_of_ready msg hctx hacc hd, GoMap.lookup_store_self _ _ _,
      fun k hk => GoMap.lookup_store_ne _ _ _ _ hk, rfl, rfl, rfl, rfl, rfl⟩

theorem Deliver_drops_or_forwards_witness :
    sampleEnv.ctxDone = false ∧ sampleEnv.canAccept = true ∧
    ((∃ r, GoMap.lookup sampleClient.receivedMsgs
          (headerKey (sampleEntry "ns" 1 7 0 [1]).Header) = some r ∧
        r ≥ (sampleEntry "ns" 1 7 0 [1]).Header.Revision.Index) →
      sampleClient.Deliver sampleEnv (sampleEntry "ns" 1 7 0 [1]).Header "test1"
        = .ok (sampleClient, false)) ∧
    ((∀ r, GoMap.lookup sampleClient.receivedMsgs
          (headerKey (sampleEntry "ns" 1 7 0 [1]).Header) = some r →
        r < (sampleEntry "ns" 1 7 0 [1]).Header.Revision.Index) →
      ∃ c1, sampleClient.Deliver sampleEnv (sampleEntry "ns" 1 7 0 [1]).Header "test1"
          = .ok (c1, false) ∧
        GoMap.lookup c1.receivedMsgs (headerKey (sampleEntry "ns" 1 7 0 [1]).Header)
          = some (sampleEntry "ns" 1 7 0 [1]).Header.Revision.Index ∧
        (∀ k, k ≠ headerKey (sampleEntry "ns" 1 7 0 [1]).Header →
          GoMap.lookup c1.receivedMsgs k = GoMap.lookup sampleClient.receivedMsgs k) ∧
        c1.recvCh = sampleClient.recvCh ++ ["test1"] ∧ c1.clientID = sampleClient.clientID ∧
        c1.conns = sampleClient.conns ∧ c1.sentMsgs = sampleClient.sentMsgs ∧
        c1.heap = sampleClient.heap) :=
  ⟨by decide, by decide,
    Deliver_drops_or_forwards sampleClient sampleEnv (sampleEntry "ns" 1 7 0 [1]).Header "test1"
      (by decide) (by decide)⟩

/-! ## What the client calls change -/

section ClientSteps

variable {Msg Mar : Type}

theorem client_Add_eq_ok {c : clientConns Msg Mar} {r : clientConns Msg Mar × Nat}
    (h : c.Add = .ok r) :
    ∃ heap1, chanSendAll (c.heap ++ [Chan.make 10]) c.heap.length (GoMap.values c.sentMsgs)
        = .ok heap1 ∧
      r = ({ c with conns := GoMap.store c.conns c.heap.length c.heap.length, heap := heap1 },
        c.heap.length) := by
  unfold clientConns.Add at h
  obtain ⟨heap1, h1, h2⟩ := Outcome.bind_eq_ok h
  simp only [Outcome.ok.injEq] at h2
  exact ⟨heap1, h1, h2.symm⟩

theorem client_Remove_eq_ok {c c1 : clientConns Msg Mar} {ch : Nat}
    (h : c.Remove ch = .ok c1) :
    c1 = c ∨ ∃ ch2 heap1, GoMap.lookup c.conns ch = some ch2 ∧
      chanClose c.heap ch2 = .ok heap1 ∧
      c1 = { c with conns := GoMap.delete c.conns ch, heap := heap1 } := by
  unfold clientConns.Remove at h
  cases hl : GoMap.lookup c.conns ch with
  | none =>
    simp only [hl, Outcome.ok.injEq] at h
    exact Or.inl h.symm
  | some ch2 =>
    simp only [hl] at h
    obtain ⟨heap1, h1, h2⟩ := Outcome.bind_eq_ok h
    simp only [Outcome.ok.injEq] at h2
    exact Or.inr ⟨ch2, heap1, rfl, h1, h2.symm⟩

theorem client_Broadcast_eq_ok {codec : Codec Msg Mar} {c c1 : clientConns Msg Mar} {msg : Msg}
    {marshaller : Mar} {err : Option GoError}
    (h : c.Broadcast codec msg marshaller = .ok (c1, err)) :
    (∃ e, codec.ID marshaller msg = .error e ∧ c1 = c ∧ err = some e) ∨
    (∃ msgID heap1, codec.ID marshaller msg = .ok msgID ∧
      chanSendEach c.heap (c.frame codec msg marshaller msgID) (GoMap.values c.conns)
        = .ok heap1 ∧
      c1 = { c with
        sentMsgs := GoMap.store c.sentMsgs
          (c.frame codec msg marshaller msgID).Header.Revision.Message
          (c.frame codec msg marshaller msgID),
        heap := heap1 } ∧ err = none) := by
  unfold clientConns.Broadcast at h
  cases hid : codec.ID marshaller msg with
  | error e =>
    simp only [hid, Outcome.ok.injEq, Prod.mk.injEq] at h
    exact Or.inl ⟨e, rfl, h.1.symm, h.2.symm⟩
  | ok msgID =>
    simp only [hid] at h
    obtain ⟨heap1, h1, h2⟩ := Outcome.bind_eq_ok h
    simp only [Outcome.ok.injEq, Prod.mk.injEq] at h2
    exact Or.inr ⟨msgID, heap1, rfl, h1, h2.1.symm, h2.2.symm⟩

/-- Calls other than `Deliver` leave the received revisions and the receive
channel alone. -/
theorem clientStep_received [DecidableEq Msg] [DecidableEq Mar] {codec : Codec Msg Mar} {c c1 : clientConns Msg Mar}
    {op : ClientOp Msg Mar} (hop : ∀ env header msg, op ≠ .deliver env header msg)
    (h : clientStep codec c op = .ok c1) :
    c1.receivedMsgs = c.receivedMsgs ∧ c1.recvCh = c.recvCh := by
  cases op with
  | add =>
    simp only [clientStep] at h
    obtain ⟨r, h1, h2⟩ := Outcome.bind_eq_ok h
    obtain ⟨heap1, _, rfl⟩ := client_Add_eq_ok h1
    simp only [Outcome.ok.injEq] at h2
    subst h2
    exact ⟨rfl, rfl⟩
  | remove ch =>
    simp only [clientStep] at h
    rcases client_Remove_eq_ok h with rfl | ⟨ch2, heap1, _, _, rfl⟩
    · exact ⟨rfl, rfl⟩
    · exact ⟨rfl, rfl⟩
  | broadcast msg marshaller =>
    simp only [clientStep] at h
    obtain ⟨r, h1, h2⟩ := Outcome.bind_eq_ok h
    simp only [Outcome.ok.injEq] at h2
    subst h2
    obtain ⟨c2, err⟩ := r
    rcases client_Broadcast_eq_ok h1 with ⟨e, _, rfl, _⟩ | ⟨msgID, heap1, _, _, rfl, _⟩
    · exact ⟨rfl, rfl⟩
    · exact ⟨rfl, rfl⟩
  | deliver env header msg => exact absurd rfl (hop env header msg)
  | reorder conns sentMsgs =>
    simp only [clientStep] at h
    by_cases hp : conns.Perm c.conns ∧ sentMsgs.Perm c.sentMsgs
    · simp only [hp, and_self, if_true, Outcome.ok.injEq] at h
      subst h
      exact ⟨rfl, rfl⟩
    · simp only [hp, if_false, Outcome.ok.injEq] at h
      subst h
      exact ⟨rfl, rfl⟩

theorem clientStep_deliver [DecidableEq Msg] [DecidableEq Mar] {codec : Codec Msg Mar} {c c1 : clientConns Msg Mar}
    {env : SelectEnv} {header : wire.Header} {msg : Msg}
    (h : clientStep codec c (.deliver env header msg) = .ok c1) :
    ∃ err, c.Deliver env header msg = .ok (c1, err) := by
  simp only [clientStep] at h
  obtain ⟨r, h1, h2⟩ := Outcome.bind_eq_ok h
  simp only [Outcome.ok.injEq] at h2
  subst h2
  exact ⟨r.2, h1⟩

theorem forwarded_cons [DecidableEq Msg] [DecidableEq Mar] {codec : Codec Msg Mar} {c c1 : clientConns Msg Mar}
    {op : ClientOp Msg Mar} (h : clientStep codec c op = .ok c1) (ops : List (ClientOp Msg Mar)) :
    forwarded codec c (op :: ops) = forwardedBy c op ++ forwarded codec c1 ops := by
  simp only [forwarded, h]

theorem indicesFor_append (k : revDescriptor) (fs gs : List (wire.Header × Msg)) :
    indicesFor k (fs ++ gs) = indicesFor k fs ++ indicesFor k gs := by
  simp [indicesFor, List.filter_append]

theorem forwardedBelow_step [DecidableEq Msg] [DecidableEq Mar] {codec : Codec Msg Mar} {c c1 : clientConns Msg Mar}
    {op : ClientOp Msg Mar} {fs : List (wire.Header × Msg)} (hinv : ForwardedBelow c fs)
    (h : clientStep codec c op = .ok c1) :
    ForwardedBelow c1 (fs ++ forwardedBy c op) ∧
    c1.recvCh = c.recvCh ++ (forwardedBy c op).map Prod.snd := by
  by_cases hop : ∀ env header msg, op ≠ .deliver env header msg
  · obtain ⟨hr, hch⟩ := clientStep_received hop h
    have : forwardedBy c op = [] := by
      cases op with
      | deliver env header msg => exact absurd rfl (hop env header msg)
      | add => rfl
      | remove ch => rfl
      | broadcast msg marshaller => rfl
      | reorder conns sentMsgs => rfl
    rw [this, List.append_nil]
    refine ⟨fun k => ?_, by simp [hch]⟩
    rw [hr]
    exact hinv k
  · have : ∃ env header msg, op = .deliver env header msg := by
      by_contra hn
      exact hop fun env header msg e => hn ⟨env, header, msg, e⟩
    obtain ⟨env, header, msg, rfl⟩ := this
    obtain ⟨err, hd⟩ := clientStep_deliver h
    simp only [forwardedBy]
    rcases Deliver_spec hd with ⟨_, hf, rfl, _⟩ | ⟨hdrop, rfl, _, _⟩
    · simp only [hf, Bool.false_eq_true, if_false, List.append_nil, List.map_nil]
      exact ⟨hinv, trivial⟩
    · have hlt := client_drops_eq_false.mp hdrop
      have hbound : ∀ k, ∀ i ∈ indicesFor k fs, ∃ r,
          GoMap.lookup (GoMap.store c.receivedMsgs (headerKey header) header.Revision.Index) k
            = some r ∧ i ≤ r ∧ (k = headerKey header → i < header.Revision.Index) := by
        intro k i hi
        obtain ⟨r, hr, hle⟩ := (hinv k).2 i hi
        by_cases hk : k = headerKey header
        · subst hk
          have := hlt r hr
          exact ⟨_, GoMap.lookup_store_self _ _ _, Nat.le_of_lt (Nat.lt_of_le_of_lt hle this),
            fun _ => Nat.lt_of_le_of_lt hle this⟩
        · exact ⟨r, by rw [GoMap.lookup_store_ne _ _ _ _ hk, hr], hle, fun e => absurd e hk⟩
      cases hf : c.forwards env header with
      | false =>
        simp only [Bool.false_eq_true, if_false, List.append_nil, List.map_nil]
        refine ⟨fun k => ⟨(hinv k).1, fun i hi => ?_⟩, trivial⟩
        obtain ⟨r, hr, hle, _⟩ := hbound k i hi
        exact ⟨r, hr, hle⟩
      | true =>
        simp only [if_true, List.map_cons, List.map_nil]
        refine ⟨fun k => ?_, trivial⟩
        rw [indicesFor_append]
        by_cases hk : headerKey header = k
        · subst hk
          have hone : indicesFor (headerKey header) [(header, msg)]
              = [header.Revision.Index] := by
            simp [indicesFor]
          rw [hone]
          refine ⟨List.pairwise_append.mpr ⟨(hinv _).1, List.pairwise_singleton _ _, ?_⟩, ?_⟩
          · intro i hi j hj
            obtain ⟨_, _, _, hlt1⟩ := hbound _ i hi
            rw [List.mem_singleton.mp hj]
            exact hlt1 rfl
          · intro i hi
            rcases List.mem_append.mp hi with hi | hi
            · obtain ⟨r, hr, hle, _⟩ := hbound _ i hi
              exact ⟨r, hr, hle⟩
            · rw [List.mem_singleton.mp hi]
              exact ⟨_, GoMap.lookup_store_self _ _ _, Nat.le_refl _⟩
        · have hnone : indicesFor k [(header, msg)] = [] := by
            simp [indicesFor, hk]
          rw [hnone, List.append_nil]
          refine ⟨(hinv k).1, fun i hi => ?_⟩
          obtain ⟨r, hr, hle, _⟩ := hbound k i hi
          exact ⟨r, hr, hle⟩

theorem forwardedBelow_run [DecidableEq Msg] [DecidableEq Mar] {codec : Codec Msg Mar} (ops : List (ClientOp Msg Mar)) :
    ∀ {c c1 : clientConns Msg Mar} {fs : List (wire.Header × Msg)}, ForwardedBelow c fs →
      clientRun codec c ops = .ok c1 →
      ForwardedBelow c1 (fs ++ forwarded codec c ops) ∧
      c1.recvCh = c.recvCh ++ (forwarded codec c ops).map Prod.snd := by
  induction ops with
  | nil =>
    intro c c1 fs hinv h
    simp only [clientRun, Outcome.ok.injEq] at h
    subst h
    simpa [forwarded] using hinv
  | cons op ops ih =>
    intro c c1 fs hinv h
    obtain ⟨c0, h0, h1⟩ := Outcome.bind_eq_ok h
    obtain ⟨hinv0, hch0⟩ := forwardedBelow_step hinv h0
    obtain ⟨hinv1, hch1⟩ := ih hinv0 h1
    rw [forwarded_cons h0]
    exact ⟨by rwa [List.append_assoc] at hinv1, by rw [hch1, hch0]; simp⟩

end ClientSteps

/-! ## Deduplication on the client -/

/-- C12: after any sequence of calls on a client store (calls of `Deliver`
from any connections, in any order, and any other calls in between), the
receive channel holds what it held before followed by the forwarded messages;
for every key the Index values of the forwarded headers increase strictly, so
each (key, Index) was forwarded at most once; and once a call of `Deliver`
for a header has returned, every further call for the same header returns
without error and forwards nothing. -/
theorem forwards_each_revision_once {Msg Mar : Type} [DecidableEq Msg] [DecidableEq Mar]
    (codec : Codec Msg Mar) (c c1 : clientConns Msg Mar) (ops : List (ClientOp Msg Mar))
    (k : revDescriptor) (h : clientRun codec c ops = .ok c1) :
    c1.recvCh = c.recvCh ++ (forwarded codec c ops).map Prod.snd ∧
    List.Pairwise (· < ·) (indicesFor k (forwarded codec c ops)) ∧
    (∀ i, (indicesFor k (forwarded codec c ops)).count i ≤ 1) ∧
    (∀ env env1 header msg msg1 c2 err, c.Deliver env header msg = .ok (c2, err) →
      c2.Deliver env1 header msg1 = .ok (c2, false)) := by
  have hinv : ForwardedBelow c ([] : List (wire.Header × Msg)) :=
    fun k => ⟨List.Pairwise.nil, fun i hi => by simp [indicesFor] at hi⟩
  obtain ⟨hfb, hch⟩ := forwardedBelow_run ops hinv h
  rw [List.nil_append] at hfb
  have hpw := (hfb k).1
  refine ⟨hch, hpw, ?_, ?_⟩
  · have hnd : (indicesFor k (forwarded codec c ops)).Nodup :=
      List.Pairwise.imp (fun hlt => Nat.ne_of_lt hlt) hpw
    exact fun i => List.nodup_iff_count_le_one.mp hnd i
  · intro env env1 header msg msg1 c2 err hd
    have hdrop : c2.drops header = true := by
      rcases Deliver_spec hd with ⟨hdr, _, rfl, _⟩ | ⟨_, rfl, _, _⟩
      · exact hdr
      · exact client_drops_eq_true.mpr ⟨_, GoMap.lookup_store_self _ _ _, Nat.le_refl _⟩
    simp [clientConns.Deliver, hdrop]

theorem forwards_each_revision_once_witness :
    clientRun sampleCodec sampleClient
        [.deliver sampleEnv (sampleHeader 7 0) "test1", .deliver sampleEnv (sampleHeader 7 0) "test1"]
      = .ok (sampleReceived ["test1"]) ∧
    (sampleReceived ["test1"]).recvCh = sampleClient.recvCh ++
      (forwarded sampleCodec sampleClient
        [.deliver sampleEnv (sampleHeader 7 0) "test1",
         .deliver sampleEnv (sampleHeader 7 0) "test1"]).map Prod.snd ∧
    List.Pairwise (· < ·) (indicesFor (headerKey (sampleHeader 7 0))
      (forwarded sampleCodec sampleClient
        [.deliver sampleEnv (sampleHeader 7 0) "test1",
         .deliver sampleEnv (sampleHeader 7 0) "test1"])) ∧
    (∀ i, (indicesFor (headerKey (sampleHeader 7 0))
      (forwarded sampleCodec sampleClient
        [.deliver sampleEnv (sampleHeader 7 0) "test1",
         .deliver sampleEnv (sampleHeader 7 0) "test1"])).count i ≤ 1) ∧
    (∀ env env1 header msg msg1 c2 err, sampleClient.Deliver env header msg = .ok (c2, err) →
      c2.Deliver env1 header msg1 = .ok (c2, false)) :=
  ⟨by decide,
    forwards_each_revision_once sampleCodec sampleClient (sampleReceived ["test1"])
      [.deliver sampleEnv (sampleHeader 7 0) "test1", .deliver sampleEnv (sampleHeader 7 0) "test1"]
      (headerKey (sampleHeader 7 0)) (by decide)⟩

/-- C13: on a fresh client store, `Deliver` of a header with Index 0 under a
cancelled context and a receive channel that cannot accept returns the
context's error and forwards nothing, yet the store records revision 0 for
the key; a later `Deliver` of the same header, with a context that is not
cancelled and a channel that can accept, is dropped, so the message is never
forwarded. -/
theorem Deliver_records_unforwarded_revision :
    sampleClient.Deliver cancelledEnv (sampleHeader 7 0) "test1"
      = .ok (sampleReceived [], true) ∧
    (sampleReceived []).recvCh = [] ∧
    GoMap.lookup (sampleReceived []).receivedMsgs (headerKey (sampleHeader 7 0)) = some 0 ∧
    (sampleReceived []).Deliver sampleEnv (sampleHeader 7 0) "test1"
      = .ok (sampleReceived [], false) := by
  decide

/-- C14, as stated, fails: with a cancelled context and a receive channel that
can accept, the `select` may take the case of the context; `Deliver` then
returns the context's error although the channel could accept. -/
theorem Deliver_fails_though_channel_accepts :
    sampleClient.drops (sampleHeader 7 0) = false ∧ racingEnv.ctxDone = true ∧
    racingEnv.canAccept = true ∧
    sampleClient.Deliver racingEnv (sampleHeader 7 0) "test1" = .ok (sampleReceived [], true) := by
  decide

/-- C14, amended: for a header that the dedup rule does not drop, under a
cancelled context and a receive channel that cannot accept `Deliver` returns
the context's error and forwards nothing; and whenever `Deliver` returns an
error the context is cancelled, nothing was forwarded, and either the channel
could not accept or the `select` took the case of the context. -/
theorem Deliver_error_is_cancellation {Msg Mar : Type} (c : clientConns Msg Mar)
    (env : SelectEnv) (header : wire.Header) (msg : Msg) (hnd : c.drops header = false) :
    (env.ctxDone = true → env.canAccept = false →
      c.Deliver env header msg = .ok ({ c with
        receivedMsgs := GoMap.store c.receivedMsgs (headerKey header) header.Revision.Index },
        true)) ∧
    (∀ c1, c.Deliver env header msg = .ok (c1, true) →
      env.ctxDone = true ∧ c1.recvCh = c.recvCh ∧
      (env.canAccept = false ∨ env.pickSend = false)) := by
  refine ⟨fun hctx hacc => ?_, fun c1 h => ?_⟩
  · simp [clientConns.Deliver, hnd, hctx, hacc]
  · rcases Deliver_spec h with ⟨_, _, _, he⟩ | ⟨_, rfl, he, hc⟩
    · cases he
    · have hf : c.forwards env header = false := by
        cases hfw : c.forwards env header with
        | false => rfl
        | true => rw [hfw] at he; cases he
      refine ⟨hc rfl, by simp [hf], ?_⟩
      unfold clientConns.forwards at hf
      rw [hnd, hc rfl] at hf
      cases hacc : env.canAccept with
      | false => exact Or.inl rfl
      | true =>
        rw [hacc] at hf
        exact Or.inr (by simpa using hf)

theorem Deliver_error_is_cancellation_witness :
    sampleClient.drops (sampleHeader 7 0) = false ∧
    (cancelledEnv.ctxDone = true → cancelledEnv.canAccept = false →
      sampleClient.Deliver cancelledEnv (sampleHeader 7 0) "test1" = .ok ({ sampleClient with
        receivedMsgs := GoMap.store sampleClient.receivedMsgs (headerKey (sampleHeader 7 0))
          (sampleHeader 7 0).Revision.Index },
        true)) ∧
    (∀ c1, sampleClient.Deliver cancelledEnv (sampleHeader 7 0) "test1" = .ok (c1, true) →
      cancelledEnv.ctxDone = true ∧ c1.recvCh = sampleClient.recvCh ∧
      (cancelledEnv.canAccept = false ∨ cancelledEnv.pickSend = false)) :=
  ⟨by decide,
    Deliver_error_is_cancellation sampleClient cancelledEnv (sampleHeader 7 0) "test1"
      (by decide)⟩

/-! ## Publishing -/

section Publishing

variable {Msg Mar : Type}

theorem published_cons [DecidableEq Msg] [DecidableEq Mar] {codec : Codec Msg Mar}
    {c c1 : clientConns Msg Mar} {op : ClientOp Msg Mar} (h : clientStep codec c op = .ok c1)
    (ops : List (ClientOp Msg Mar)) :
    published codec c (op :: ops) = publishedBy codec c op ++ published codec c1 ops := by
  simp only [published, h]

theorem indicesOf_append (d : wire.MessageDescriptor) (fs gs : List (msgToSend Msg Mar)) :
    indicesOf d (fs ++ gs) = indicesOf d fs ++ indicesOf d gs := by
  simp [indicesOf, List.filter_append]

/-- What a call does to the published frames: nothing, a reordering, or the
overwrite by the frame of a `Broadcast` that returned without error. -/
theorem clientStep_sentMsgs [DecidableEq Msg] [DecidableEq Mar] {codec : Codec Msg Mar}
    {c c1 : clientConns Msg Mar} {op : ClientOp Msg Mar} (h : clientStep codec c op = .ok c1) :
    (c1.sentMsgs.Perm c.sentMsgs ∧ publishedBy codec c op = []) ∨
    ∃ msg marshaller msgID, codec.ID marshaller msg = .ok msgID ∧
      publishedBy codec c op = [c.frame codec msg marshaller msgID] ∧
      c1.sentMsgs = GoMap.store c.sentMsgs
        (c.frame codec msg marshaller msgID).Header.Revision.Message
        (c.frame codec msg marshaller msgID) := by
  cases op with
  | add =>
    simp only [clientStep] at h
    obtain ⟨r, h1, h2⟩ := Outcome.bind_eq_ok h
    obtain ⟨heap1, _, rfl⟩ := client_Add_eq_ok h1
    simp only [Outcome.ok.injEq] at h2
    subst h2
    exact Or.inl ⟨List.Perm.refl _, rfl⟩
  | remove ch =>
    simp only [clientStep] at h
    rcases client_Remove_eq_ok h with rfl | ⟨ch2, heap1, _, _, rfl⟩
    · exact Or.inl ⟨List.Perm.refl _, rfl⟩
    · exact Or.inl ⟨List.Perm.refl _, rfl⟩
  | broadcast msg marshaller =>
    simp only [clientStep] at h
    obtain ⟨r, h1, h2⟩ := Outcome.bind_eq_ok h
    simp only [Outcome.ok.injEq] at h2
    subst h2
    obtain ⟨c2, err⟩ := r
    rcases client_Broadcast_eq_ok h1 with ⟨e, hid, rfl, _⟩ | ⟨msgID, heap1, hid, _, rfl, _⟩
    · exact Or.inl ⟨List.Perm.refl _, by simp [publishedBy, hid]⟩
    · exact Or.inr ⟨msg, marshaller, msgID, hid, by simp [publishedBy, hid], rfl⟩
  | deliver env header msg =>
    obtain ⟨err, hd⟩ := clientStep_deliver h
    rcases Deliver_spec hd with ⟨_, _, rfl, _⟩ | ⟨_, rfl, _, _⟩
    · exact Or.inl ⟨List.Perm.refl _, rfl⟩
    · exact Or.inl ⟨List.Perm.refl _, rfl⟩
  | reorder conns sentMsgs =>
    simp only [clientStep] at h
    by_cases hp : conns.Perm c.conns ∧ sentMsgs.Perm c.sentMsgs
    · simp only [hp, and_self, if_true, Outcome.ok.injEq] at h
      subst h
      exact Or.inl ⟨hp.2, rfl⟩
    · simp only [hp, if_false, Outcome.ok.injEq] at h
      subst h
      exact Or.inl ⟨List.Perm.refl _, rfl⟩

theorem nextIndex_of_publishedUpTo {c : clientConns Msg Mar} {fs : List (msgToSend Msg Mar)}
    (hinv : PublishedUpTo c fs) (d : wire.MessageDescriptor) :
    c.nextIndex d = (indicesOf d fs).length % 2 ^ 64 := by
  have h2 := (hinv.2 d).2
  unfold clientConns.nextIndex
  cases hl : GoMap.lookup c.sentMsgs d with
  | none =>
    rw [hl] at h2
    by_cases hn : (indicesOf d fs).length = 0
    · simp [hn]
    · simp [hn] at h2
  | some prev =>
    rw [hl] at h2
    by_cases hn : (indicesOf d fs).length = 0
    · simp [hn] at h2
    · simp only [Option.map_some', hn, if_false, Option.some.injEq] at h2
      simp only
      rw [h2, Nat.mod_add_mod]
      congr 1
      omega

theorem publishedUpTo_step [DecidableEq Msg] [DecidableEq Mar] {codec : Codec Msg Mar}
    {c c1 : clientConns Msg Mar} {op : ClientOp Msg Mar} {fs : List (msgToSend Msg Mar)}
    (hinv : PublishedUpTo c fs) (h : clientStep codec c op = .ok c1) :
    PublishedUpTo c1 (fs ++ publishedBy codec c op) := by
  rcases clientStep_sentMsgs h with ⟨hp, hnone⟩ | ⟨msg, marshaller, msgID, _, hone, hst⟩
  · rw [hnone, List.append_nil]
    have hnd1 : (GoMap.keys c1.sentMsgs).Nodup :=
      (List.Perm.nodup_iff (hp.map Prod.fst)).mpr hinv.1
    refine ⟨hnd1, fun d => ?_⟩
    rw [GoMap.lookup_perm hp hnd1 d]
    exact hinv.2 d
  · rw [hone]
    unfold PublishedUpTo
    rw [hst]
    refine ⟨GoMap.nodup_keys_store hinv.1 _ _, fun d => ?_⟩
    rw [indicesOf_append]
    by_cases hd : (c.frame codec msg marshaller msgID).Header.Revision.Message = d
    · have hidx : (c.frame codec msg marshaller msgID).Header.Revision.Index
          = (indicesOf d fs).length % 2 ^ 64 := by
        rw [← nextIndex_of_publishedUpTo hinv d, ← hd]
        rfl
      have hsingle : indicesOf d [c.frame codec msg marshaller msgID]
          = [(indicesOf d fs).length % 2 ^ 64] := by
        simp [indicesOf, hd, hidx]
      rw [hsingle, hd, GoMap.lookup_store_self]
      refine ⟨?_, ?_⟩
      · rw [List.length_append, List.length_singleton, List.range_succ, List.map_append,
          ← (hinv.2 d).1]
        rfl
      · simp [hidx]
    · have hnone : indicesOf d [c.frame codec msg marshaller msgID] = [] := by
        simp [indicesOf, hd]
      rw [hnone, List.append_nil, GoMap.lookup_store_ne _ _ _ _ (Ne.symm hd)]
      exact hinv.2 d

theorem publishedUpTo_run [DecidableEq Msg] [DecidableEq Mar] {codec : Codec Msg Mar}
    (ops : List (ClientOp Msg Mar)) :
    ∀ {c c1 : clientConns Msg Mar} {fs : List (msgToSend Msg Mar)}, PublishedUpTo c fs →
      clientRun codec c ops = .ok c1 → PublishedUpTo c1 (fs ++ published codec c ops) := by
  induction ops with
  | nil =>
    intro c c1 fs hinv h
    simp only [clientRun, Outcome.ok.injEq] at h
    subst h
    simpa [published] using hinv
  | cons op ops ih =>
    intro c c1 fs hinv h
    obtain ⟨c0, h0, h1⟩ := Outcome.bind_eq_ok h
    have := ih (publishedUpTo_step hinv h0) h1
    rwa [List.append_assoc, ← published_cons h0] at this

theorem publishedUpTo_new (clientID : wire.PeerID) :
    PublishedUpTo (newClientConns clientID : clientConns Msg Mar) [] :=
  ⟨List.nodup_nil, fun _ => ⟨rfl, rfl⟩⟩

/-- C15: after any sequence of calls on a fresh client store (calls of
`Broadcast` interleaved with `Add`, `Remove`, `Deliver` and reorderings of the
maps), the frames that the calls of `Broadcast` that returned without error
built for a descriptor `d` carry, in order, the Index values 0, 1, 2, ...
taken modulo 2^64; so the publish of `d` at position `n` (counted from 0,
with `n` below 2^64) carries Index `n`, whatever was published under other
descriptors and whatever the payloads were.  Every call of `Broadcast` gives
Index 0 when the store has no frame for the descriptor and the stored Index
plus one (as `uint64`) otherwise. -/
theorem publish_indices_count_up [DecidableEq Msg] [DecidableEq Mar] (codec : Codec Msg Mar)
    (clientID : wire.PeerID) (ops : List (ClientOp Msg Mar)) (c1 : clientConns Msg Mar)
    (d : wire.MessageDescriptor)
    (h : clientRun codec (newClientConns clientID) ops = .ok c1) :
    indicesOf d (published codec (newClientConns clientID) ops) =
      (List.range (indicesOf d (published codec (newClientConns clientID) ops)).length).map
        (fun i => i % 2 ^ 64) ∧
    (∀ n, n < (indicesOf d (published codec (newClientConns clientID) ops)).length →
      n < 2 ^ 64 → (indicesOf d (published codec (newClientConns clientID) ops))[n]? = some n) ∧
    (∀ (c : clientConns Msg Mar) msg marshaller msgID,
      (GoMap.lookup c.sentMsgs
          { Namespace := marshallerToNamespace codec marshaller, MessageID := msgID } = none →
        (c.frame codec msg marshaller msgID).Header.Revision.Index = 0) ∧
      (∀ prevMsg, GoMap.lookup c.sentMsgs
          { Namespace := marshallerToNamespace codec marshaller, MessageID := msgID }
            = some prevMsg →
        (c.frame codec msg marshaller msgID).Header.Revision.Index
          = (prevMsg.Header.Revision.Index + 1) % 2 ^ 64)) := by
  have hinv := publishedUpTo_run ops (publishedUpTo_new clientID) h
  rw [List.nil_append] at hinv
  have hlist := (hinv.2 d).1
  refine ⟨hlist, fun n hn hlt => ?_, fun c msg marshaller msgID =>
    ⟨fun hl => by simp [clientConns.frame, clientConns.nextIndex, hl],
      fun prevMsg hl => by simp [clientConns.frame, clientConns.nextIndex, hl]⟩⟩
  rw [hlist, List.getElem?_map, List.getElem?_range (by simpa using hn)]
  show some (n % 2 ^ 64) = some n
  rw [Nat.mod_eq_of_lt hlt]

end Publishing

theorem publish_indices_count_up_witness :
    clientRun sampleCodec (newClientConns (samplePeer 5))
        [.broadcast (sampleMsg 1) (), .broadcast (sampleMsg 1) ()] = .ok samplePublished ∧
    indicesOf (sampleFrame 1 0).Header.Revision.Message
        (published sampleCodec (newClientConns (samplePeer 5))
          [.broadcast (sampleMsg 1) (), .broadcast (sampleMsg 1) ()]) = [0, 1] ∧
    indicesOf (sampleFrame 1 0).Header.Revision.Message
        (published sampleCodec (newClientConns (samplePeer 5))
          [.broadcast (sampleMsg 1) (), .broadcast (sampleMsg 1) ()]) =
      (List.range (indicesOf (sampleFrame 1 0).Header.Revision.Message
        (published sampleCodec (newClientConns (samplePeer 5))
          [.broadcast (sampleMsg 1) (), .broadcast (sampleMsg 1) ()])).length).map
        (fun i => i % 2 ^ 64) ∧
    (∀ n, n < (indicesOf (sampleFrame 1 0).Header.Revision.Message
        (published sampleCodec (newClientConns (samplePeer 5))
          [.broadcast (sampleMsg 1) (), .broadcast (sampleMsg 1) ()])).length →
      n < 2 ^ 64 →
      (indicesOf (sampleFrame 1 0).Header.Revision.Message
        (published sampleCodec (newClientConns (samplePeer 5))
          [.broadcast (sampleMsg 1) (), .broadcast (sampleMsg 1) ()]))[n]? = some n) ∧
    (∀ (c : clientConns String Unit) msg marshaller msgID,
      (GoMap.lookup c.sentMsgs
          { Namespace := marshallerToNamespace sampleCodec marshaller, MessageID := msgID } = none →
        (c.frame sampleCodec msg marshaller msgID).Header.Revision.Index = 0) ∧
      (∀ prevMsg, GoMap.lookup c.sentMsgs
          { Namespace := marshallerToNamespace sampleCodec marshaller, MessageID := msgID }
            = some prevMsg →
        (c.frame sampleCodec msg marshaller msgID).Header.Revision.Index
          = (prevMsg.Header.Revision.Index + 1) % 2 ^ 64)) :=
  ⟨by decide, by decide,
    publish_indices_count_up sampleCodec (samplePeer 5)
      [.broadcast (sampleMsg 1) (), .broadcast (sampleMsg 1) ()] samplePublished
      (sampleFrame 1 0).Header.Revision.Message (by decide)⟩

/-- C16: in a well-formed client store, for a message whose `ID` the codec
resolves to `msgID`, `Broadcast` returns without error; the frame it builds
has the client's own PeerID as Sender, the descriptor made of the codec's
namespace and `msgID`, the next Index of that descriptor, the message and the
codec; afterwards the descriptor is mapped to that frame, every other
descriptor, the received revisions, the registry and the receive channel are
as before, every registered queue holds its old frames followed by the new
frame, once, and every other channel is untouched. -/
theorem Broadcast_publishes_frame {Msg Mar : Type} (codec : Codec Msg Mar)
    (c : clientConns Msg Mar) (msg : Msg) (marshaller : Mar) (msgID : Nat) (hwf : c.WF)
    (hid : codec.ID marshaller msg = .ok msgID) :
    ∃ c1 send, c.Broadcast codec msg marshaller = .ok (c1, none) ∧
      send.Header = { Sender := c.clientID,
                      Revision := { Message := { Namespace := marshallerToNamespace codec marshaller,
                                                 MessageID := msgID },
                                    Index := c.nextIndex
                                      { Namespace := marshallerToNamespace codec marshaller,
                                        MessageID := msgID } } } ∧
      send.Message = msg ∧ send.Marshaller = marshaller ∧
      GoMap.lookup c1.sentMsgs
        { Namespace := marshallerToNamespace codec marshaller, MessageID := msgID } = some send ∧
      (∀ d, d ≠ { Namespace := marshallerToNamespace codec marshaller, MessageID := msgID } →
        GoMap.lookup c1.sentMsgs d = GoMap.lookup c.sentMsgs d) ∧
      c1.receivedMsgs = c.receivedMsgs ∧ c1.conns = c.conns ∧ c1.recvCh = c.recvCh ∧
      c1.clientID = c.clientID ∧ c1.heap.length = c.heap.length ∧
      (∀ ch ch2, GoMap.lookup c.conns ch = some ch2 →
        ∃ q, c.heap[ch2]? = some q ∧ c1.heap[ch2]? = some (q.push send)) ∧
      (∀ i, (∀ ch ch2, GoMap.lookup c.conns ch = some ch2 → ch2 ≠ i) →
        c1.heap[i]? = c.heap[i]?) := by
  obtain ⟨hk, _, _, hlive⟩ := hwf
  have hvk : GoMap.values c.conns = GoMap.keys c.conns := by
    unfold GoMap.values GoMap.keys
    exact List.map_congr_left fun kv hkv => (hlive kv hkv).1
  have hnd : (GoMap.values c.conns).Nodup := hvk ▸ hk
  have hl : ∀ ch ∈ GoMap.values c.conns, chanLive c.heap ch = true := by
    intro ch hm
    obtain ⟨kv, hkv, rfl⟩ := List.mem_map.mp hm
    exact (hlive kv hkv).2
  obtain ⟨heap1, hs, hlen, hin, hout⟩ :=
    chanSendEach_live (c.frame codec msg marshaller msgID) _ c.heap hnd hl
  refine ⟨{ c with
      sentMsgs := GoMap.store c.sentMsgs
        (c.frame codec msg marshaller msgID).Header.Revision.Message
        (c.frame codec msg marshaller msgID),
      heap := heap1 }, c.frame codec msg marshaller msgID, ?_, rfl, rfl, rfl,
    GoMap.lookup_store_self _ _ _, fun d hd => GoMap.lookup_store_ne _ _ _ _ hd, rfl, rfl, rfl,
    rfl, hlen, ?_, ?_⟩
  · simp only [clientConns.Broadcast, hid, hs, Outcome.bind]
  · intro ch ch2 hc
    have hm : ch2 ∈ GoMap.values c.conns :=
      List.mem_map.mpr ⟨(ch, ch2), GoMap.mem_of_lookup hc, rfl⟩
    obtain ⟨q, hq, _, _⟩ := chanLive_iff.mp (hl ch2 hm)
    refine ⟨q, hq, ?_⟩
    show heap1[ch2]? = _
    rw [hin _ hm, hq]
    rfl
  · intro i hi
    apply hout
    intro hm
    obtain ⟨kv, hkv, rfl⟩ := List.mem_map.mp hm
    exact hi kv.1 kv.2 (GoMap.lookup_of_mem hk hkv) rfl

theorem Broadcast_publishes_frame_witness :
    samplePublishedAttached.WF ∧ sampleCodec.ID () (sampleMsg 1) = .ok 1 ∧
    ∃ c1 send, samplePublishedAttached.Broadcast sampleCodec (sampleMsg 1) () = .ok (c1, none) ∧
      send.Header = { Sender := samplePublishedAttached.clientID,
                      Revision := { Message := { Namespace := marshallerToNamespace sampleCodec (),
                                                 MessageID := 1 },
                                    Index := samplePublishedAttached.nextIndex
                                      { Namespace := marshallerToNamespace sampleCodec (),
                                        MessageID := 1 } } } ∧
      send.Message = sampleMsg 1 ∧ send.Marshaller = () ∧
      GoMap.lookup c1.sentMsgs
        { Namespace := marshallerToNamespace sampleCodec (), MessageID := 1 } = some send ∧
      (∀ d, d ≠ { Namespace := marshallerToNamespace sampleCodec (), MessageID := 1 } →
        GoMap.lookup c1.sentMsgs d = GoMap.lookup samplePublishedAttached.sentMsgs d) ∧
      c1.receivedMsgs = samplePublishedAttached.receivedMsgs ∧
      c1.conns = samplePublishedAttached.conns ∧ c1.recvCh = samplePublishedAttached.recvCh ∧
      c1.clientID = samplePublishedAttached.clientID ∧
      c1.heap.length = samplePublishedAttached.heap.length ∧
      (∀ ch ch2, GoMap.lookup samplePublishedAttached.conns ch = some ch2 →
        ∃ q, samplePublishedAttached.heap[ch2]? = some q ∧
          c1.heap[ch2]? = some (q.push send)) ∧
      (∀ i, (∀ ch ch2, GoMap.lookup samplePublishedAttached.conns ch = some ch2 → ch2 ≠ i) →
        c1.heap[i]? = samplePublishedAttached.heap[i]?) :=
  ⟨by decide, rfl,
    Broadcast_publishes_frame sampleCodec samplePublishedAttached (sampleMsg 1) () 1
      (by decide) rfl⟩

/-! ## Add on a client store with more than ten published descriptors -/

/-- C17: eleven publishes of messages with distinct IDs lead from a fresh
client store to a well-formed store with eleven published descriptors; on
that store `Add` does not return: the eleventh send on the new queue, which
has room for ten frames and no receiver before `Add` returns, waits forever. -/
theorem client_Add_blocks_on_eleven_descriptors :
    clientRun sampleCodec (newClientConns (samplePeer 5)) elevenPublishes = .ok elevenPublished ∧
    elevenPublished.WF ∧ (GoMap.values elevenPublished.sentMsgs).length = 11 ∧
    elevenPublished.Add = .fault .blocked := by
  decide

/-! ## Handshake and dialer -/

/-- C18, as stated, fails: when the context of the dialer is cancelled by the
time `resonance.RunClient` returns `errSameServer`, the dialer returns the
context's error, not nil. -/
theorem dialer_returns_context_error_on_self_loop :
    dialerAfterRun true (some .sameServer) false = .returns (some .cancelled) ∧
    dialerAfterRun true (some .sameServer) false ≠ .returns none := by
  decide

/-- C18, amended: when the own Hello was sent and a Hello `helloMsg` was
received, the handshake ends with `errSameServer` exactly when the PeerID of
`helloMsg` is the own PeerID, and then the registry, the store and every queue
are as before (nothing was attached).  The dialer that gets `errSameServer`
never retries: it returns nil when its context is not cancelled and the
context's error when it is. -/
theorem self_loop_is_detected (serverID : wire.PeerID) (conn conn1 : Connection)
    (helloMsg : wire.Hello) (conns : serverConns)
    (hsend : conn.send (.hello { PeerID := serverID, IsServer := true, Requests := [] })
      = some conn1) :
    (helloMsg.PeerID = serverID →
      runServerConnHandshake serverID conn (some (.hello helloMsg)) conns
        = .ok (conns, conn1, .failed .sameServer)) ∧
    (∀ c1 cn res, runServerConnHandshake serverID conn (some (.hello helloMsg)) conns
        = .ok (c1, cn, res) →
      (res = .failed .sameServer ↔ helloMsg.PeerID = serverID)) ∧
    (∀ ctxErr sleeping, dialerAfterRun ctxErr (some .sameServer) sleeping
        = .returns (if ctxErr then some .cancelled else none)) ∧
    (∀ sleeping, dialerAfterRun false (some .sameServer) sleeping = .returns none) := by
  refine ⟨fun he => ?_, fun c1 cn res h => ?_, fun ctxErr sleeping => ?_, fun sleeping => rfl⟩
  · simp [runServerConnHandshake, hsend, he]
  · by_cases he : helloMsg.PeerID = serverID
    · simp only [runServerConnHandshake, hsend, he, if_true, Outcome.ok.injEq,
        Prod.mk.injEq] at h
      simp [← h.2.2, he]
    · simp only [runServerConnHandshake, hsend, he, if_false] at h
      obtain ⟨r, _, h2⟩ := Outcome.bind_eq_ok h
      simp only [Outcome.ok.injEq, Prod.mk.injEq] at h2
      simp [← h2.2.2, he]
  · cases ctxErr <;> simp [dialerAfterRun]

theorem self_loop_is_detected_witness :
    freshConnection.send (.hello { PeerID := samplePeer 9, IsServer := true, Requests := [] })
      = some greetedConnection ∧
    (sampleHello.PeerID = samplePeer 9 →
      runServerConnHandshake (samplePeer 9) freshConnection (some (.hello sampleHello)) sampleConns
        = .ok (sampleConns, greetedConnection, .failed .sameServer)) ∧
    (∀ c1 cn res,
      runServerConnHandshake (samplePeer 9) freshConnection (some (.hello sampleHello)) sampleConns
        = .ok (c1, cn, res) →
      (res = .failed .sameServer ↔ sampleHello.PeerID = samplePeer 9)) ∧
    (∀ ctxErr sleeping, dialerAfterRun ctxErr (some .sameServer) sleeping
        = .returns (if ctxErr then some .cancelled else none)) ∧
    (∀ sleeping, dialerAfterRun false (some .sameServer) sleeping = .returns none) :=
  ⟨by decide,
    self_loop_is_detected (samplePeer 9) freshConnection greetedConnection sampleHello
      sampleConns (by decide)⟩

/-! ## The client receiver -/

/-- C19: in one round of the client receiver that received the header
`headerMsg`: if the codec table has no entry for the namespace of the header,
the round ends the connection with the error "no marshaller for namespace" and
the store is as before (`Deliver` is not called); if the table binds the
namespace to the codec `msgM`, the payload is received with `msgM`, and the
message it decodes to is handed, with the header, to `Deliver`, whose result
is the result of the round; if receiving with `msgM` fails the connection
ends with that error and the store is as before. -/
theorem receiver_uses_registered_codec {Msg Mar : Type} (marshallers : GoMap wire.Namespace Mar)
    (c : clientConns Msg Mar) (env : SelectEnv) (headerMsg : wire.Header)
    (recvMsg : Mar → Option Msg) :
    (GoMap.lookup marshallers headerMsg.Revision.Message.Namespace = none →
      clientReceiverStep marshallers c env (some (.header headerMsg)) recvMsg
        = .ok (c, some (.noMarshaller headerMsg.Revision.Message.Namespace))) ∧
    (∀ msgM, GoMap.lookup marshallers headerMsg.Revision.Message.Namespace = some msgM →
      (∀ msg, recvMsg msgM = some msg →
        clientReceiverStep marshallers c env (some (.header headerMsg)) recvMsg
          = (c.Deliver env headerMsg msg).bind fun r =>
              .ok (r.1, if r.2 then some .cancelled else none)) ∧
      (recvMsg msgM = none →
        clientReceiverStep marshallers c env (some (.header headerMsg)) recvMsg
          = .ok (c, some .transport))) := by
  refine ⟨fun h => ?_, fun msgM h => ⟨fun msg hm => ?_, fun hm => ?_⟩⟩
  · simp [clientReceiverStep, h]
  · simp [clientReceiverStep, h, hm]
  · simp [clientReceiverStep, h, hm]

/-! ## Namespaces -/

theorem append_dot_inj (p1 n1 p2 n2 : List Char) (h1 : '.' ∉ n1) (h2 : '.' ∉ n2)
    (h : p1 ++ '.' :: n1 = p2 ++ '.' :: n2) : p1 = p2 ∧ n1 = n2 := by
  have hr : n1.reverse ++ '.' :: p1.reverse = n2.reverse ++ '.' :: p2.reverse := by
    have := congrArg List.reverse h
    simpa using this
  have key : ∀ (a c b d : List Char), '.' ∉ a → '.' ∉ c → a ++ '.' :: b = c ++ '.' :: d →
      a = c ∧ b = d := by
    intro a
    induction a with
    | nil =>
      intro c b d _ hc he
      cases c with
      | nil => simpa using he
      | cons x c =>
        simp only [List.nil_append, List.cons_append, List.cons.injEq] at he
        exact absurd (he.1 ▸ List.mem_cons_self _ _) hc
    | cons x a ih =>
      intro c b d ha hc he
      cases c with
      | nil =>
        simp only [List.nil_append, List.cons_append, List.cons.injEq] at he
        exact absurd (he.1 ▸ List.mem_cons_self _ _) ha
      | cons y c =>
        simp only [List.cons_append, List.cons.injEq] at he
        obtain ⟨e1, e2⟩ := ih c b d (fun hm => ha (List.mem_cons_of_mem _ hm))
          (fun hm => hc (List.mem_cons_of_mem _ hm)) he.2
        exact ⟨by rw [he.1, e1], e2⟩
  obtain ⟨e1, e2⟩ := key n1.reverse n2.reverse p1.reverse p2.reverse (by simpa using h1)
    (by simpa using h2) hr
  exact ⟨List.reverse_injective e2, List.reverse_injective e1⟩

/-- C20, as stated, fails: codecs of two different pointer types get the same
namespace, a single dot, because a pointer type has neither a package path
nor a name. -/
theorem pointer_codecs_share_namespace :
    typeCodec.typeOf (.pointer (.defined "example.com/app/wire1" "Marshaller"))
      ≠ typeCodec.typeOf (.pointer (.defined "example.com/app/wire2" "Marshaller")) ∧
    marshallerToNamespace typeCodec (.pointer (.defined "example.com/app/wire1" "Marshaller"))
      = marshallerToNamespace typeCodec
          (.pointer (.defined "example.com/app/wire2" "Marshaller")) ∧
    marshallerToNamespace typeCodec (.pointer (.defined "example.com/app/wire1" "Marshaller"))
      = "." := by
  decide

/-- C20, amended: the namespace of a codec is the package path of its type, a
dot, and the name of its type; codecs of the same type get equal namespaces;
codecs of two different types declared at package level whose names contain
no dot get different namespaces; and every codec of a pointer type gets the
namespace that is a single dot. -/
theorem namespace_of_codec_type {Msg Mar : Type} (codec : Codec Msg Mar) (m1 m2 : Mar) :
    marshallerToNamespace codec m1
      = (codec.typeOf m1).PkgPath ++ "." ++ (codec.typeOf m1).Name ∧
    (codec.typeOf m1 = codec.typeOf m2 →
      marshallerToNamespace codec m1 = marshallerToNamespace codec m2) ∧
    (∀ p1 n1 p2 n2, codec.typeOf m1 = .defined p1 n1 → codec.typeOf m2 = .defined p2 n2 →
      '.' ∉ n1.data → '.' ∉ n2.data → codec.typeOf m1 ≠ codec.typeOf m2 →
      marshallerToNamespace codec m1 ≠ marshallerToNamespace codec m2) ∧
    (∀ elem, codec.typeOf m1 = .pointer elem → marshallerToNamespace codec m1 = ".") := by
  refine ⟨rfl, fun h => ?_, fun p1 n1 p2 n2 h1 h2 hn1 hn2 hne heq => ?_, fun elem h => ?_⟩
  · simp only [marshallerToNamespace, h]
  · apply hne
    simp only [marshallerToNamespace, h1, h2, GoType.PkgPath, GoType.Name] at heq
    have hd := congrArg String.data heq
    simp only [String.data_append] at hd
    rw [List.append_assoc, List.append_assoc] at hd
    obtain ⟨e1, e2⟩ := append_dot_inj p1.data n1.data p2.data n2.data hn1 hn2 hd
    rw [h1, h2, String.ext e1, String.ext e2]
  · simp only [marshallerToNamespace, h, GoType.PkgPath, GoType.Name]
    decide

theorem broadcasts_map_broadcast (es : List revision) :
    broadcasts (es.map Op.broadcast) = es := by
  induction es with
  | nil => rfl
  | cons e es ih => simp [broadcasts, ih]

theorem run_broadcasts_of_no_conns (es : List revision) :
    ∀ c : serverConns, c.conns = [] →
      ∃ c1, run c (es.map Op.broadcast) = .ok c1 ∧ c1.conns = [] ∧ c1.heap = c.heap := by
  induction es with
  | nil => intro c hc; exact ⟨c, rfl, hc, rfl⟩
  | cons e es ih =>
    intro c hc
    have hstep : ∃ c0, step c (.broadcast e) = .ok c0 ∧ c0.conns = [] ∧ c0.heap = c.heap := by
      by_cases hd : c.drops e = true
      · exact ⟨c, Broadcast_of_drops hd, hc, rfl⟩
      · have hd0 : c.drops e = false := by simpa using hd
        refine ⟨{ conns := c.conns, msgs := GoMap.store c.msgs e.key e, heap := c.heap }, ?_, hc, rfl⟩
        show c.Broadcast e = _
        rw [Broadcast_of_not_drops hd0, hc]
        rfl
    obtain ⟨c0, h0, hc0, hh0⟩ := hstep
    obtain ⟨c1, h1, hc1, hh1⟩ := ih c0 hc0
    refine ⟨c1, ?_, hc1, hh1.trans hh0⟩
    simp only [List.map_cons, run, h0, Outcome.bind]
    exact h1

theorem storeIsMax_lookup_unique {msgs msgs1 : GoMap revDescriptor revision}
    {bs bs1 : List revision} (h : StoreIsMax msgs bs) (h1 : StoreIsMax msgs1 bs1)
    (hmem : ∀ e, e ∈ bs ↔ e ∈ bs1)
    (huniq : ∀ e1 ∈ bs, ∀ e2 ∈ bs, e1.key = e2.key →
      e1.Header.Revision.Index = e2.Header.Revision.Index → e1 = e2) (k : revDescriptor) :
    GoMap.lookup msgs k = GoMap.lookup msgs1 k := by
  obtain ⟨ha, hn⟩ := h.2 k
  obtain ⟨ha1, hn1⟩ := h1.2 k
  cases hv : GoMap.lookup msgs k with
  | none =>
    cases hv1 : GoMap.lookup msgs1 k with
    | none => rfl
    | some v1 =>
      obtain ⟨hm1, hk1, _⟩ := ha1 v1 hv1
      exact absurd hk1 (hn hv v1 ((hmem v1).2 hm1))
  | some v =>
    obtain ⟨hm, hk, hmax⟩ := ha v hv
    cases hv1 : GoMap.lookup msgs1 k with
    | none => exact absurd hk (hn1 hv1 v ((hmem v).1 hm))
    | some v1 =>
      obtain ⟨hm1, hk1, hmax1⟩ := ha1 v1 hv1
      have hle := hmax v1 ((hmem v1).2 hm1) hk1
      have hle1 := hmax1 v ((hmem v).1 hm) hk
      rw [huniq v hm v1 ((hmem v1).2 hm1) (hk.trans hk1.symm) (Nat.le_antisymm hle1 hle)]

/-- C24: Broadcasting a list of entries onto an empty serverConns always
completes, and when any two entries of the list with the same key and the same
Index are equal, broadcasting any permutation of the list yields the same
store map: both stores bind every key to the same entry, which is an entry of
the list with that key and of greatest Index among them, and a key is unbound
exactly when no entry of the list has it. -/
theorem store_is_order_independent (es es1 : List revision) (hperm : es.Perm es1)
    (huniq : ∀ e1 ∈ es, ∀ e2 ∈ es, e1.key = e2.key →
      e1.Header.Revision.Index = e2.Header.Revision.Index → e1 = e2) :
    ∃ c c1, run newServerConns (es.map Op.broadcast) = .ok c ∧
      run newServerConns (es1.map Op.broadcast) = .ok c1 ∧
      ∀ k, GoMap.lookup c.msgs k = GoMap.lookup c1.msgs k ∧
        (∀ v, GoMap.lookup c.msgs k = some v → v ∈ es ∧ v.key = k ∧
          ∀ e ∈ es, e.key = k → e.Header.Revision.Index ≤ v.Header.Revision.Index) ∧
        (GoMap.lookup c.msgs k = none → ∀ e ∈ es, e.key ≠ k) := by
  obtain ⟨c, hc, _, _⟩ := run_broadcasts_of_no_conns es newServerConns rfl
  obtain ⟨c1, hc1, _, _⟩ := run_broadcasts_of_no_conns es1 newServerConns rfl
  have hs := storeIsMax_run _ storeIsMax_new hc
  have hs1 := storeIsMax_run _ storeIsMax_new hc1
  rw [List.nil_append, broadcasts_map_broadcast] at hs hs1
  refine ⟨c, c1, hc, hc1, fun k => ⟨?_, hs.2 k⟩⟩
  exact storeIsMax_lookup_unique hs hs1 (fun e => hperm.mem_iff) huniq k

/-- Witness of C24: three entries, two of them revisions of one key, broadcast
in two different orders. -/
theorem store_is_order_independent_witness :
    [sampleEntry "ns" 1 7 3 [1], sampleEntry "ns" 1 7 5 [2], sampleEntry "ns" 2 7 0 []].Perm
      [sampleEntry "ns" 1 7 5 [2], sampleEntry "ns" 2 7 0 [], sampleEntry "ns" 1 7 3 [1]] ∧
    ∃ c c1, run newServerConns
        ([sampleEntry "ns" 1 7 3 [1], sampleEntry "ns" 1 7 5 [2],
          sampleEntry "ns" 2 7 0 []].map Op.broadcast) = .ok c ∧
      run newServerConns
        ([sampleEntry "ns" 1 7 5 [2], sampleEntry "ns" 2 7 0 [],
          sampleEntry "ns" 1 7 3 [1]].map Op.broadcast) = .ok c1 ∧
      ∀ k, GoMap.lookup c.msgs k = GoMap.lookup c1.msgs k ∧
        (∀ v, GoMap.lookup c.msgs k = some v →
          v ∈ [sampleEntry "ns" 1 7 3 [1], sampleEntry "ns" 1 7 5 [2], sampleEntry "ns" 2 7 0 []] ∧
          v.key = k ∧
          ∀ e ∈ [sampleEntry "ns" 1 7 3 [1], sampleEntry "ns" 1 7 5 [2],
              sampleEntry "ns" 2 7 0 []], e.key = k →
            e.Header.Revision.Index ≤ v.Header.Revision.Index) ∧
        (GoMap.lookup c.msgs k = none →
          ∀ e ∈ [sampleEntry "ns" 1 7 3 [1], sampleEntry "ns" 1 7 5 [2],
              sampleEntry "ns" 2 7 0 []], e.key ≠ k) :=
  ⟨by decide, store_is_order_independent _ _ (by decide) (by decide)⟩

theorem drops_congr (c : serverConns) {e1 e2 : revision} (hh : e1.Header = e2.Header) :
    c.drops e1 = c.drops e2 := by
  simp only [serverConns.drops, revision.key, hh]

/-- C25: Two entries with equal Headers get the same accept-or-drop decision
from serverConns.Broadcast whatever their Content is: the guard is the same for
both, a dropped entry leaves the state as it is, and in a well-formed state an
accepted entry is stored under its key and appended to every registered queue
as the very entry that was passed, so with its Content unchanged. -/
theorem payload_is_never_inspected (c : serverConns) (e1 e2 : revision)
    (hh : e1.Header = e2.Header) :
    c.drops e1 = c.drops e2 ∧
    (c.drops e1 = true → c.Broadcast e1 = .ok c ∧ c.Broadcast e2 = .ok c) ∧
    (c.WF → c.drops e1 = false →
      ∃ c1 c2, c.Broadcast e1 = .ok c1 ∧ c.Broadcast e2 = .ok c2 ∧
        GoMap.lookup c1.msgs e1.key = some e1 ∧ GoMap.lookup c2.msgs e1.key = some e2 ∧
        (∀ v, GoMap.lookup c1.msgs e1.key = some v → v.Content = e1.Content) ∧
        (∀ v, GoMap.lookup c2.msgs e1.key = some v → v.Content = e2.Content) ∧
        ∀ ch ∈ (GoMap.values c.conns).map chans.Sender,
          c1.heap[ch]? = (c.heap[ch]?).map (fun q => q.push e1) ∧
          c2.heap[ch]? = (c.heap[ch]?).map (fun q => q.push e2)) := by
  have hd := drops_congr c hh
  have hk : e2.key = e1.key := by simp only [revision.key, hh]
  refine ⟨hd, fun h => ⟨Broadcast_of_drops h, Broadcast_of_drops (hd ▸ h)⟩, fun hwf h => ?_⟩
  have h2 : c.drops e2 = false := hd ▸ h
  obtain ⟨c1, hc1⟩ := Broadcast_accept_returns hwf h
  obtain ⟨c2, hc2⟩ := Broadcast_accept_returns hwf h2
  obtain ⟨_, hm1, _, hq1, _⟩ := Broadcast_accept_spec hwf h hc1
  obtain ⟨_, hm2, _, hq2, _⟩ := Broadcast_accept_spec hwf h2 hc2
  have hl1 : GoMap.lookup c1.msgs e1.key = some e1 := by
    rw [hm1]; exact GoMap.lookup_store_self _ _ _
  have hl2 : GoMap.lookup c2.msgs e1.key = some e2 := by
    rw [hm2, hk]; exact GoMap.lookup_store_self _ _ _
  refine ⟨c1, c2, hc1, hc2, hl1, hl2, ?_, ?_, fun ch hch => ⟨hq1 ch hch, hq2 ch hch⟩⟩
  · intro v hv; rw [hl1] at hv; rw [← Option.some.inj hv]
  · intro v hv; rw [hl2] at hv; rw [← Option.some.inj hv]

/-- Witness of C25: two entries of index 5 with one Header and different
payloads, on a store that holds index 3 under their key. -/
theorem payload_is_never_inspected_witness :
    (sampleEntry "ns" 1 7 5 [2]).Header = (sampleEntry "ns" 1 7 5 [9, 9]).Header ∧
    (sampleEntry "ns" 1 7 5 [2]).Content ≠ (sampleEntry "ns" 1 7 5 [9, 9]).Content ∧
    sampleConns.WF ∧ sampleConns.drops (sampleEntry "ns" 1 7 5 [2]) = false ∧
    ∃ c1 c2, sampleConns.Broadcast (sampleEntry "ns" 1 7 5 [2]) = .ok c1 ∧
      sampleConns.Broadcast (sampleEntry "ns" 1 7 5 [9, 9]) = .ok c2 ∧
      GoMap.lookup c1.msgs (sampleEntry "ns" 1 7 5 [2]).key = some (sampleEntry "ns" 1 7 5 [2]) ∧
      GoMap.lookup c2.msgs (sampleEntry "ns" 1 7 5 [2]).key
        = some (sampleEntry "ns" 1 7 5 [9, 9]) :=
  ⟨by decide, by decide, by decide, by decide,
    let ⟨c1, c2, h1, h2, h3, h4, _⟩ :=
      (payload_is_never_inspected sampleConns (sampleEntry "ns" 1 7 5 [2])
        (sampleEntry "ns" 1 7 5 [9, 9]) (by decide)).2.2 (by decide) (by decide)
    ⟨c1, c2, h1, h2, h3, h4⟩⟩

theorem chanSendAll_blocked {α : Type} {ch : Nat} (vs : List α) :
    ∀ {heap : List (Chan α)} {q : Chan α}, heap[ch]? = some q → q.closed = false →
      q.draining = false → q.sent.length ≤ q.cap → q.cap < q.sent.length + vs.length →
      chanSendAll heap ch vs = .fault .blocked := by
  induction vs with
  | nil => intro heap q _ _ _ h1 h2; simp at h2; omega
  | cons v vs ih =>
    intro heap q hq hopen hdr hle hlt
    simp only [List.length_cons] at hlt
    by_cases hfull : q.sent.length < q.cap
    · have hs := chanSend_of_room v hq hopen (Or.inr hfull)
      have hq1 : (heap.set ch (q.push v))[ch]? = some (q.push v) :=
        List.getElem?_set_self (lt_of_getElem?_eq_some hq)
      have h1 := ih hq1 hopen hdr (by simp [Chan.push]; omega) (by simp [Chan.push]; omega)
      simp only [chanSendAll, hs, Outcome.bind, h1]
    · simp [chanSendAll, chanSend, hq, hopen, hdr, hfull, Outcome.bind]

theorem chanSendAll_fresh {α : Type} (heap : List (Chan α)) (ch cap : Nat) (vs : List α)
    (hnew : heap[ch]? = some (Chan.make cap)) :
    (vs.length ≤ cap → ∃ heap1, chanSendAll heap ch vs = .ok heap1) ∧
    (cap < vs.length → chanSendAll heap ch vs = .fault .blocked) :=
  ⟨fun h => chanSendAll_of_room vs hnew rfl (by simpa [Chan.make] using h),
   fun h => chanSendAll_blocked vs hnew rfl rfl (by simp [Chan.make])
     (by simpa [Chan.make] using h)⟩

theorem Add_blocks_of_no_room {c : serverConns} (hwf : c.WF) (peerID : wire.PeerID)
    (hfull : 10 < (GoMap.values c.msgs).length) : c.Add peerID = .fault .blocked := by
  have hnew : (c.heap ++ [Chan.make 10])[c.heap.length]? = some (Chan.make 10 : Chan revision) :=
    List.getElem?_concat_length _ _
  unfold serverConns.Add
  cases hl : GoMap.lookup c.conns peerID with
  | none =>
    simp only [Outcome.bind, (chanSendAll_fresh _ _ 10 (GoMap.values c.msgs) hnew).2 hfull]
  | some old =>
    have hlive := (((WF_iff c).mp hwf).2.2.2.2 peerID old hl).2
    obtain ⟨q, hq, hopen, _⟩ := chanLive_iff.mp hlive
    have hlt := chanLive_lt hlive
    have hq0 : (c.heap ++ [Chan.make 10])[old.Sender]? = some q := by
      rw [List.getElem?_append_left hlt, hq]
    have hnew1 : ((c.heap ++ [Chan.make 10]).set old.Sender { q with closed := true })[c.heap.length]?
        = some (Chan.make 10 : Chan revision) := by
      rw [List.getElem?_set_ne (Nat.ne_of_lt hlt), hnew]
    simp only [chanClose_of_open hq0 hopen, Outcome.bind,
      (chanSendAll_fresh _ _ 10 (GoMap.values c.msgs) hnew1).2 hfull]

theorem client_Add_of_room {Msg Mar : Type} (c : clientConns Msg Mar)
    (hroom : (GoMap.values c.sentMsgs).length ≤ 10) : ∃ r, c.Add = .ok r := by
  have hnew : (c.heap ++ [Chan.make 10])[c.heap.length]?
      = some (Chan.make 10 : Chan (msgToSend Msg Mar)) := List.getElem?_concat_length _ _
  obtain ⟨heap1, h1⟩ := (chanSendAll_fresh _ _ 10 (GoMap.values c.sentMsgs) hnew).1 hroom
  exact ⟨_, by simp only [clientConns.Add, h1, Outcome.bind]; rfl⟩

theorem client_Add_blocks_of_no_room {Msg Mar : Type} (c : clientConns Msg Mar)
    (hfull : 10 < (GoMap.values c.sentMsgs).length) : c.Add = .fault .blocked := by
  have hnew : (c.heap ++ [Chan.make 10])[c.heap.length]?
      = some (Chan.make 10 : Chan (msgToSend Msg Mar)) := List.getElem?_concat_length _ _
  simp only [clientConns.Add, (chanSendAll_fresh _ _ 10 (GoMap.values c.sentMsgs) hnew).2 hfull,
    Outcome.bind]

theorem client_Add_queue {Msg Mar : Type} {c : clientConns Msg Mar}
    {r : clientConns Msg Mar × Nat} (h : c.Add = .ok r) :
    r.2 = c.heap.length ∧ r.1.heap.length = c.heap.length + 1 ∧
    r.1.heap[c.heap.length]? =
      some { cap := 10, sent := GoMap.values c.sentMsgs, closed := false, draining := false } ∧
    (∀ i, i < c.heap.length → r.1.heap[i]? = c.heap[i]?) ∧
    r.1.conns = GoMap.store c.conns c.heap.length c.heap.length ∧
    r.1.sentMsgs = c.sentMsgs := by
  obtain ⟨heap1, h1, hr⟩ := client_Add_eq_ok h
  obtain ⟨hlen, hother, hq⟩ := chanSendAll_eq_ok _ h1
  have hnew : (c.heap ++ [Chan.make 10])[c.heap.length]?
      = some (Chan.make 10 : Chan (msgToSend Msg Mar)) := List.getElem?_concat_length _ _
  subst hr
  refine ⟨rfl, by simpa using hlen, ?_, ?_, rfl, rfl⟩
  · simpa [Chan.make] using hq _ hnew
  · intro i hi
    show heap1[i]? = _
    rw [hother i (Nat.ne_of_lt hi), List.getElem?_append_left hi]

/-- C26: With queues of capacity 10 that nobody reads before Add returns, in
a well-formed server state serverConns.Add returns exactly when the store holds
at most 10 entries; when it returns, the new queue holds the whole snapshot, in
store order; with more than 10 entries it waits forever on a send that finds
the queue full.  clientConns.Add behaves the same way with the published
frames: it returns exactly when at most 10 descriptors were published, the new
queue then holds all of them, and with more than 10 it waits forever. -/
theorem Add_completes_iff_snapshot_fits {Msg Mar : Type} (c : serverConns)
    (peerID : wire.PeerID) (cc : clientConns Msg Mar) (hwf : c.WF) :
    ((∃ r, c.Add peerID = .ok r) ↔ (GoMap.values c.msgs).length ≤ 10) ∧
    (∀ r, c.Add peerID = .ok r → r.1.heap[r.2]? =
      some { cap := 10, sent := GoMap.values c.msgs, closed := false, draining := false }) ∧
    (10 < (GoMap.values c.msgs).length → c.Add peerID = .fault .blocked) ∧
    ((∃ r, cc.Add = .ok r) ↔ (GoMap.values cc.sentMsgs).length ≤ 10) ∧
    (∀ r, cc.Add = .ok r → r.1.heap[r.2]? =
      some { cap := 10, sent := GoMap.values cc.sentMsgs, closed := false, draining := false }) ∧
    (10 < (GoMap.values cc.sentMsgs).length → cc.Add = .fault .blocked) := by
  refine ⟨⟨?_, Add_returns_of_room hwf peerID⟩, ?_, Add_blocks_of_no_room hwf peerID,
    ⟨?_, client_Add_of_room cc⟩, ?_, client_Add_blocks_of_no_room cc⟩
  · rintro ⟨r, hr⟩
    by_contra hn
    rw [Add_blocks_of_no_room hwf peerID (by omega)] at hr
    cases hr
  · intro r hr
    have hb : ∀ old, GoMap.lookup c.conns peerID = some old → old.Sender < c.heap.length :=
      fun old ho => chanLive_lt (((WF_iff c).mp hwf).2.2.2.2 peerID old ho).2
    obtain ⟨h2, _, _, _, hq, _⟩ := Add_spec hb hr
    rw [h2]; exact hq
  · rintro ⟨r, hr⟩
    by_contra hn
    rw [client_Add_blocks_of_no_room cc (by omega)] at hr
    cases hr
  · intro r hr
    obtain ⟨h2, _, hq, _⟩ := client_Add_queue hr
    rw [h2]; exact hq

/-- Witness of C26: a server store with one entry and one peer attached, and a
client that published nothing. -/
theorem Add_completes_iff_snapshot_fits_witness :
    sampleConns.WF ∧ (GoMap.values sampleConns.msgs).length ≤ 10 ∧
    ∃ r, sampleConns.Add (samplePeer 8) = .ok r :=
  ⟨by decide, by decide,
    (Add_completes_iff_snapshot_fits sampleConns (samplePeer 8) sampleClient (by decide)).1.2
      (by decide)⟩

/-- C28: When the codec's ID lookup fails for a message, clientConns.Broadcast
returns that error together with the very state it was called on: the
published frames, the registry and every queue are the same, so no frame is
created or replaced and nothing is enqueued; the call adds nothing to the
published frames of a run; and no index is consumed, as every descriptor gets
the same next Index and every later publish behaves as if the failed call had
not happened. -/
theorem Broadcast_failing_ID_changes_nothing {Msg Mar : Type} [DecidableEq Msg]
    [DecidableEq Mar] (codec : Codec Msg Mar) (c : clientConns Msg Mar) (msg : Msg)
    (marshaller : Mar) (err : GoError) (hid : codec.ID marshaller msg = .error err) :
    ∃ c1, c.Broadcast codec msg marshaller = .ok (c1, some err) ∧
      clientStep codec c (.broadcast msg marshaller) = .ok c1 ∧
      c1 = c ∧ c1.sentMsgs = c.sentMsgs ∧ c1.conns = c.conns ∧ c1.heap = c.heap ∧
      publishedBy codec c (.broadcast msg marshaller) = [] ∧
      (∀ d, c1.nextIndex d = c.nextIndex d) ∧
      (∀ msg1 marshaller1, c1.Broadcast codec msg1 marshaller1
        = c.Broadcast codec msg1 marshaller1) := by
  refine ⟨c, ?_, ?_, rfl, rfl, rfl, rfl, ?_, fun _ => rfl, fun _ _ => rfl⟩
  · simp only [clientConns.Broadcast, hid]
  · simp only [clientStep, clientConns.Broadcast, hid, Outcome.bind]
  · simp only [publishedBy, hid]

/-- Witness of C28: the sample codec does not know the empty message; the
client has one published frame and one connection attached. -/
theorem Broadcast_failing_ID_changes_nothing_witness :
    sampleCodec.ID () "" = .error "unknown message type" ∧
    samplePublishedAttached.Broadcast sampleCodec "" ()
      = .ok (samplePublishedAttached, some "unknown message type") :=
  ⟨rfl,
    let ⟨_, h, _, hc, _⟩ := Broadcast_failing_ID_changes_nothing sampleCodec
      samplePublishedAttached "" () "unknown message type" rfl
    hc ▸ h⟩

section ClientInvariant

variable {Msg Mar : Type}

/-- Well-formedness of the client store in terms of `lookup`. -/
theorem client_WF_iff (c : clientConns Msg Mar) :
    c.WF ↔ (GoMap.keys c.conns).Nodup ∧ (GoMap.keys c.sentMsgs).Nodup ∧
      (∀ k v, GoMap.lookup c.sentMsgs k = some v → v.Header.Revision.Message = k) ∧
      (∀ k v, GoMap.lookup c.conns k = some v → v = k ∧ chanLive c.heap v = true) := by
  unfold clientConns.WF
  constructor
  · rintro ⟨h1, h2, h3, h4⟩
    exact ⟨h1, h2, fun k v hv => h3 (k, v) (GoMap.mem_of_lookup hv),
      fun k v hv => h4 (k, v) (GoMap.mem_of_lookup hv)⟩
  · rintro ⟨h1, h2, h3, h4⟩
    exact ⟨h1, h2, fun kv hkv => h3 kv.1 kv.2 (GoMap.lookup_of_mem h2 hkv),
      fun kv hkv => h4 kv.1 kv.2 (GoMap.lookup_of_mem h1 hkv)⟩

theorem client_values_eq_keys {conns : GoMap Nat Nat} (h : ∀ kv ∈ conns, kv.2 = kv.1) :
    GoMap.values conns = GoMap.keys conns := by
  unfold GoMap.values GoMap.keys
  exact List.map_congr_left h

theorem client_queues_live {c : clientConns Msg Mar} (hwf : c.WF) :
    (GoMap.values c.conns).Nodup ∧ ∀ ch ∈ GoMap.values c.conns, chanLive c.heap ch = true := by
  obtain ⟨hk, _, _, hl⟩ := hwf
  refine ⟨by rw [client_values_eq_keys fun kv hkv => (hl kv hkv).1]; exact hk, ?_⟩
  intro ch hm
  obtain ⟨kv, hkv, rfl⟩ := List.mem_map.mp hm
  exact (hl kv hkv).2

/-- What a `Broadcast` of a known message does in a well-formed state. -/
theorem client_Broadcast_spec {codec : Codec Msg Mar} {c : clientConns Msg Mar} (hwf : c.WF)
    (msg : Msg) (marshaller : Mar) {msgID : Nat} (hid : codec.ID marshaller msg = .ok msgID) :
    ∃ heap1, c.Broadcast codec msg marshaller = .ok ({ c with
        sentMsgs := GoMap.store c.sentMsgs
          (c.frame codec msg marshaller msgID).Header.Revision.Message
          (c.frame codec msg marshaller msgID),
        heap := heap1 }, none) ∧
      heap1.length = c.heap.length ∧
      (∀ ch ∈ GoMap.values c.conns,
        heap1[ch]? = (c.heap[ch]?).map fun q => q.push (c.frame codec msg marshaller msgID)) ∧
      (∀ i, i ∉ GoMap.values c.conns → heap1[i]? = c.heap[i]?) := by
  obtain ⟨hnd, hl⟩ := client_queues_live hwf
  obtain ⟨heap1, hs, hlen, hin, hout⟩ :=
    chanSendEach_live (c.frame codec msg marshaller msgID) _ c.heap hnd hl
  refine ⟨heap1, ?_, hlen, hin, hout⟩
  simp only [clientConns.Broadcast, hid, hs, Outcome.bind]

theorem client_Deliver_frame {c : clientConns Msg Mar} {env : SelectEnv} {header : wire.Header}
    {msg : Msg} {r : clientConns Msg Mar × Bool} (h : c.Deliver env header msg = .ok r) :
    r.1.conns = c.conns ∧ r.1.sentMsgs = c.sentMsgs ∧ r.1.heap = c.heap := by
  obtain ⟨c1, err⟩ := r
  rcases Deliver_spec h with ⟨_, _, h1, _⟩ | ⟨_, h1, _⟩ <;> subst h1 <;> exact ⟨rfl, rfl, rfl⟩

theorem client_WF_step [DecidableEq Msg] [DecidableEq Mar] {codec : Codec Msg Mar}
    {c c1 : clientConns Msg Mar} {op : ClientOp Msg Mar} (hwf : c.WF)
    (h : clientStep codec c op = .ok c1) : c1.WF := by
  have hwf0 := hwf
  rw [client_WF_iff] at hwf ⊢
  obtain ⟨hk, hm, hf, hlive⟩ := hwf
  cases op with
  | add =>
    simp only [clientStep] at h
    obtain ⟨r, h1, h2⟩ := Outcome.bind_eq_ok h
    simp only [Outcome.ok.injEq] at h2
    subst h2
    obtain ⟨hr, hlen, hnew, hother, hconns, hsent⟩ := client_Add_queue h1
    show (GoMap.keys r.1.conns).Nodup ∧ (GoMap.keys r.1.sentMsgs).Nodup ∧
      (∀ k v, GoMap.lookup r.1.sentMsgs k = some v → v.Header.Revision.Message = k) ∧
      (∀ k v, GoMap.lookup r.1.conns k = some v →
        v = k ∧ chanLive (chanDrain r.1.heap r.2) v = true)
    rw [hconns, hsent]
    refine ⟨GoMap.nodup_keys_store hk _ _, hm, hf, ?_⟩
    intro k v hv
    by_cases hkk : k = c.heap.length
    · subst hkk
      rw [GoMap.lookup_store_self] at hv
      have hv1 := Option.some.inj hv
      subst hv1
      refine ⟨rfl, ?_⟩
      simp [chanLive, chanDrain_getElem?, hr, hnew]
    · rw [GoMap.lookup_store_ne _ _ _ _ hkk] at hv
      obtain ⟨e1, e2⟩ := hlive k v hv
      refine ⟨e1, ?_⟩
      have hlt := chanLive_lt e2
      have : (chanDrain r.1.heap r.2)[v]? = c.heap[v]? := by
        rw [chanDrain_getElem?, hr, if_neg (Nat.ne_of_lt hlt), hother v hlt]
      rw [chanLive_congr this]
      exact e2
  | remove ch =>
    simp only [clientStep] at h
    rcases client_Remove_eq_ok h with rfl | ⟨ch2, heap1, hl, hc, rfl⟩
    · exact ⟨hk, hm, hf, hlive⟩
    · obtain ⟨q, hq, hopen, rfl⟩ := chanClose_eq_ok hc
      have hch : ch2 = ch := (hlive ch ch2 hl).1
      subst hch
      refine ⟨GoMap.nodup_keys_delete hk _, hm, hf, ?_⟩
      intro k v hv
      by_cases hkk : k = ch2
      · subst hkk
        rw [GoMap.lookup_delete_self] at hv
        cases hv
      · rw [GoMap.lookup_delete_ne _ _ _ hkk] at hv
        obtain ⟨e1, e2⟩ := hlive k v hv
        refine ⟨e1, ?_⟩
        have hne : ch2 ≠ v := by rw [e1]; exact Ne.symm hkk
        show chanLive (c.heap.set ch2 { q with closed := true }) v = true
        rw [chanLive_congr (List.getElem?_set_ne hne)]
        exact e2
  | broadcast msg marshaller =>
    simp only [clientStep] at h
    obtain ⟨r, h1, h2⟩ := Outcome.bind_eq_ok h
    simp only [Outcome.ok.injEq] at h2
    subst h2
    cases hid : codec.ID marshaller msg with
    | error e =>
      simp only [clientConns.Broadcast, hid, Outcome.ok.injEq] at h1
      subst h1
      exact ⟨hk, hm, hf, hlive⟩
    | ok msgID =>
      obtain ⟨heap1, hb, hlen, hin, hout⟩ := client_Broadcast_spec hwf0 msg marshaller hid
      rw [hb] at h1
      simp only [Outcome.ok.injEq] at h1
      subst h1
      refine ⟨hk, GoMap.nodup_keys_store hm _ _, ?_, ?_⟩
      · intro k v hv
        by_cases hkk : k = (c.frame codec msg marshaller msgID).Header.Revision.Message
        · subst hkk
          have hv0 : GoMap.lookup (GoMap.store c.sentMsgs
              (c.frame codec msg marshaller msgID).Header.Revision.Message
              (c.frame codec msg marshaller msgID))
              (c.frame codec msg marshaller msgID).Header.Revision.Message = some v := hv
          rw [GoMap.lookup_store_self] at hv0
          rw [← Option.some.inj hv0]
        · have hv0 : GoMap.lookup (GoMap.store c.sentMsgs
              (c.frame codec msg marshaller msgID).Header.Revision.Message
              (c.frame codec msg marshaller msgID)) k = some v := hv
          rw [GoMap.lookup_store_ne _ _ _ _ hkk] at hv0
          exact hf k v hv0
      · intro k v hv
        obtain ⟨e1, e2⟩ := hlive k v hv
        refine ⟨e1, ?_⟩
        show chanLive heap1 v = true
        by_cases hi : v ∈ GoMap.values c.conns
        · unfold chanLive
          rw [hin v hi]
          obtain ⟨q, hq, ho, hd⟩ := chanLive_iff.mp e2
          simp [hq, Chan.push, ho, hd]
        · rw [chanLive_congr (hout v hi)]
          exact e2
  | deliver env header msg =>
    simp only [clientStep] at h
    obtain ⟨r, h1, h2⟩ := Outcome.bind_eq_ok h
    simp only [Outcome.ok.injEq] at h2
    subst h2
    obtain ⟨e1, e2, e3⟩ := client_Deliver_frame h1
    rw [e1, e2, e3]
    exact ⟨hk, hm, hf, hlive⟩
  | reorder conns sentMsgs =>
    simp only [clientStep] at h
    by_cases hp : conns.Perm c.conns ∧ sentMsgs.Perm c.sentMsgs
    · simp only [hp, and_self, if_true, Outcome.ok.injEq] at h
      subst h
      have hk1 : (GoMap.keys conns).Nodup := (List.Perm.nodup_iff (hp.1.map Prod.fst)).mpr hk
      have hm1 : (GoMap.keys sentMsgs).Nodup := (List.Perm.nodup_iff (hp.2.map Prod.fst)).mpr hm
      refine ⟨hk1, hm1, ?_, ?_⟩
      · intro k v hv
        have hv0 : GoMap.lookup sentMsgs k = some v := hv
        rw [GoMap.lookup_perm hp.2 hm1] at hv0
        exact hf k v hv0
      · intro k v hv
        have hv0 : GoMap.lookup conns k = some v := hv
        rw [GoMap.lookup_perm hp.1 hk1] at hv0
        exact hlive k v hv0
    · simp only [hp, if_false, Outcome.ok.injEq] at h
      subst h
      exact ⟨hk, hm, hf, hlive⟩

theorem client_WF_run [DecidableEq Msg] [DecidableEq Mar] {codec : Codec Msg Mar}
    (ops : List (ClientOp Msg Mar)) :
    ∀ {c c1 : clientConns Msg Mar}, c.WF → clientRun codec c ops = .ok c1 → c1.WF := by
  induction ops with
  | nil =>
    intro c c1 hwf h
    simp only [clientRun, Outcome.ok.injEq] at h
    exact h ▸ hwf
  | cons op ops ih =>
    intro c c1 hwf h
    obtain ⟨c0, h0, h1⟩ := Outcome.bind_eq_ok h
    exact ih (client_WF_step hwf h0) h1

theorem client_WF_new (clientID : wire.PeerID) :
    (newClientConns clientID : clientConns Msg Mar).WF := by
  simp [clientConns.WF, newClientConns, GoMap.keys]

end ClientInvariant

theorem Remove_returns {c : serverConns} (hwf : c.WF) (peerID : wire.PeerID) (ch : Nat) :
    ∃ c1, c.Remove peerID ch = .ok c1 := by
  unfold serverConns.Remove
  cases hl : GoMap.lookup c.conns peerID with
  | none => exact ⟨c, rfl⟩
  | some chs =>
    by_cases hr : chs.Receiver = ch
    · obtain ⟨q, hq, hopen, _⟩ := chanLive_iff.mp (((WF_iff c).mp hwf).2.2.2.2 peerID chs hl).2
      exact ⟨_, by simp only [hr, if_true, chanClose_of_open hq hopen, Outcome.bind]; rfl⟩
    · exact ⟨c, by simp only [hr, if_false]⟩

theorem Remove_twice {c c1 : serverConns} {peerID : wire.PeerID} {ch : Nat}
    (h : c.Remove peerID ch = .ok c1) : c1.Remove peerID ch = .ok c1 := by
  rcases Remove_eq_ok h with h1 | ⟨chs, heap1, _, _, _, h1⟩
  · rw [h1]; exact h1 ▸ h
  · subst h1
    simp only [serverConns.Remove, GoMap.lookup_delete_self]

theorem Remove_of_closed {c : serverConns} (hwf : c.WF) (peerID : wire.PeerID) {i : Nat}
    {q : Chan revision} (hq : c.heap[i]? = some q) (hclosed : q.closed = true) :
    c.Remove peerID i = .ok c := by
  unfold serverConns.Remove
  cases hl : GoMap.lookup c.conns peerID with
  | none => rfl
  | some chs =>
    obtain ⟨hr, hlive⟩ := ((WF_iff c).mp hwf).2.2.2.2 peerID chs hl
    by_cases hri : chs.Receiver = i
    · obtain ⟨q1, hq1, hopen, _⟩ := chanLive_iff.mp hlive
      rw [← hr, hri, hq] at hq1
      rw [← Option.some.inj hq1, hclosed] at hopen
      cases hopen
    · simp only [hri, if_false]

theorem step_never_panics {c : serverConns} (hwf : c.WF) (op : Op) :
    step c op ≠ .fault .panic := by
  cases op with
  | add peerID =>
    by_cases hroom : (GoMap.values c.msgs).length ≤ 10
    · obtain ⟨r, hr⟩ := Add_returns_of_room hwf peerID hroom
      simp [step, hr, Outcome.bind]
    · simp [step, Add_blocks_of_no_room hwf peerID (by omega), Outcome.bind]
  | remove peerID ch =>
    obtain ⟨c1, h1⟩ := Remove_returns hwf peerID ch
    simp [step, h1]
  | broadcast e =>
    by_cases hd : c.drops e = true
    · simp [step, Broadcast_of_drops hd]
    · obtain ⟨c1, h1⟩ := Broadcast_accept_returns hwf (by simpa using hd)
      simp [step, h1]
  | reorder conns msgs =>
    simp only [step]
    split <;> simp

theorem Broadcast_returns {c : serverConns} (hwf : c.WF) (e : revision) :
    ∃ c1, c.Broadcast e = .ok c1 := by
  by_cases hd : c.drops e = true
  · exact ⟨c, Broadcast_of_drops hd⟩
  · exact Broadcast_accept_returns hwf (by simpa using hd)

section ClientQueues

variable {Msg Mar : Type}

theorem client_Remove_returns {c : clientConns Msg Mar} (hwf : c.WF) (ch : Nat) :
    ∃ c1, c.Remove ch = .ok c1 := by
  unfold clientConns.Remove
  cases hl : GoMap.lookup c.conns ch with
  | none => exact ⟨c, rfl⟩
  | some ch2 =>
    obtain ⟨q, hq, hopen, _⟩ := chanLive_iff.mp (((client_WF_iff c).mp hwf).2.2.2 ch ch2 hl).2
    exact ⟨_, by simp only [chanClose_of_open hq hopen, Outcome.bind]; rfl⟩

theorem client_Remove_twice {c c1 : clientConns Msg Mar} {ch : Nat}
    (h : c.Remove ch = .ok c1) : c1.Remove ch = .ok c1 := by
  rcases client_Remove_eq_ok h with h1 | ⟨ch2, heap1, _, _, h1⟩
  · rw [h1]; exact h1 ▸ h
  · subst h1
    simp only [clientConns.Remove, GoMap.lookup_delete_self]

theorem client_Remove_of_closed {c : clientConns Msg Mar} (hwf : c.WF) {i : Nat}
    {q : Chan (msgToSend Msg Mar)} (hq : c.heap[i]? = some q) (hclosed : q.closed = true) :
    c.Remove i = .ok c := by
  unfold clientConns.Remove
  cases hl : GoMap.lookup c.conns i with
  | none => rfl
  | some ch2 =>
    obtain ⟨hr, hlive⟩ := ((client_WF_iff c).mp hwf).2.2.2 i ch2 hl
    obtain ⟨q1, hq1, hopen, _⟩ := chanLive_iff.mp hlive
    rw [hr, hq] at hq1
    rw [← Option.some.inj hq1, hclosed] at hopen
    cases hopen

theorem client_Broadcast_returns {codec : Codec Msg Mar} {c : clientConns Msg Mar} (hwf : c.WF)
    (msg : Msg) (marshaller : Mar) : ∃ r, c.Broadcast codec msg marshaller = .ok r := by
  cases hid : codec.ID marshaller msg with
  | error e => exact ⟨(c, some e), by simp only [clientConns.Broadcast, hid]⟩
  | ok msgID =>
    obtain ⟨heap1, hb, _⟩ := client_Broadcast_spec hwf msg marshaller hid
    exact ⟨_, hb⟩

theorem clientStep_never_panics [DecidableEq Msg] [DecidableEq Mar] {codec : Codec Msg Mar}
    {c : clientConns Msg Mar} (hwf : c.WF) (op : ClientOp Msg Mar) :
    clientStep codec c op ≠ .fault .panic := by
  cases op with
  | add =>
    by_cases hroom : (GoMap.values c.sentMsgs).length ≤ 10
    · obtain ⟨r, hr⟩ := client_Add_of_room c hroom
      simp [clientStep, hr, Outcome.bind]
    · simp [clientStep, client_Add_blocks_of_no_room c (by omega), Outcome.bind]
  | remove ch =>
    obtain ⟨c1, h1⟩ := client_Remove_returns hwf ch
    simp [clientStep, h1]
  | broadcast msg marshaller =>
    obtain ⟨r, h1⟩ := @client_Broadcast_returns Msg Mar codec c hwf msg marshaller
    simp [clientStep, h1, Outcome.bind]
  | deliver env header msg =>
    obtain ⟨ctxDone, canAccept, pickSend⟩ := env
    simp only [clientStep, clientConns.Deliver]
    cases c.drops header <;> cases ctxDone <;> cases canAccept <;> cases pickSend <;>
      simp [Outcome.bind]
  | reorder conns sentMsgs =>
    simp only [clientStep]
    split <;> simp

end ClientQueues

/-- C27: In every state that a sequence of Add, Remove and Broadcast steps
reaches from the empty server registry, and in every state that a sequence of
Add, Remove, Broadcast and Deliver calls reaches from a new client store: each
registered queue exists and is open, so a closed queue is not in the registry;
Broadcast returns, hence sends on no closed queue; no step panics, hence none
closes a closed queue; a Remove repeated right after itself changes nothing,
and neither does a Remove of a queue that is closed already. -/
theorem registered_queues_are_open {Msg Mar : Type} [DecidableEq Msg] [DecidableEq Mar]
    (codec : Codec Msg Mar) (ops : List Op) (c : serverConns) (clientID : wire.PeerID)
    (cops : List (ClientOp Msg Mar)) (cc : clientConns Msg Mar)
    (h : run newServerConns ops = .ok c)
    (hc : clientRun codec (newClientConns clientID) cops = .ok cc) :
    ((∀ p chs, GoMap.lookup c.conns p = some chs →
        chs.Receiver = chs.Sender ∧ ∃ q, c.heap[chs.Sender]? = some q ∧ q.closed = false) ∧
      (∀ i q, c.heap[i]? = some q → q.closed = true →
        ∀ p chs, GoMap.lookup c.conns p = some chs → chs.Sender ≠ i ∧ chs.Receiver ≠ i) ∧
      (∀ e, ∃ c1, c.Broadcast e = .ok c1) ∧
      (∀ op, step c op ≠ .fault .panic) ∧
      (∀ p ch c1, c.Remove p ch = .ok c1 → c1.Remove p ch = .ok c1) ∧
      (∀ p i q, c.heap[i]? = some q → q.closed = true → c.Remove p i = .ok c)) ∧
    ((∀ k ch, GoMap.lookup cc.conns k = some ch →
        ch = k ∧ ∃ q, cc.heap[ch]? = some q ∧ q.closed = false) ∧
      (∀ i q, cc.heap[i]? = some q → q.closed = true →
        ∀ k ch, GoMap.lookup cc.conns k = some ch → ch ≠ i ∧ k ≠ i) ∧
      (∀ msg marshaller, ∃ r, cc.Broadcast codec msg marshaller = .ok r) ∧
      (∀ op, clientStep codec cc op ≠ .fault .panic) ∧
      (∀ ch c1, cc.Remove ch = .ok c1 → c1.Remove ch = .ok c1) ∧
      (∀ i q, cc.heap[i]? = some q → q.closed = true → cc.Remove i = .ok cc)) := by
  have hwf : c.WF := WF_run ops WF_new h
  have hcwf : cc.WF := client_WF_run cops (client_WF_new clientID) hc
  have hs := ((WF_iff c).mp hwf).2.2.2.2
  have hcs := ((client_WF_iff cc).mp hcwf).2.2.2
  refine ⟨⟨?_, ?_, Broadcast_returns hwf, step_never_panics hwf, fun _ _ _ => Remove_twice,
    fun p _ _ => Remove_of_closed hwf p⟩,
    ?_, ?_, client_Broadcast_returns hcwf, clientStep_never_panics hcwf,
    fun _ _ => client_Remove_twice, fun _ _ => client_Remove_of_closed hcwf⟩
  · intro p chs hp
    obtain ⟨hr, hl⟩ := hs p chs hp
    obtain ⟨q, hq, hopen, _⟩ := chanLive_iff.mp hl
    exact ⟨hr, q, hq, hopen⟩
  · intro i q hq hclosed p chs hp
    obtain ⟨hr, hl⟩ := hs p chs hp
    obtain ⟨q1, hq1, hopen, _⟩ := chanLive_iff.mp hl
    have hne : chs.Sender ≠ i := by
      intro e
      rw [e, hq] at hq1
      rw [← Option.some.inj hq1, hclosed] at hopen
      cases hopen
    exact ⟨hne, hr ▸ hne⟩
  · intro k ch hk
    obtain ⟨hr, hl⟩ := hcs k ch hk
    obtain ⟨q, hq, hopen, _⟩ := chanLive_iff.mp hl
    exact ⟨hr, q, hq, hopen⟩
  · intro i q hq hclosed k ch hk
    obtain ⟨hr, hl⟩ := hcs k ch hk
    obtain ⟨q1, hq1, hopen, _⟩ := chanLive_iff.mp hl
    have hne : ch ≠ i := by
      intro e
      rw [e, hq] at hq1
      rw [← Option.some.inj hq1, hclosed] at hopen
      cases hopen
    exact ⟨hne, hr ▸ hne⟩

/-- Witness of C27: a server on which a peer attached twice and then detached
(its first queue was closed by the second Add, the second by Remove), and a
client that published a message and attached a connection. -/
theorem registered_queues_are_open_witness :
    run newServerConns sampleDetachOps = .ok sampleDetached ∧
    clientRun sampleCodec (newClientConns (samplePeer 5))
      [.broadcast (sampleMsg 1) (), .add] = .ok sampleOncePublished ∧
    ∀ p, sampleDetached.Remove p 1 = .ok sampleDetached :=
  ⟨by decide, by decide,
    fun p => (registered_queues_are_open sampleCodec sampleDetachOps sampleDetached (samplePeer 5)
      [.broadcast (sampleMsg 1) (), .add] sampleOncePublished (by decide)
      (by decide)).1.2.2.2.2.2 p 1 { cap := 10, sent := [], closed := true, draining := true }
        (by decide) (by decide)⟩

section NewClientProofs

variable {Msg Mar : Type}

theorem messageIDs_eq_ok {codec : Codec Msg Mar} {marshaller : Mar} (ms : List Msg) :
    ∀ {acc ids : List wire.MessageID},
      NewClient.messageIDs codec marshaller acc ms = .ok ids →
      ∃ new, ids = acc ++ new ∧
        List.Forall₂ (fun m id => codec.ID marshaller m = .ok id) ms new := by
  induction ms with
  | nil =>
    intro acc ids h
    simp only [NewClient.messageIDs, Except.ok.injEq] at h
    exact ⟨[], by simp [h], List.Forall₂.nil⟩
  | cons m ms ih =>
    intro acc ids h
    simp only [NewClient.messageIDs] at h
    cases hid : codec.ID marshaller m with
    | error err => simp [hid] at h
    | ok msgID =>
      simp only [hid] at h
      obtain ⟨new, h1, h2⟩ := ih h
      exact ⟨msgID :: new, by simp [h1], List.Forall₂.cons hid h2⟩

/-- The manifest entry of a request. -/
theorem loop_eq_ok {codec : Codec Msg Mar} (rs : List (RequestConfig Msg Mar)) :
    ∀ {marshallers marshallers1 : GoMap wire.Namespace Mar}
      {requests requests1 : List wire.NamespaceRequest},
      NewClient.loop codec marshallers requests rs = .ok (marshallers1, requests1) →
      (∃ new, requests1 = requests ++ new ∧
        List.Forall₂ (fun r req =>
          req.Namespace = marshallerToNamespace codec r.Marshaller ∧
          List.Forall₂ (fun m id => codec.ID r.Marshaller m = .ok id) r.Messages req.MessageIDs)
          rs new) ∧
      ∀ ns, GoMap.lookup marshallers1 ns =
        match GoMap.lookup marshallers ns with
        | some m => some m
        | none => (rs.find? fun r => decide (marshallerToNamespace codec r.Marshaller = ns)).map
            RequestConfig.Marshaller := by
  induction rs with
  | nil =>
    intro marshallers marshallers1 requests requests1 h
    simp only [NewClient.loop, Except.ok.injEq, Prod.mk.injEq] at h
    obtain ⟨h1, h2⟩ := h
    subst h1; subst h2
    refine ⟨⟨[], by simp, List.Forall₂.nil⟩, fun ns => ?_⟩
    cases GoMap.lookup marshallers ns <;> simp
  | cons r rs ih =>
    intro marshallers marshallers1 requests requests1 h
    simp only [NewClient.loop] at h
    cases hids : NewClient.messageIDs codec r.Marshaller [] r.Messages with
    | error err => simp [hids] at h
    | ok ids =>
      simp only [hids] at h
      obtain ⟨⟨new, h1, h2⟩, h3⟩ := ih h
      obtain ⟨new1, e1, e2⟩ := messageIDs_eq_ok r.Messages hids
      simp only [List.nil_append] at e1
      subst e1
      refine ⟨⟨{ Namespace := marshallerToNamespace codec r.Marshaller, MessageIDs := ids } :: new,
        by simp [h1], List.Forall₂.cons ⟨rfl, e2⟩ h2⟩, fun ns => ?_⟩
      rw [h3 ns]
      by_cases hns : marshallerToNamespace codec r.Marshaller = ns
      · subst hns
        cases hl : GoMap.lookup marshallers (marshallerToNamespace codec r.Marshaller) with
        | some m => simp [hl]
        | none => simp [hl, GoMap.lookup_store_self]
      · cases hl : GoMap.lookup marshallers (marshallerToNamespace codec r.Marshaller) with
        | some m =>
          simp only [hl]
          cases GoMap.lookup marshallers ns <;> simp [List.find?, hns]
        | none =>
          simp only [hl, GoMap.lookup_store_ne _ _ _ _ (Ne.symm hns)]
          cases GoMap.lookup marshallers ns <;> simp [List.find?, hns]

theorem NewClient_eq_ok {codec : Codec Msg Mar} {rand : Except GoError wire.PeerID}
    {config : ClientConfig Msg Mar} {client : Client Msg Mar}
    (h : NewClient codec rand config = .ok client) :
    config.Servers ≠ [] ∧ ∃ clientID marshallers requests, rand = .ok clientID ∧
      NewClient.loop codec [] [] config.Requests = .ok (marshallers, requests) ∧
      client = { config := config, requests := requests, marshallers := marshallers,
                 conns := newClientConns clientID } := by
  unfold NewClient at h
  by_cases hs : config.Servers.length = 0
  · simp [hs] at h
  · simp only [hs, if_false] at h
    cases rand with
    | error err => simp at h
    | ok clientID =>
      simp only at h
      cases hl : NewClient.loop codec [] [] config.Requests with
      | error err => simp [hl] at h
      | ok r =>
        obtain ⟨marshallers, requests⟩ := r
        simp only [hl, Except.ok.injEq] at h
        exact ⟨by simpa using hs, clientID, marshallers, requests, rfl, rfl, h.symm⟩

end NewClientProofs

/-- C30: When NewClient succeeds, the Hello the client sends carries the
client's identity and a manifest with one NamespaceRequest per RequestConfig,
in configuration order: the Namespace of each is marshallerToNamespace of the
request's codec and its MessageIDs are the codec's IDs of the request's sample
messages, in order.  The codec table binds a namespace to the codec of the
first request configured with that namespace, and binds no other namespace. -/
theorem NewClient_builds_manifest {Msg Mar : Type} (codec : Codec Msg Mar)
    (rand : Except GoError wire.PeerID) (config : ClientConfig Msg Mar)
    (client : Client Msg Mar) (h : NewClient codec rand config = .ok client) :
    rand = .ok client.hello.PeerID ∧ client.hello.IsServer = false ∧
    client.hello.Requests.length = config.Requests.length ∧
    List.Forall₂ (fun r req =>
      req.Namespace = marshallerToNamespace codec r.Marshaller ∧
      List.Forall₂ (fun m id => codec.ID r.Marshaller m = .ok id) r.Messages req.MessageIDs)
      config.Requests client.hello.Requests ∧
    ∀ ns, GoMap.lookup client.marshallers ns =
      (config.Requests.find? fun r => decide (marshallerToNamespace codec r.Marshaller = ns)).map
        RequestConfig.Marshaller := by
  obtain ⟨_, clientID, marshallers, requests, hr, hl, hc⟩ := NewClient_eq_ok h
  subst hc
  obtain ⟨⟨new, h1, h2⟩, h3⟩ := loop_eq_ok config.Requests hl
  simp only [List.nil_append] at h1
  subst h1
  refine ⟨hr, rfl, h2.length_eq.symm, h2, fun ns => ?_⟩
  rw [h3 ns]
  rfl

/-- Witness of C30: two requests whose codecs share a namespace; the table
keeps the codec of the first. -/
theorem NewClient_builds_manifest_witness :
    NewClient fieldCodec (.ok (samplePeer 5)) sampleConfig = .ok sampleNewClient ∧
    sampleNewClient.hello.Requests.length = 2 ∧
    GoMap.lookup sampleNewClient.marshallers "example.com/app/wire1.Marshaller" = some 0 :=
  ⟨rfl,
    (NewClient_builds_manifest fieldCodec (.ok (samplePeer 5)) sampleConfig sampleNewClient
      rfl).2.2.1,
    by decide⟩

/-- C23: An execution in which a subscriber never receives a message it asked
for.  Eleven messages with pairwise distinct keys are broadcast on a server
with an empty store; a subscriber then connects, with any manifest.  Its
handshake calls Add, which waits forever on the eleventh send of the snapshot
while holding the registry lock: the subscriber gets no queue, and no later
step of the registry completes. -/
theorem subscriber_never_attached_after_eleven_keys :
    run newServerConns elevenBroadcasts = .ok elevenEntries ∧
    (∀ reqs, runServerConnHandshake (samplePeer 1) sampleConnection
      (some (.hello { PeerID := samplePeer 9, IsServer := false, Requests := reqs }))
      elevenEntries = .fault .blocked) ∧
    (∀ ops, run elevenEntries (.add (samplePeer 9) :: ops) = .fault .blocked) ∧
    ∀ ops, run newServerConns (elevenBroadcasts ++ .add (samplePeer 9) :: ops)
      = .fault .blocked := by
  have h0 : run newServerConns elevenBroadcasts = .ok elevenEntries := by decide
  have h1 : elevenEntries.Add (samplePeer 9) = .fault .blocked := by decide
  have h2 : ∀ ops, run elevenEntries (.add (samplePeer 9) :: ops) = .fault .blocked := by
    intro ops
    simp only [run, step, h1, Outcome.bind]
  refine ⟨h0, ?_, h2, ?_⟩
  · intro reqs
    have hs : sampleConnection.send
        (.hello { PeerID := samplePeer 1, IsServer := true, Requests := [] }) ≠ none := by decide
    have hne : samplePeer 9 ≠ samplePeer 1 := by decide
    unfold runServerConnHandshake
    cases hsend : sampleConnection.send
        (.hello { PeerID := samplePeer 1, IsServer := true, Requests := [] }) with
    | none => exact absurd hsend hs
    | some conn1 => simp only [hne, if_false, h1, Outcome.bind]
  · intro ops
    have : ∀ (pre : List Op) (c c1 : serverConns), run c pre = .ok c1 →
        run c (pre ++ .add (samplePeer 9) :: ops) = run c1 (.add (samplePeer 9) :: ops) := by
      intro pre
      induction pre with
      | nil => intro c c1 h; simp only [run, Outcome.ok.injEq] at h; subst h; rfl
      | cons op pre ih =>
        intro c c1 h
        obtain ⟨c0, e0, e1⟩ := Outcome.bind_eq_ok h
        simp only [List.cons_append, run, e0, Outcome.bind]
        exact ih c0 c1 e1
    rw [this _ _ _ h0, h2]

namespace wire

/-! ## Writing into a buffer -/

theorem drop_written (pre b : List (Fin 256)) (k : Nat) :
    List.drop (pre.length + k) (pre ++ b.drop pre.length) = b.drop (pre.length + k) := by
  rw [List.drop_append, List.drop_drop]

theorem written_nil (b : List (Fin 256)) : (b, 0) = written [] b := by
  simp [written]

theorem put_written (src pre b : List (Fin 256)) (hlen : (pre ++ src).length ≤ b.length) :
    put src (written pre b) = some (written (pre ++ src) b) := by
  rw [List.length_append] at hlen
  have h1 : pre.length + src.length ≤ (pre ++ b.drop pre.length).length := by
    rw [List.length_append, List.length_drop]; omega
  unfold put written
  rw [if_pos h1]
  simp only [List.take_left', List.length_append, drop_written]

theorem sub_written {f : List (Fin 256) → Option (List (Fin 256) × Nat)} {enc : List (Fin 256)}
    (hf : ∀ b, enc.length ≤ b.length → f b = some (written enc b))
    (pre b : List (Fin 256)) (hlen : (pre ++ enc).length ≤ b.length) :
    sub f (written pre b) = some (written (pre ++ enc) b) := by
  rw [List.length_append] at hlen
  have h1 : pre.length ≤ (pre ++ b.drop pre.length).length := by
    rw [List.length_append, List.length_drop]; omega
  have h2 : enc.length ≤ (b.drop pre.length).length := by
    rw [List.length_drop]; omega
  unfold sub
  simp only [written] at hf ⊢
  rw [if_pos h1]
  simp only [List.take_left', List.drop_left', hf _ h2, Option.map_some',
    List.length_append, List.drop_drop, List.append_assoc]

/-- The bytes `marshal2` writes. -/
theorem marshal2_written (h : Helpers) (m : MessageDescriptor) (b : List (Fin 256))
    (hlen : (h.UInt64Marshal (h.bytes m.Namespace).length ++ h.bytes m.Namespace ++
      h.UInt64Marshal m.MessageID).length ≤ b.length) :
    marshal2 h m b = some (written
      (h.UInt64Marshal (h.bytes m.Namespace).length ++ h.bytes m.Namespace ++
        h.UInt64Marshal m.MessageID) b) := by
  have hl := hlen
  simp only [List.length_append] at hl
  simp only [marshal2]
  rw [written_nil b, put_written _ _ _ (by simp only [List.length_append, List.length_nil]; omega)]
  simp only [Option.bind_eq_bind, Option.some_bind]
  rw [put_written _ _ _ (by simp only [List.length_append, List.length_nil]; omega)]
  simp only [Option.bind_eq_bind, Option.some_bind]
  rw [put_written _ _ _ (by simp only [List.length_append, List.length_nil]; omega)]
  simp only [List.nil_append]

end wire

namespace wire

theorem marshal2_layout (h : Helpers) (m : MessageDescriptor) (b : List (Fin 256))
    (hlen : (descriptorLayout h m).length ≤ b.length) :
    marshal2 h m b = some (written (descriptorLayout h m) b) :=
  marshal2_written h m b hlen

theorem marshal0_layout (h : Helpers) (m : RevisionDescriptor) (b : List (Fin 256))
    (hlen : (revisionLayout h m).length ≤ b.length) :
    marshal0 h m b = some (written (revisionLayout h m) b) := by
  have hl := hlen
  simp only [revisionLayout, List.length_append] at hl
  simp only [marshal0]
  rw [written_nil b, sub_written (marshal2_layout h m.Message) _ _
    (by simp only [List.length_append, List.length_nil]; omega)]
  simp only [Option.bind_eq_bind, Option.some_bind]
  rw [put_written _ _ _ (by simp only [List.length_append, List.length_nil]; omega)]
  simp only [List.nil_append, revisionLayout]

theorem headerLayout_eq (h : Helpers) (m : Header) :
    headerLayout h m = m.Sender.val ++ revisionLayout h m.Revision := by
  simp only [headerLayout, revisionLayout, descriptorLayout, List.append_assoc]

theorem marshal1_layout (h : Helpers) (m : Header) (b : List (Fin 256))
    (hlen : (headerLayout h m).length ≤ b.length) :
    marshal1 h m b = some (written (headerLayout h m) b) := by
  have hl := hlen
  rw [headerLayout_eq] at hl ⊢
  simp only [List.length_append] at hl
  simp only [marshal1]
  rw [written_nil b, put_written _ _ _ (by simp only [List.length_append, List.length_nil]; omega)]
  simp only [Option.bind_eq_bind, Option.some_bind]
  rw [sub_written (marshal0_layout h m.Revision) _ _
    (by simp only [List.length_append, List.length_nil]; omega)]
  simp only [List.nil_append]

theorem marshalIDs_layout (h : Helpers) (ids : List MessageID) :
    ∀ (pre b : List (Fin 256)), (pre ++ ids.flatMap h.UInt64Marshal).length ≤ b.length →
      marshalIDs h ids (written pre b) = some (written (pre ++ ids.flatMap h.UInt64Marshal) b) := by
  induction ids with
  | nil => intro pre b _; simp [marshalIDs]
  | cons id ids ih =>
    intro pre b hlen
    simp only [List.flatMap_cons, List.length_append] at hlen
    simp only [marshalIDs]
    rw [put_written _ _ _ (by simp only [List.length_append]; omega)]
    simp only [Option.bind_eq_bind, Option.some_bind]
    rw [ih _ _ (by simp only [List.length_append]; omega)]
    simp only [List.flatMap_cons, List.append_assoc]

theorem marshal3_layout (h : Helpers) (m : NamespaceRequest) (b : List (Fin 256))
    (hlen : (requestLayout h m).length ≤ b.length) :
    marshal3 h m b = some (written (requestLayout h m) b) := by
  have hl := hlen
  simp only [requestLayout, List.length_append] at hl
  simp only [marshal3]
  rw [written_nil b, put_written _ _ _ (by simp only [List.length_append, List.length_nil]; omega)]
  simp only [Option.bind_eq_bind, Option.some_bind]
  rw [put_written _ _ _ (by simp only [List.length_append, List.length_nil]; omega)]
  simp only [Option.bind_eq_bind, Option.some_bind]
  rw [put_written _ _ _ (by simp only [List.length_append, List.length_nil]; omega)]
  simp only [Option.bind_eq_bind, Option.some_bind]
  rw [marshalIDs_layout _ _ _ _ (by simp only [List.length_append, List.length_nil]; omega)]
  simp only [List.nil_append, requestLayout]

theorem marshalRequests_layout (h : Helpers) (rs : List NamespaceRequest) :
    ∀ (pre b : List (Fin 256)), (pre ++ rs.flatMap (requestLayout h)).length ≤ b.length →
      marshalRequests h rs (written pre b)
        = some (written (pre ++ rs.flatMap (requestLayout h)) b) := by
  induction rs with
  | nil => intro pre b _; simp [marshalRequests]
  | cons r rs ih =>
    intro pre b hlen
    simp only [List.flatMap_cons, List.length_append] at hlen
    simp only [marshalRequests]
    rw [sub_written (marshal3_layout h r) _ _ (by simp only [List.length_append]; omega)]
    simp only [Option.bind_eq_bind, Option.some_bind]
    rw [ih _ _ (by simp only [List.length_append]; omega)]
    simp only [List.flatMap_cons, List.append_assoc]

/-- The bytes `marshal4` writes into a buffer whose first byte held `x`. -/
theorem marshal4_layout (h : Helpers) (m : Hello) (x : Fin 256) (b : List (Fin 256))
    (hlen : (helloLayoutFlagsFirst h (flagsByte m x) m).length ≤ (x :: b).length) :
    marshal4 h m (x :: b)
      = some (written (helloLayoutFlagsFirst h (flagsByte m x) m) (x :: b)) := by
  have hl := hlen
  simp only [helloLayoutFlagsFirst, requestsLayout, List.length_append, List.length_cons,
    List.length_nil] at hl
  have hp : m.PeerID.val.length = 32 := m.PeerID.property
  have h0 : ((x :: b, 1) : List (Fin 256) × Nat) = written [x] (x :: b) := by
    simp [written]
  have b1 : ([x] ++ m.PeerID.val).length ≤ (x :: b).length := by
    simp only [List.length_append, List.length_cons, List.length_nil]; omega
  have b2 : ([flagsByte m x] ++ m.PeerID.val ++ h.UInt64Marshal m.Requests.length).length
      ≤ (x :: b).length := by
    simp only [List.length_append, List.length_cons, List.length_nil]; omega
  have b3 : ([flagsByte m x] ++ m.PeerID.val ++ h.UInt64Marshal m.Requests.length ++
      m.Requests.flatMap (requestLayout h)).length ≤ (x :: b).length := by
    simp only [List.length_append, List.length_cons, List.length_nil]; omega
  simp only [marshal4]
  rw [h0, put_written _ _ _ b1]
  simp only [Option.bind_eq_bind, Option.some_bind]
  have h1 : modifyFirst (fun x => if m.IsServer then x ||| 0x01 else x &&& 0xFE)
      (written ([x] ++ m.PeerID.val) (x :: b)).1
      = some (written ([flagsByte m x] ++ m.PeerID.val) (x :: b)).1 := by
    simp [written, modifyFirst, flagsByte]
  have h2 : (written ([x] ++ m.PeerID.val) (x :: b)).2
      = (written ([flagsByte m x] ++ m.PeerID.val) (x :: b)).2 := by
    simp [written]
  rw [h1, h2]
  simp only [Option.bind_eq_bind, Option.some_bind]
  rw [put_written _ _ _ b2]
  simp only [Option.bind_eq_bind, Option.some_bind]
  rw [marshalRequests_layout _ _ _ _ b3]
  simp only [helloLayoutFlagsFirst, requestsLayout, List.append_assoc]

end wire

/-! ## The sample helpers satisfy the laws -/

theorem leb128_round_trip (fuel : Nat) :
    ∀ v, v < 128 ^ (fuel + 1) → ∀ rest,
      unleb128 fuel (leb128 fuel v ++ rest) = some (v, (leb128 fuel v).length) := by
  induction fuel with
  | zero =>
    intro v hv rest
    have : v % 256 = v := Nat.mod_eq_of_lt (by omega)
    simp [leb128, unleb128, Fin.ofNat, this]
  | succ fuel ih =>
    intro v hv rest
    by_cases hsmall : v < 128
    · have : v % 256 = v := Nat.mod_eq_of_lt (by omega)
      simp [leb128, unleb128, hsmall, Fin.ofNat, this]
    · have hdiv : v / 128 < 128 ^ (fuel + 1) := by
        rw [Nat.div_lt_iff_lt_mul (by decide)]
        rw [Nat.pow_succ] at hv
        exact hv
      have hx : (128 + v % 128) % 256 = 128 + v % 128 := Nat.mod_eq_of_lt (by omega)
      have hnot : ¬ (128 + v % 128 < 128) := by omega
      simp only [leb128, hsmall, if_false, List.cons_append, unleb128, Fin.ofNat, hx, hnot,
        ih _ hdiv rest, Option.map_some', List.length_cons]
      congr 2
      omega

theorem leb128_length_pos (fuel v : Nat) : 0 < (leb128 fuel v).length := by
  cases fuel with
  | zero => simp [leb128]
  | succ fuel =>
    simp only [leb128]
    split <;> simp

theorem ofCodePoints_codePoints (cs : List Char) : ofCodePoints (codePoints cs) = cs := by
  induction cs with
  | nil => rfl
  | cons c cs ih =>
    have hc : c.toNat < 4294967296 := by
      have := c.val.toNat_lt
      simpa [Char.toNat] using this
    have hsum : c.toNat % 256 + 256 * (c.toNat / 256 % 256) + 65536 * (c.toNat / 65536 % 256)
        + 16777216 * (c.toNat / 16777216 % 256) = c.toNat := by omega
    simp only [codePoints, ofCodePoints, Fin.ofNat, hsum, ih, Char.ofNat_toNat]

theorem sampleHelpers_laws : sampleHelpers.Laws := by
  refine ⟨?_, ?_, ?_, rfl⟩
  · intro v hv rest
    exact leb128_round_trip 9 v (Nat.lt_trans hv (by decide)) rest
  · intro v _
    have := leb128_length_pos 9 v
    show (leb128 9 v).length = (leb128 9 v).length - 1 + 1
    omega
  · intro s
    show String.mk (ofCodePoints (codePoints s.data)) = s
    rw [ofCodePoints_codePoints]

namespace wire

/-! ## Reading from a buffer -/

theorem getUInt64_at {h : Helpers} (hl : h.Laws) {v : Nat} (hv : v < 2 ^ 64)
    (pre rest : List (Fin 256)) :
    getUInt64 h (pre ++ (h.UInt64Marshal v ++ rest)) pre.length
      = some (v, (pre ++ h.UInt64Marshal v).length) := by
  simp only [getUInt64, List.drop_left', hl.1 v hv rest, Option.map_some', List.length_append]

theorem slice_at (pre s rest : List (Fin 256)) :
    slice (pre ++ (s ++ rest)) pre.length s.length = some s := by
  have : pre.length + s.length ≤ (pre ++ (s ++ rest)).length := by
    simp only [List.length_append]; omega
  unfold slice
  rw [if_pos this]
  simp only [List.drop_left', List.take_left']

theorem peerAt_at (pre : List (Fin 256)) (p : PeerID) (rest : List (Fin 256)) :
    peerAt (pre ++ (p.val ++ rest)) pre.length = some p := by
  have hp : p.val.length = 32 := p.property
  have hlen : pre.length + 32 ≤ (pre ++ (p.val ++ rest)).length := by
    simp only [List.length_append]; omega
  unfold peerAt
  rw [dif_pos hlen]
  congr 1
  apply Subtype.ext
  show List.take 32 (List.drop pre.length (pre ++ (p.val ++ rest))) = p.val
  rw [List.drop_left' rfl]
  exact List.take_left' hp

theorem subRead_at {α : Type} {f : List (Fin 256) → Option (α × Nat)} {a : α}
    {enc : List (Fin 256)} (pre rest : List (Fin 256))
    (hf : f (enc ++ rest) = some (a, enc.length)) :
    subRead f (pre ++ (enc ++ rest)) pre.length = some (a, (pre ++ enc).length) := by
  have : pre.length ≤ (pre ++ (enc ++ rest)).length := by
    simp only [List.length_append]; omega
  unfold subRead
  rw [if_pos this]
  simp only [List.drop_left', hf, Option.map_some', List.length_append]

theorem namespace_of_no_bytes {h : Helpers} (hl : h.Laws) {ns : Namespace}
    (h0 : (h.bytes ns).length = 0) : ns = "" := by
  have hb : h.bytes ns = [] := List.length_eq_zero.mp h0
  have h1 := hl.2.2.1 ns
  have h2 := hl.2.2.1 ""
  rw [hb] at h1
  rw [hl.2.2.2] at h2
  rw [← h1, h2]

/-- What the block that reads a Namespace yields on the bytes of `ns`. -/
theorem readNamespace_at {h : Helpers} (hl : h.Laws) (old ns : Namespace)
    (hlen : (h.bytes ns).length < 2 ^ 64) (pre rest : List (Fin 256)) :
    readNamespace h old
        (pre ++ (h.UInt64Marshal (h.bytes ns).length ++ (h.bytes ns ++ rest))) pre.length
      = some (if (h.bytes ns).length > 0 then ns else old,
          (pre ++ h.UInt64Marshal (h.bytes ns).length ++ h.bytes ns).length) := by
  unfold readNamespace
  rw [getUInt64_at hl hlen]
  simp only [Option.bind_eq_bind, Option.some_bind]
  by_cases hpos : (h.bytes ns).length > 0
  · rw [if_pos hpos, if_pos hpos]
    have := slice_at (pre ++ h.UInt64Marshal (h.bytes ns).length) (h.bytes ns) rest
    rw [List.append_assoc] at this
    rw [this]
    simp only [Option.map_some', hl.2.2.1, List.length_append]
  · rw [if_neg hpos, if_neg hpos]
    have h0 : (h.bytes ns).length = 0 := by omega
    simp only [List.length_append, h0, Nat.add_zero]

theorem readNamespace_zero {h : Helpers} (hl : h.Laws) (ns : Namespace)
    (hlen : (h.bytes ns).length < 2 ^ 64) (pre rest : List (Fin 256)) :
    readNamespace h ""
        (pre ++ (h.UInt64Marshal (h.bytes ns).length ++ (h.bytes ns ++ rest))) pre.length
      = some (ns, (pre ++ h.UInt64Marshal (h.bytes ns).length ++ h.bytes ns).length) := by
  rw [readNamespace_at hl "" ns hlen]
  by_cases hpos : (h.bytes ns).length > 0
  · rw [if_pos hpos]
  · rw [if_neg hpos, namespace_of_no_bytes hl (by omega : (h.bytes ns).length = 0)]

theorem unmarshal2_zero {h : Helpers} (hl : h.Laws) (m0 m : MessageDescriptor)
    (h0 : m0.Namespace = "") (hlen : (h.bytes m.Namespace).length < 2 ^ 64)
    (hid : m.MessageID < 2 ^ 64) (rest : List (Fin 256)) :
    unmarshal2 h m0 (descriptorLayout h m ++ rest) = some (m, (descriptorLayout h m).length) := by
  have h1 := readNamespace_zero hl m.Namespace hlen [] (h.UInt64Marshal m.MessageID ++ rest)
  have h2 := getUInt64_at hl hid
    (h.UInt64Marshal (h.bytes m.Namespace).length ++ h.bytes m.Namespace) rest
  simp only [List.nil_append, List.length_nil] at h1
  simp only [unmarshal2, descriptorLayout, List.append_assoc, h0] at h1 h2 ⊢
  rw [h1]
  simp only [Option.bind_eq_bind, Option.some_bind, List.length_append] at h2 ⊢
  rw [h2]
  simp only [Option.some_bind]

theorem unmarshal0_zero {h : Helpers} (hl : h.Laws) (m0 m : RevisionDescriptor)
    (h0 : m0.Message.Namespace = "") (hlen : (h.bytes m.Message.Namespace).length < 2 ^ 64)
    (hid : m.Message.MessageID < 2 ^ 64) (hidx : m.Index < 2 ^ 64) (rest : List (Fin 256)) :
    unmarshal0 h m0 (revisionLayout h m ++ rest) = some (m, (revisionLayout h m).length) := by
  have h1 := subRead_at [] (h.UInt64Marshal m.Index ++ rest)
    (unmarshal2_zero hl m0.Message m.Message h0 hlen hid (h.UInt64Marshal m.Index ++ rest))
  have h2 := getUInt64_at hl hidx (descriptorLayout h m.Message) rest
  simp only [List.nil_append, List.length_nil] at h1
  simp only [unmarshal0, revisionLayout, List.append_assoc] at h1 h2 ⊢
  rw [h1]
  simp only [Option.bind_eq_bind, Option.some_bind]
  rw [h2]
  simp only [Option.some_bind, List.length_append]

theorem unmarshal1_zero {h : Helpers} (hl : h.Laws) (m0 m : Header)
    (h0 : m0.Revision.Message.Namespace = "") (hr : m.InRange h) (rest : List (Fin 256)) :
    unmarshal1 h m0 (headerLayout h m ++ rest) = some (m, (headerLayout h m).length) := by
  obtain ⟨hlen, hid, hidx⟩ := hr
  have hp : m.Sender.val.length = 32 := m.Sender.property
  have h1 := peerAt_at [] m.Sender (revisionLayout h m.Revision ++ rest)
  have h2 := subRead_at m.Sender.val rest
    (unmarshal0_zero hl m0.Revision m.Revision h0 hlen hid hidx rest)
  simp only [List.nil_append, List.length_nil] at h1
  rw [hp] at h2
  rw [headerLayout_eq]
  simp only [unmarshal1, List.append_assoc] at h1 h2 ⊢
  rw [h1]
  simp only [Option.bind_eq_bind, Option.some_bind]
  rw [h2]
  simp only [Option.some_bind, List.length_append]

end wire

namespace wire

theorem unmarshalIDs_at {h : Helpers} (hl : h.Laws) (ids : List MessageID) :
    (∀ id ∈ ids, id < 2 ^ 64) → ∀ (pre rest : List (Fin 256)),
      unmarshalIDs h (pre ++ (ids.flatMap h.UInt64Marshal ++ rest)) ids.length pre.length
        = some (ids, (pre ++ ids.flatMap h.UInt64Marshal).length) := by
  induction ids with
  | nil => intro _ pre rest; simp [unmarshalIDs]
  | cons id ids ih =>
    intro hr pre rest
    have h1 := getUInt64_at hl (hr id (List.mem_cons_self _ _)) pre
      (ids.flatMap h.UInt64Marshal ++ rest)
    have h2 := ih (fun x hx => hr x (List.mem_cons_of_mem _ hx)) (pre ++ h.UInt64Marshal id) rest
    simp only [List.flatMap_cons, List.append_assoc, List.length_cons, unmarshalIDs] at h1 h2 ⊢
    rw [h1]
    simp only [Option.bind_eq_bind, Option.some_bind, List.length_append] at h2 ⊢
    rw [h2]
    simp only [Option.map_some', Nat.add_assoc]

theorem unmarshal3_zero {h : Helpers} (hl : h.Laws) (m : NamespaceRequest) (hr : m.InRange h)
    (rest : List (Fin 256)) :
    unmarshal3 h { Namespace := "", MessageIDs := [] } (requestLayout h m ++ rest)
      = some (m, (requestLayout h m).length) := by
  obtain ⟨hlen, hcount, hids⟩ := hr
  have h1 := readNamespace_zero hl m.Namespace hlen []
    (h.UInt64Marshal m.MessageIDs.length ++ (m.MessageIDs.flatMap h.UInt64Marshal ++ rest))
  have h2 := getUInt64_at hl hcount
    (h.UInt64Marshal (h.bytes m.Namespace).length ++ h.bytes m.Namespace)
    (m.MessageIDs.flatMap h.UInt64Marshal ++ rest)
  have h3 := unmarshalIDs_at hl m.MessageIDs hids
    (h.UInt64Marshal (h.bytes m.Namespace).length ++ h.bytes m.Namespace ++
      h.UInt64Marshal m.MessageIDs.length) rest
  simp only [List.nil_append, List.length_nil] at h1
  simp only [unmarshal3, requestLayout, List.append_assoc] at h1 h2 h3 ⊢
  rw [h1]
  simp only [Option.bind_eq_bind, Option.some_bind, List.length_append] at h2 h3 ⊢
  rw [h2]
  simp only [Option.some_bind]
  by_cases hpos : m.MessageIDs.length > 0
  · rw [if_pos hpos, h3]
    simp only [Option.map_some', Nat.add_assoc]
  · rw [if_neg hpos]
    have hnil : m.MessageIDs = [] := List.length_eq_zero.mp (by omega)
    cases m with
    | mk ns ids =>
      simp only at hnil
      subst hnil
      simp

theorem unmarshalRequests_at {h : Helpers} (hl : h.Laws) (rs : List NamespaceRequest) :
    (∀ r ∈ rs, r.InRange h) → ∀ (pre rest : List (Fin 256)),
      unmarshalRequests h (pre ++ (rs.flatMap (requestLayout h) ++ rest)) rs.length pre.length
        = some (rs, (pre ++ rs.flatMap (requestLayout h)).length) := by
  induction rs with
  | nil => intro _ pre rest; simp [unmarshalRequests]
  | cons r rs ih =>
    intro hr pre rest
    have h1 := subRead_at pre (rs.flatMap (requestLayout h) ++ rest)
      (unmarshal3_zero hl r (hr r (List.mem_cons_self _ _)) (rs.flatMap (requestLayout h) ++ rest))
    have h2 := ih (fun x hx => hr x (List.mem_cons_of_mem _ hx)) (pre ++ requestLayout h r) rest
    simp only [List.flatMap_cons, List.append_assoc, List.length_cons, unmarshalRequests]
      at h1 h2 ⊢
    rw [h1]
    simp only [Option.bind_eq_bind, Option.some_bind, List.length_append] at h2 ⊢
    rw [h2]
    simp only [Option.map_some', Nat.add_assoc]

set_option maxRecDepth 100000 in
theorem flagsByte_bit (m : Hello) (x : Fin 256) :
    decide (flagsByte m x &&& 0x01 ≠ 0) = m.IsServer := by
  have h1 : ∀ x : Fin 256, (x ||| 0x01) &&& 0x01 ≠ 0 := by decide
  have h2 : ∀ x : Fin 256, (x &&& 0xFE) &&& 0x01 = 0 := by decide
  unfold flagsByte
  cases m.IsServer with
  | true => simpa using h1 x
  | false => simpa using h2 x

set_option maxRecDepth 100000 in
theorem flagsByte_other_bits (m : Hello) (x : Fin 256) :
    (flagsByte m x).val / 2 = x.val / 2 ∧ ((flagsByte m x).val % 2 = 1 ↔ m.IsServer = true) := by
  have h1 : ∀ x : Fin 256, (x ||| 0x01).val / 2 = x.val / 2 ∧ (x ||| 0x01).val % 2 = 1 := by
    decide
  have h2 : ∀ x : Fin 256, (x &&& 0xFE).val / 2 = x.val / 2 ∧ (x &&& 0xFE).val % 2 = 0 := by
    decide
  unfold flagsByte
  cases m.IsServer with
  | true => simpa using h1 x
  | false =>
    have := h2 x
    simp only [Bool.false_eq_true, if_false]
    refine ⟨this.1, fun e => ?_, fun e => by cases e⟩
    rw [this.2] at e
    exact absurd e (by decide)

theorem unmarshal4_zero {h : Helpers} (hl : h.Laws) (m0 m : Hello) (h0 : m0.Requests = [])
    (hr : m.InRange h) (flags : Fin 256) (hflags : decide (flags &&& 0x01 ≠ 0) = m.IsServer)
    (rest : List (Fin 256)) :
    unmarshal4 h m0 (helloLayoutFlagsFirst h flags m ++ rest)
      = some (m, (helloLayoutFlagsFirst h flags m).length) := by
  obtain ⟨hcount, hreqs⟩ := hr
  have hp : m.PeerID.val.length = 32 := m.PeerID.property
  have h1 := peerAt_at [flags] m.PeerID (requestsLayout h m ++ rest)
  have h2 := getUInt64_at hl hcount ([flags] ++ m.PeerID.val)
    (m.Requests.flatMap (requestLayout h) ++ rest)
  have h3 := unmarshalRequests_at hl m.Requests hreqs
    ([flags] ++ m.PeerID.val ++ h.UInt64Marshal m.Requests.length) rest
  simp only [List.length_cons, List.length_nil, Nat.zero_add] at h1
  simp only [List.length_append, List.length_cons, List.length_nil, Nat.zero_add, hp] at h2
  simp only [unmarshal4, helloLayoutFlagsFirst, requestsLayout, List.append_assoc,
    List.singleton_append, List.cons_append, List.nil_append, List.head?_cons] at h1 h2 h3 ⊢
  rw [h1]
  simp only [Option.bind_eq_bind, Option.some_bind]
  rw [h2]
  simp only [Option.some_bind, hflags]
  by_cases hpos : m.Requests.length > 0
  · rw [if_pos hpos]
    simp only [List.length_cons, List.length_append, hp] at h3 ⊢
    have e : 1 + 32 + (h.UInt64Marshal m.Requests.length).length
        = 32 + (h.UInt64Marshal m.Requests.length).length + 1 := by omega
    rw [e, h3]
    simp only [Option.map_some', Nat.add_assoc]
  · rw [if_neg hpos]
    have hnil : m.Requests = [] := List.length_eq_zero.mp (by omega)
    cases m with
    | mk peerID isServer reqs =>
      simp only at hnil
      subst hnil
      simp [h0]
      omega

end wire

namespace wire

/-! ## Sizes -/

theorem size2_eq {h : Helpers} (hl : h.Laws) (m : MessageDescriptor)
    (hlen : (h.bytes m.Namespace).length < 2 ^ 64) (hid : m.MessageID < 2 ^ 64) :
    size2 h m = (descriptorLayout h m).length := by
  simp only [size2, descriptorLayout, List.length_append, hl.2.1 _ hlen, hl.2.1 _ hid]
  omega

theorem size1_eq {h : Helpers} (hl : h.Laws) (m : Header) (hr : m.InRange h) :
    size1 h m = (headerLayout h m).length := by
  obtain ⟨hlen, hid, hidx⟩ := hr
  have hp : m.Sender.val.length = 32 := m.Sender.property
  rw [headerLayout_eq]
  simp only [size1, size0, size2_eq hl m.Revision.Message hlen hid, revisionLayout,
    List.length_append, hl.2.1 _ hidx, hp]
  omega

theorem sizeIDs_eq {h : Helpers} (hl : h.Laws) (ids : List MessageID) :
    (∀ id ∈ ids, id < 2 ^ 64) →
      (ids.flatMap h.UInt64Marshal).length = ids.length + sizeIDs h ids := by
  induction ids with
  | nil => intro _; rfl
  | cons id ids ih =>
    intro hr
    simp only [List.flatMap_cons, List.length_append, List.length_cons, sizeIDs,
      hl.2.1 _ (hr id (List.mem_cons_self _ _)),
      ih (fun x hx => hr x (List.mem_cons_of_mem _ hx))]
    omega

theorem size3_eq {h : Helpers} (hl : h.Laws) (m : NamespaceRequest) (hr : m.InRange h) :
    size3 h m = (requestLayout h m).length := by
  obtain ⟨hlen, hcount, hids⟩ := hr
  simp only [size3, requestLayout, List.length_append, hl.2.1 _ hlen, hl.2.1 _ hcount,
    sizeIDs_eq hl m.MessageIDs hids]
  omega

theorem sizeRequests_eq {h : Helpers} (hl : h.Laws) (rs : List NamespaceRequest) :
    (∀ r ∈ rs, r.InRange h) → sizeRequests h rs = (rs.flatMap (requestLayout h)).length := by
  induction rs with
  | nil => intro _; rfl
  | cons r rs ih =>
    intro hr
    simp only [List.flatMap_cons, List.length_append, sizeRequests,
      size3_eq hl r (hr r (List.mem_cons_self _ _)),
      ih (fun x hx => hr x (List.mem_cons_of_mem _ hx))]

theorem size4_eq {h : Helpers} (hl : h.Laws) (m : Hello) (hr : m.InRange h) (flags : Fin 256) :
    size4 h m = (helloLayoutFlagsFirst h flags m).length := by
  obtain ⟨hcount, hreqs⟩ := hr
  have hp : m.PeerID.val.length = 32 := m.PeerID.property
  simp only [size4, helloLayoutFlagsFirst, requestsLayout, List.length_append, List.length_cons,
    List.length_nil, hl.2.1 _ hcount, sizeRequests_eq hl m.Requests hreqs, hp]
  omega

theorem Marshal_header {h : Helpers} (m : Header) (buf : List (Fin 256))
    (hlen : (headerLayout h m).length ≤ buf.length) :
    Marshaller.Marshal h (.header m) buf
      = some (id1, (headerLayout h m).length,
          headerLayout h m ++ buf.drop (headerLayout h m).length) := by
  simp only [Marshaller.Marshal, marshal1_layout h m buf hlen, Option.map_some', written]

theorem Marshal_hello {h : Helpers} (m : Hello) (x : Fin 256) (b : List (Fin 256))
    (hlen : (helloLayoutFlagsFirst h (flagsByte m x) m).length ≤ (x :: b).length) :
    Marshaller.Marshal h (.hello m) (x :: b)
      = some (id4, (helloLayoutFlagsFirst h (flagsByte m x) m).length,
          helloLayoutFlagsFirst h (flagsByte m x) m ++
            (x :: b).drop (helloLayoutFlagsFirst h (flagsByte m x) m).length) := by
  simp only [Marshaller.Marshal, marshal4_layout h m x b hlen, Option.map_some', written]

theorem Unmarshal_header {h : Helpers} (hl : h.Laws) (m : Header) (hr : m.InRange h)
    (rest : List (Fin 256)) :
    Marshaller.Unmarshal h id1 (headerLayout h m ++ rest)
      = some (.header m, (headerLayout h m).length) := by
  have : id1 ≠ id4 := by decide
  simp only [Marshaller.Unmarshal, this, if_false, if_true,
    unmarshal1_zero hl Header.zero m rfl hr rest, Option.map_some']

theorem Unmarshal_hello {h : Helpers} (hl : h.Laws) (m : Hello) (hr : m.InRange h)
    (flags : Fin 256) (hflags : decide (flags &&& 0x01 ≠ 0) = m.IsServer)
    (rest : List (Fin 256)) :
    Marshaller.Unmarshal h id4 (helloLayoutFlagsFirst h flags m ++ rest)
      = some (.hello m, (helloLayoutFlagsFirst h flags m).length) := by
  simp only [Marshaller.Unmarshal, if_true,
    unmarshal4_zero hl Hello.zero m rfl hr flags hflags rest, Option.map_some']

end wire

/-- C22: For every Header and every buffer that has room for them, the bytes
Marshal writes at the start of the buffer are exactly the 32 bytes of Sender,
the varint length of the Namespace, the Namespace bytes, MessageID as a varint
and Index as a varint, in this order; the rest of the buffer is left as it
was, the id returned is that of Header and the size returned is the number of
these bytes. -/
theorem Marshal_header_layout (h : wire.Helpers) (m : wire.Header) (buf : List (Fin 256))
    (hlen : (wire.headerLayout h m).length ≤ buf.length) :
    wire.Marshaller.Marshal h (.header m) buf
      = some (wire.id1, (wire.headerLayout h m).length,
          wire.headerLayout h m ++ buf.drop (wire.headerLayout h m).length) ∧
    wire.headerLayout h m
      = m.Sender.val ++ h.UInt64Marshal (h.bytes m.Revision.Message.Namespace).length ++
          h.bytes m.Revision.Message.Namespace ++
          h.UInt64Marshal m.Revision.Message.MessageID ++ h.UInt64Marshal m.Revision.Index ∧
    m.Sender.val.length = 32 :=
  ⟨wire.Marshal_header m buf hlen, rfl, m.Sender.property⟩

/-- Witness of C22: a header marshalled into a buffer of 50 bytes. -/
theorem Marshal_header_layout_witness :
    (wire.headerLayout sampleHelpers sampleWireHeader).length ≤ (sampleBuf 50 255).length ∧
    wire.Marshaller.Marshal sampleHelpers (.header sampleWireHeader) (sampleBuf 50 255)
      = some (wire.id1, (wire.headerLayout sampleHelpers sampleWireHeader).length,
          wire.headerLayout sampleHelpers sampleWireHeader ++
            (sampleBuf 50 255).drop (wire.headerLayout sampleHelpers sampleWireHeader).length) :=
  ⟨by decide,
    (Marshal_header_layout sampleHelpers sampleWireHeader (sampleBuf 50 255) (by decide)).1⟩

/-- C21, as the specification states it, fails: for the sample Hello (PeerID
of 32 bytes 9, IsServer false) and a buffer of zero bytes, Marshal writes 65
bytes of which the first is the flags byte 0 and the next 32 are the PeerID;
whatever flags byte one takes, they are not the 32 bytes of PeerID followed by
the flags byte and the requests. -/
theorem Marshal_hello_is_not_peer_first :
    wire.Marshaller.Marshal sampleHelpers (.hello sampleHello) (sampleBuf 80 0)
      = some (wire.id4, 65,
          wire.helloLayoutFlagsFirst sampleHelpers 0 sampleHello ++ sampleBuf 15 0) ∧
    (wire.helloLayoutFlagsFirst sampleHelpers 0 sampleHello).take 33
      = 0 :: sampleHello.PeerID.val ∧
    ∀ flags, (wire.helloLayoutFlagsFirst sampleHelpers 0 sampleHello ++ sampleBuf 15 0).take 65
      ≠ wire.helloLayoutPeerFirst sampleHelpers flags sampleHello := by
  refine ⟨by decide, by decide, ?_⟩
  intro flags hEq
  have h1 := congrArg List.head? hEq
  have h2 : (List.take 65 (wire.helloLayoutFlagsFirst sampleHelpers 0 sampleHello ++
      sampleBuf 15 0)).head? = some 0 := by decide
  have h3 : (wire.helloLayoutPeerFirst sampleHelpers flags sampleHello).head? = some 9 := rfl
  rw [h2, h3] at h1
  exact absurd h1 (by decide)

/-- C21, amended: for every Hello and every buffer that has room, the bytes
Marshal writes are, in this order: the flags byte, then the 32 bytes of PeerID,
then the varint count of Requests and each NamespaceRequest (varint namespace
length, namespace bytes, varint count of MessageIDs, each MessageID as a
varint).  The lowest bit of the flags byte is IsServer; its other bits are
those the first byte of the buffer held before. -/
theorem Marshal_hello_layout (h : wire.Helpers) (m : wire.Hello) (x : Fin 256)
    (b : List (Fin 256))
    (hlen : (wire.helloLayoutFlagsFirst h (wire.flagsByte m x) m).length ≤ (x :: b).length) :
    wire.Marshaller.Marshal h (.hello m) (x :: b)
      = some (wire.id4, (wire.helloLayoutFlagsFirst h (wire.flagsByte m x) m).length,
          wire.helloLayoutFlagsFirst h (wire.flagsByte m x) m ++
            (x :: b).drop (wire.helloLayoutFlagsFirst h (wire.flagsByte m x) m).length) ∧
    wire.helloLayoutFlagsFirst h (wire.flagsByte m x) m
      = [wire.flagsByte m x] ++ m.PeerID.val ++
          (h.UInt64Marshal m.Requests.length ++ m.Requests.flatMap fun r =>
            h.UInt64Marshal (h.bytes r.Namespace).length ++ h.bytes r.Namespace ++
              h.UInt64Marshal r.MessageIDs.length ++ r.MessageIDs.flatMap h.UInt64Marshal) ∧
    m.PeerID.val.length = 32 ∧
    ((wire.flagsByte m x).val % 2 = 1 ↔ m.IsServer = true) ∧
    (wire.flagsByte m x).val / 2 = x.val / 2 :=
  ⟨wire.Marshal_hello m x b hlen, rfl, m.PeerID.property, (wire.flagsByte_other_bits m x).2,
    (wire.flagsByte_other_bits m x).1⟩

/-- Witness of C21, amended: the sample Hello marshalled into a buffer of 80
bytes 255; the flags byte becomes 254. -/
theorem Marshal_hello_layout_witness :
    (wire.helloLayoutFlagsFirst sampleHelpers (wire.flagsByte sampleHello 255)
      sampleHello).length ≤ ((255 : Fin 256) :: sampleBuf 79 255).length ∧
    wire.flagsByte sampleHello 255 = 254 ∧
    wire.Marshaller.Marshal sampleHelpers (.hello sampleHello) (255 :: sampleBuf 79 255)
      = some (wire.id4,
          (wire.helloLayoutFlagsFirst sampleHelpers (wire.flagsByte sampleHello 255)
            sampleHello).length,
          wire.helloLayoutFlagsFirst sampleHelpers (wire.flagsByte sampleHello 255) sampleHello ++
            ((255 : Fin 256) :: sampleBuf 79 255).drop
              (wire.helloLayoutFlagsFirst sampleHelpers (wire.flagsByte sampleHello 255)
                sampleHello).length) :=
  ⟨by decide, by decide,
    (Marshal_hello_layout sampleHelpers sampleHello 255 (sampleBuf 79 255) (by decide)).1⟩

/-- C29: With varint helpers that read back what they wrote, for every Header
whose integers fit `uint64` and every buffer of at least Size bytes, Marshal
succeeds, and Unmarshal, called with the id Marshal returned on the buffer
Marshal wrote into, yields the original Header and reports the size Marshal
reported, which is the size Size computed.  The same holds for every Hello
whose integers fit `uint64` and every buffer of at least its Size bytes, which
need not have room for any Header. -/
theorem codec_round_trip (h : wire.Helpers) (hl : h.Laws) :
    (∀ (hd : wire.Header) (buf : List (Fin 256)) (n : Nat), hd.InRange h →
      wire.Marshaller.Size h (.header hd) = some n → n ≤ buf.length →
      ∃ id buf1, wire.Marshaller.Marshal h (.header hd) buf = some (id, n, buf1) ∧
        wire.Marshaller.Unmarshal h id buf1 = some (.header hd, n)) ∧
    (∀ (g : wire.Hello) (buf : List (Fin 256)) (n : Nat), g.InRange h →
      wire.Marshaller.Size h (.hello g) = some n → n ≤ buf.length →
      ∃ id buf1, wire.Marshaller.Marshal h (.hello g) buf = some (id, n, buf1) ∧
        wire.Marshaller.Unmarshal h id buf1 = some (.hello g, n)) := by
  constructor
  · intro hd buf n hr hs hn
    simp only [wire.Marshaller.Size, Option.some.injEq] at hs
    rw [wire.size1_eq hl hd hr] at hs
    subst hs
    exact ⟨wire.id1, _, wire.Marshal_header hd buf hn, wire.Unmarshal_header hl hd hr _⟩
  · intro g buf n hr hs hn
    simp only [wire.Marshaller.Size, Option.some.injEq] at hs
    cases buf with
    | nil =>
      rw [wire.size4_eq hl g hr 0] at hs
      subst hs
      simp [wire.helloLayoutFlagsFirst] at hn
    | cons x b =>
      rw [wire.size4_eq hl g hr (wire.flagsByte g x)] at hs
      subst hs
      exact ⟨wire.id4, _, wire.Marshal_hello g x b hn,
        wire.Unmarshal_hello hl g hr _ (wire.flagsByte_bit g x) _⟩

/-- Witness of C29, with LEB128 varints: the sample header in a buffer of
exactly its 44 bytes, the sample Hello in a buffer of 80 bytes, and the Hello
without requests, as a server sends it, in a buffer of exactly its 34 bytes. -/
theorem codec_round_trip_witness :
    sampleHelpers.Laws ∧ sampleWireHeader.InRange sampleHelpers ∧
    sampleHello.InRange sampleHelpers ∧ sampleHelloNoRequests.InRange sampleHelpers ∧
    wire.Marshaller.Size sampleHelpers (.header sampleWireHeader) = some 44 ∧
    wire.Marshaller.Size sampleHelpers (.hello sampleHello) = some 65 ∧
    wire.Marshaller.Size sampleHelpers (.hello sampleHelloNoRequests) = some 34 ∧
    (∃ id buf1, wire.Marshaller.Marshal sampleHelpers (.header sampleWireHeader)
        (sampleBuf 44 255) = some (id, 44, buf1) ∧
      wire.Marshaller.Unmarshal sampleHelpers id buf1 = some (.header sampleWireHeader, 44)) ∧
    (∃ id buf1, wire.Marshaller.Marshal sampleHelpers (.hello sampleHello)
        (sampleBuf 80 255) = some (id, 65, buf1) ∧
      wire.Marshaller.Unmarshal sampleHelpers id buf1 = some (.hello sampleHello, 65)) ∧
    (∃ id buf1, wire.Marshaller.Marshal sampleHelpers (.hello sampleHelloNoRequests)
        (sampleBuf 34 255) = some (id, 34, buf1) ∧
      wire.Marshaller.Unmarshal sampleHelpers id buf1
        = some (.hello sampleHelloNoRequests, 34)) :=
  ⟨sampleHelpers_laws, by decide, by decide, by decide, by decide, by decide, by decide,
    (codec_round_trip sampleHelpers sampleHelpers_laws).1 sampleWireHeader (sampleBuf 44 255) 44
      (by decide) (by decide) (by decide),
    (codec_round_trip sampleHelpers sampleHelpers_laws).2 sampleHello (sampleBuf 80 255) 65
      (by decide) (by decide) (by decide),
    (codec_round_trip sampleHelpers sampleHelpers_laws).2 sampleHelloNoRequests
      (sampleBuf 34 255) 34 (by decide) (by decide) (by decide)⟩

section NewClientErrors

variable {Msg Mar : Type}

/-- The inner loop of `NewClient` returns the error of the first sample
message whose `ID` fails, and completes when there is none. -/
theorem messageIDs_total (codec : Codec Msg Mar) (marshaller : Mar) (ms : List Msg) :
    ∀ acc : List wire.MessageID,
      (∃ ids, NewClient.messageIDs codec marshaller acc ms = .ok ids ∧
        ∀ m ∈ ms, ∃ id, codec.ID marshaller m = .ok id) ∨
      (∃ err, NewClient.messageIDs codec marshaller acc ms = .error err ∧
        ∃ m ∈ ms, codec.ID marshaller m = .error err) := by
  induction ms with
  | nil => intro acc; exact Or.inl ⟨acc, rfl, fun m hm => by cases hm⟩
  | cons m ms ih =>
    intro acc
    cases hid : codec.ID marshaller m with
    | error err =>
      refine Or.inr ⟨err, by simp only [NewClient.messageIDs, hid], m, List.mem_cons_self _ _, hid⟩
    | ok msgID =>
      rcases ih (acc ++ [msgID]) with ⟨ids, h1, h2⟩ | ⟨err, h1, m1, hm1, h2⟩
      · refine Or.inl ⟨ids, by simp only [NewClient.messageIDs, hid, h1], ?_⟩
        intro x hx
        rcases List.mem_cons.mp hx with rfl | hx
        · exact ⟨msgID, hid⟩
        · exact h2 x hx
      · exact Or.inr ⟨err, by simp only [NewClient.messageIDs, hid, h1], m1,
          List.mem_cons_of_mem _ hm1, h2⟩

/-- The outer loop of `NewClient` returns the error of a sample message whose
`ID` fails, and completes when there is none. -/
theorem loop_total (codec : Codec Msg Mar) (rs : List (RequestConfig Msg Mar)) :
    ∀ (marshallers : GoMap wire.Namespace Mar) (requests : List wire.NamespaceRequest),
      (∃ r, NewClient.loop codec marshallers requests rs = .ok r ∧
        ∀ rc ∈ rs, ∀ m ∈ rc.Messages, ∃ id, codec.ID rc.Marshaller m = .ok id) ∨
      (∃ err, NewClient.loop codec marshallers requests rs = .error err ∧
        ∃ rc ∈ rs, ∃ m ∈ rc.Messages, codec.ID rc.Marshaller m = .error err) := by
  induction rs with
  | nil =>
    intro marshallers requests
    exact Or.inl ⟨(marshallers, requests), rfl, fun rc hrc => by cases hrc⟩
  | cons r rs ih =>
    intro marshallers requests
    rcases messageIDs_total codec r.Marshaller r.Messages [] with
      ⟨ids, h1, h2⟩ | ⟨err, h1, m, hm, h2⟩
    · rcases ih (match GoMap.lookup marshallers (marshallerToNamespace codec r.Marshaller) with
          | some _ => marshallers
          | none => GoMap.store marshallers (marshallerToNamespace codec r.Marshaller) r.Marshaller)
          (requests ++ [{ Namespace := marshallerToNamespace codec r.Marshaller,
                          MessageIDs := ids }]) with
        ⟨res, h3, h4⟩ | ⟨err, h3, rc, hrc, h4⟩
      · refine Or.inl ⟨res, by simp only [NewClient.loop, h1, h3], ?_⟩
        intro rc hrc
        rcases List.mem_cons.mp hrc with rfl | hrc
        · exact h2
        · exact h4 rc hrc
      · exact Or.inr ⟨err, by simp only [NewClient.loop, h1, h3], rc,
          List.mem_cons_of_mem _ hrc, h4⟩
    · exact Or.inr ⟨err, by simp only [NewClient.loop, h1], r, List.mem_cons_self _ _, m, hm, h2⟩

end NewClientErrors

/-- C31: NewClient returns an error (the result `nil, nil, err`) whenever
config.Servers is empty, and then the error "no servers specified"; it returns
an error whenever the codec's ID lookup fails for a configured sample message,
whatever the servers and the identity are, and with servers and an identity
the error is that of a failing lookup of a configured sample.  When Servers is
not empty, every lookup succeeds and the identity is generated, it returns a
client without error: the client holds the configuration and a new client
store with that identity, whose receive channel is empty. -/
theorem NewClient_errors {Msg Mar : Type} (codec : Codec Msg Mar)
    (rand : Except GoError wire.PeerID) (config : ClientConfig Msg Mar) :
    (config.Servers = [] → NewClient codec rand config = .error "no servers specified") ∧
    ((∃ rc ∈ config.Requests, ∃ m ∈ rc.Messages, ∃ e, codec.ID rc.Marshaller m = .error e) →
      ∃ err, NewClient codec rand config = .error err ∧
        (config.Servers ≠ [] → (∃ clientID, rand = .ok clientID) →
          ∃ rc ∈ config.Requests, ∃ m ∈ rc.Messages, codec.ID rc.Marshaller m = .error err)) ∧
    (config.Servers ≠ [] →
      (∀ rc ∈ config.Requests, ∀ m ∈ rc.Messages, ∃ id, codec.ID rc.Marshaller m = .ok id) →
      ∀ clientID, rand = .ok clientID →
        ∃ client, NewClient codec rand config = .ok client ∧ client.config = config ∧
          client.conns = newClientConns clientID ∧ client.conns.recvCh = []) := by
  refine ⟨?_, ?_, ?_⟩
  · intro hs
    simp only [NewClient, hs, List.length_nil, if_true]
  · rintro ⟨rc, hrc, m, hm, e, he⟩
    by_cases hs : config.Servers.length = 0
    · exact ⟨"no servers specified", by simp only [NewClient, hs, if_true],
        fun hne => absurd (List.length_eq_zero.mp hs) hne⟩
    · cases rand with
      | error err =>
        exact ⟨err, by simp only [NewClient, hs, if_false], fun _ hid => by
          obtain ⟨clientID, hid⟩ := hid
          cases hid⟩
      | ok clientID =>
        rcases loop_total codec config.Requests [] [] with ⟨res, h1, h2⟩ | ⟨err, h1, h2⟩
        · obtain ⟨id, hid⟩ := h2 rc hrc m hm
          rw [he] at hid
          cases hid
        · exact ⟨err, by simp only [NewClient, hs, if_false, h1], fun _ _ => h2⟩
  · intro hs hall clientID hrand
    have hs0 : ¬ config.Servers.length = 0 := fun h => hs (List.length_eq_zero.mp h)
    subst hrand
    rcases loop_total codec config.Requests [] [] with ⟨res, h1, _⟩ | ⟨err, _, rc, hrc, m, hm, h2⟩
    · obtain ⟨marshallers, requests⟩ := res
      exact ⟨{ config := config, requests := requests, marshallers := marshallers,
               conns := newClientConns clientID },
        by simp only [NewClient, hs0, if_false, h1], rfl, rfl, rfl⟩
    · obtain ⟨id, hid⟩ := hall rc hrc m hm
      rw [h2] at hid
      cases hid

/-- Witness of C31: a configuration without servers; one whose second request
has a sample the codec does not know; and the sample configuration, for which
NewClient returns the sample client. -/
theorem NewClient_errors_witness :
    NewClient fieldCodec (.ok (samplePeer 5)) { sampleConfig with Servers := [] }
      = .error "no servers specified" ∧
    (∃ err, NewClient fieldCodec (.ok (samplePeer 5))
        { sampleConfig with Requests := sampleConfig.Requests ++
            [{ Marshaller := 3, Messages := [sampleMsg 1, ""] }] } = .error err) ∧
    ∃ client, NewClient fieldCodec (.ok (samplePeer 5)) sampleConfig = .ok client ∧
      client.config = sampleConfig ∧ client.conns = newClientConns (samplePeer 5) ∧
      client.conns.recvCh = [] :=
  ⟨(NewClient_errors fieldCodec (.ok (samplePeer 5)) { sampleConfig with Servers := [] }).1 rfl,
    let ⟨err, h, _⟩ := (NewClient_errors fieldCodec (.ok (samplePeer 5))
      { sampleConfig with Requests := sampleConfig.Requests ++
          [{ Marshaller := 3, Messages := [sampleMsg 1, ""] }] }).2.1
      ⟨{ Marshaller := 3, Messages := [sampleMsg 1, ""] }, by decide, "", by decide,
        "unknown message type", rfl⟩
    ⟨err, h⟩,
    (NewClient_errors fieldCodec (.ok (samplePeer 5)) sampleConfig).2.2 (by decide)
      (by
        intro rc hrc m hm
        simp only [sampleConfig, List.mem_cons, List.mem_singleton, List.not_mem_nil,
          or_false] at hrc
        rcases hrc with rfl | rfl
        · simp only [List.mem_cons, List.mem_singleton, List.not_mem_nil, or_false] at hm
          rcases hm with rfl | rfl
          · exact ⟨1, rfl⟩
          · exact ⟨2, rfl⟩
        · simp only [List.mem_cons, List.mem_singleton, List.not_mem_nil, or_false] at hm
          subst hm
          exact ⟨11, rfl⟩)
      (samplePeer 5) rfl⟩

namespace wire

theorem unmarshalRequests_length (h : Helpers) (b : List (Fin 256)) (l : Nat) :
    ∀ (o : Nat) (r : List NamespaceRequest × Nat),
      unmarshalRequests h b l o = some r → r.1.length = l := by
  induction l with
  | zero =>
    intro o r hr
    simp only [unmarshalRequests, Option.some.injEq] at hr
    rw [← hr]
    rfl
  | succ l ih =>
    intro o r hr
    simp only [unmarshalRequests] at hr
    cases h1 : subRead (unmarshal3 h { Namespace := "", MessageIDs := [] }) b o with
    | none => simp [h1] at hr
    | some r1 =>
      simp only [h1, Option.bind_eq_bind, Option.some_bind] at hr
      cases h2 : unmarshalRequests h b l r1.2 with
      | none => simp [h2] at hr
      | some r2 =>
        simp only [h2, Option.map_some', Option.some.injEq] at hr
        rw [← hr]
        simp only [List.length_cons, ih _ _ h2]

/-- Whatever the bytes of the patch are, `applyPatch4` never turns a Requests
list that is not empty into an empty one: it assigns Requests only when the
count it read is positive. -/
theorem applyPatch4_never_empties_requests (h : Helpers) (m : Hello) (b : List (Fin 256))
    (r : Hello × Nat) (hr : applyPatch4 h m b = some r) (hne : m.Requests ≠ []) :
    r.1.Requests ≠ [] := by
  unfold applyPatch4 at hr
  cases h0 : b.head? with
  | none => simp [h0] at hr
  | some flags =>
    simp only [h0, Option.bind_eq_bind, Option.some_bind] at hr
    cases h1 : (if flags &&& 0x01 ≠ 0 then (peerAt b 2).map fun peerID => (peerID, 34)
        else some (m.PeerID, 2)) with
    | none => simp [h1] at hr
    | some r1 =>
      simp only [h1, Option.some_bind] at hr
      cases h2 : b.get? 1 with
      | none =>
        simp only [h2, Option.none_bind] at hr
        cases hr
      | some flags1 =>
        simp only [h2, Option.some_bind] at hr
        by_cases hbit : flags &&& 0x02 ≠ 0
        · rw [if_pos hbit] at hr
          cases h3 : getUInt64 h b r1.2 with
          | none => simp [h3] at hr
          | some x =>
            simp only [h3, Option.bind_eq_bind, Option.some_bind] at hr
            by_cases hpos : x.1 > 0
            · rw [if_pos hpos] at hr
              cases h4 : unmarshalRequests h b x.1 x.2 with
              | none => simp [h4] at hr
              | some rs =>
                simp only [h4, Option.map_some', Option.some.injEq] at hr
                rw [← hr]
                intro hnil
                have hlen := unmarshalRequests_length h b x.1 x.2 rs h4
                simp only at hnil
                rw [hnil] at hlen
                simp only [List.length_nil] at hlen
                omega
            · rw [if_neg hpos] at hr
              simp only [Option.some.injEq] at hr
              rw [← hr]
              exact hne
        · rw [if_neg hbit] at hr
          simp only [Option.some.injEq] at hr
          rw [← hr]
          exact hne

end wire

/-- C32: Two patches that are not applied faithfully.  The patch from the
sample Hello (two requests) to the same Hello without requests is three bytes:
the flags byte with the bit of Requests set, the flags byte of IsServer, and
the count 0; ApplyPatch reads the count 0 and leaves the two requests in place.
The patch from the sample Header (namespace `ns`) to the same Header with an
empty namespace is five bytes: the flags byte with the bit of Revision set, the
namespace length 0, MessageID and Index; ApplyPatch reads the length 0 and
leaves the namespace `ns` in place.  In both cases the message patched equals
the source, not the destination. -/
theorem ApplyPatch_keeps_what_became_empty :
    (wire.Marshaller.MakePatch sampleHelpers (.hello sampleHelloNoRequests) (.hello sampleHello)
        (sampleBuf 80 0) = some (wire.id4, 3, [2, 0, 0] ++ sampleBuf 77 0) ∧
      wire.Marshaller.ApplyPatch sampleHelpers (.hello sampleHello) ([2, 0, 0] ++ sampleBuf 77 0)
        = some (.hello sampleHello, 3) ∧
      sampleHello ≠ sampleHelloNoRequests ∧ sampleHelloNoRequests.Requests = [] ∧
      sampleHello.Requests ≠ []) ∧
    (wire.Marshaller.MakePatch sampleHelpers (.header sampleWireHeaderNoNamespace)
        (.header sampleWireHeader) (sampleBuf 80 0)
        = some (wire.id1, 5, [2, 0, 172, 2, 5] ++ sampleBuf 75 0) ∧
      wire.Marshaller.ApplyPatch sampleHelpers (.header sampleWireHeader)
        ([2, 0, 172, 2, 5] ++ sampleBuf 75 0) = some (.header sampleWireHeader, 5) ∧
      sampleWireHeader ≠ sampleWireHeaderNoNamespace ∧
      sampleWireHeaderNoNamespace.Revision.Message.Namespace = "" ∧
      sampleWireHeader.Revision.Message.Namespace = "ns") ∧
    (wire.Marshaller.MakePatch sampleHelpers (.hello sampleHelloOther) (.hello sampleHello)
        (sampleBuf 80 0)).bind (fun r =>
          wire.Marshaller.ApplyPatch sampleHelpers (.hello sampleHello) r.2.2)
      = some (.hello sampleHelloOther, 50) := by
  decide

namespace wire

theorem readNamespace_never_empties {h : Helpers}
    (hstr : ∀ s : List (Fin 256), s ≠ [] → h.string s ≠ "") (old : Namespace)
    (b : List (Fin 256)) (o : Nat) (r : Namespace × Nat)
    (hr : readNamespace h old b o = some r) (hne : old ≠ "") : r.1 ≠ "" := by
  unfold readNamespace at hr
  cases h1 : getUInt64 h b o with
  | none =>
    simp only [h1, Option.bind_eq_bind, Option.none_bind] at hr
    cases hr
  | some x =>
    simp only [h1, Option.bind_eq_bind, Option.some_bind] at hr
    by_cases hpos : x.1 > 0
    · rw [if_pos hpos] at hr
      unfold slice at hr
      by_cases hlen : x.2 + x.1 ≤ b.length
      · rw [if_pos hlen] at hr
        simp only [Option.map_some', Option.some.injEq] at hr
        rw [← hr]
        apply hstr
        intro hnil
        have := congrArg List.length hnil
        rw [List.length_take, List.length_drop] at this
        simp only [List.length_nil] at this
        omega
      · rw [if_neg hlen] at hr
        simp only [Option.map_none'] at hr
        cases hr
    · rw [if_neg hpos] at hr
      simp only [Option.some.injEq] at hr
      rw [← hr]
      exact hne

theorem unmarshal0_never_empties_namespace {h : Helpers}
    (hstr : ∀ s : List (Fin 256), s ≠ [] → h.string s ≠ "") (m : RevisionDescriptor)
    (b : List (Fin 256)) (r : RevisionDescriptor × Nat)
    (hr : unmarshal0 h m b = some r) (hne : m.Message.Namespace ≠ "") :
    r.1.Message.Namespace ≠ "" := by
  unfold unmarshal0 subRead at hr
  by_cases hlen : 0 ≤ b.length
  · rw [if_pos hlen] at hr
    cases h1 : unmarshal2 h m.Message (b.drop 0) with
    | none =>
      simp only [h1, Option.map_none', Option.bind_eq_bind, Option.none_bind] at hr
      cases hr
    | some r1 =>
      simp only [h1, Option.map_some', Option.bind_eq_bind, Option.some_bind] at hr
      cases h2 : getUInt64 h b (0 + r1.2) with
      | none =>
        simp only [h2, Option.none_bind] at hr
        cases hr
      | some r2 =>
        simp only [h2, Option.some_bind, Option.some.injEq] at hr
        rw [← hr]
        show r1.1.Namespace ≠ ""
        unfold unmarshal2 at h1
        cases h3 : readNamespace h m.Message.Namespace (b.drop 0) 0 with
        | none =>
          simp only [h3, Option.bind_eq_bind, Option.none_bind] at h1
          cases h1
        | some r3 =>
          simp only [h3, Option.bind_eq_bind, Option.some_bind] at h1
          cases h4 : getUInt64 h (b.drop 0) r3.2 with
          | none =>
            simp only [h4, Option.none_bind] at h1
            cases h1
          | some r4 =>
            simp only [h4, Option.some_bind, Option.some.injEq] at h1
            rw [← h1]
            exact readNamespace_never_empties hstr _ _ _ _ h3 hne
  · exact absurd (Nat.zero_le _) hlen

/-- Whatever the bytes of the patch are, `applyPatch1` never turns a Namespace
that is not empty into an empty one, as long as a string made of at least one
byte is not empty: `unmarshal2` assigns Namespace only when the length it read
is positive. -/
theorem applyPatch1_never_empties_namespace {h : Helpers}
    (hstr : ∀ s : List (Fin 256), s ≠ [] → h.string s ≠ "") (m : Header)
    (b : List (Fin 256)) (r : Header × Nat) (hr : applyPatch1 h m b = some r)
    (hne : m.Revision.Message.Namespace ≠ "") : r.1.Revision.Message.Namespace ≠ "" := by
  unfold applyPatch1 at hr
  cases h0 : b.head? with
  | none =>
    simp only [h0, Option.bind_eq_bind, Option.none_bind] at hr
    cases hr
  | some flags =>
    simp only [h0, Option.bind_eq_bind, Option.some_bind] at hr
    cases h1 : (if flags &&& 0x01 ≠ 0 then (peerAt b 1).map fun sender => (sender, 33)
        else some (m.Sender, 1)) with
    | none =>
      simp only [h1, Option.none_bind] at hr
      cases hr
    | some r1 =>
      simp only [h1, Option.some_bind] at hr
      by_cases hbit : flags &&& 0x02 ≠ 0
      · rw [if_pos hbit] at hr
        unfold subRead at hr
        by_cases hlen : r1.2 ≤ b.length
        · rw [if_pos hlen] at hr
          cases h2 : unmarshal0 h m.Revision (b.drop r1.2) with
          | none =>
            simp only [h2, Option.map_none'] at hr
            cases hr
          | some r2 =>
            simp only [h2, Option.map_some', Option.some.injEq] at hr
            rw [← hr]
            exact unmarshal0_never_empties_namespace hstr _ _ _ h2 hne
        · rw [if_neg hlen] at hr
          simp only [Option.map_none'] at hr
          cases hr
      · rw [if_neg hbit] at hr
        simp only [Option.some.injEq] at hr
        rw [← hr]
        exact hne

end wire

end wave
